import Mathlib

/-!
# Lynx-API: short-code resolution service

A shallow embedding of `internal/services/url_service.go` (the `URLService` of the Lynx URL
shortener) together with the two collaborators it drives, the `urls` table of the durable
store and the Redis cache.

* Go strings are Lean `String`s, byte slices are lists of naturals read modulo 256.
* The durable store is the list of rows of the `urls` table, the cache is an association
  list from keys to values with their expiry.
* Every call that leaves the process (entropy, cache, store) is appended to a log kept in the
  state, so that "does not touch the store" is a statement about the log.
* The outcome of every such call that the service cannot control (an unreachable cache, a
  failing query, the bytes drawn from the entropy source) is an explicit input of the
  operation, its *oracle*.  A call that fails has no effect on the store or the cache.
* `strings.ToLower` folds with the lowercase table of the Unicode character database, as Go
  does; the service applies it to codes that passed the charset check.
* Sequences of calls are lists of `Op`, folded over the state by `run`.
* The cache package (`internal/cache`) and the password functions of `models/user.go` are
  embedded as well; `json.Marshal`, `json.Unmarshal` and `argon2.IDKey` are library functions
  and enter as parameters.
-/

namespace Lynx

/-! ## Data model -/

/-- Error values of `internal/types/errors.go` that the URL service returns, and the two
kinds of foreign errors it passes on verbatim (from gorm and from the Redis client), and the
error of the entropy source, which never leaves the service. -/
inductive Err where
  | ErrShortCodeTaken
  | ErrInvalidShortCode
  | ErrGenerateShortCode
  | ErrURLNotFound
  | ErrUnauthorized
  | dbError
  | redisError
  | randError
  deriving DecidableEq, Repr

deriving instance DecidableEq for Except

/-- Row of the `urls` table, `models.URL` (the `User` association is not stored in the row).
`ID` is the primary key and `ShortURL` carries a unique index. -/
structure URL where
  ID : Nat
  UserID : Nat
  LongURL : String
  ShortURL : String
  Clicks : Int
  CreatedAt : Nat
  UpdatedAt : Nat
  deriving DecidableEq, Repr

/-- Value held by the cache under one key, with its time to live in seconds
(`none`: the key does not expire). -/
structure CacheEntry where
  value : String
  ttl : Option Nat
  deriving DecidableEq, Repr

/-- Calls that leave the process, in the order they are issued. -/
inductive Call where
  | randRead
  | redisExists (key : String)
  | redisGet (key : String)
  | redisSet (key value : String) (ttl : Nat)
  | dbCount (shortCode : String)
  | dbFirst (shortCode : String)
  | dbBegin
  | dbCreate (row : URL)
  | dbCommit
  | dbRollback
  | redisDel (keys : List String)
  | redisIncr (key : String)
  | redisExpire (key : String) (ttl : Nat)
  | dbFirstByIDUser (id userID : Nat)
  | dbFirstByID (id : Nat)
  | dbDelete (id : Nat)
  | dbSave (row : URL)
  | dbUpdateClicks (shortCode : String)
  deriving DecidableEq, Repr

/-- State of the world the service acts on: the `urls` table, the cache, the log of the calls
issued so far and the short codes for which a click-accounting goroutine has been started. -/
structure State where
  db : List URL
  cache : List (String × CacheEntry)
  log : List Call
  pending : List String
  deriving DecidableEq, Repr

/-! ## Strings -/

/-- Character class `[a-zA-Z0-9-_]` of `shortCodePattern`. -/
def isCodeChar (c : Char) : Bool :=
  (97 ≤ c.toNat && c.toNat ≤ 122) || (65 ≤ c.toNat && c.toNat ≤ 90) ||
    (48 ≤ c.toNat && c.toNat ≤ 57) || c.toNat == 45 || c.toNat == 95

/-- The compiled pattern `^[a-zA-Z0-9-_]+$` applied with `MatchString`: the whole string is a
non-empty run of characters of the class (in Go `$` without the multi-line flag matches at the
end of the text only). -/
def shortCodePattern.MatchString (s : String) : Bool :=
  !s.data.isEmpty && s.data.all isCodeChar

/-- The simple lowercase mapping of the Unicode character database outside ASCII (Unicode
15.0.0, the version of the `unicode` package since Go 1.21), the table behind
`unicode.ToLower`: an entry `(lo, hi, stride, to)` maps the code points `lo`, `lo + stride`,
... up to `hi` to `to`, `to + stride`, ... in this order. -/
def unicode.lowerRanges : List (Nat × Nat × Nat × Nat) :=
  [(192, 214, 1, 224), (216, 222, 1, 248), (256, 302, 2, 257), (304, 304, 1, 105),
    (306, 310, 2, 307), (313, 327, 2, 314), (330, 374, 2, 331), (376, 376, 1, 255),
    (377, 381, 2, 378), (385, 385, 1, 595), (386, 388, 2, 387), (390, 390, 1, 596),
    (391, 391, 1, 392), (393, 394, 1, 598), (395, 395, 1, 396), (398, 398, 1, 477),
    (399, 399, 1, 601), (400, 400, 1, 603), (401, 401, 1, 402), (403, 403, 1, 608),
    (404, 404, 1, 611), (406, 406, 1, 617), (407, 407, 1, 616), (408, 408, 1, 409),
    (412, 412, 1, 623), (413, 413, 1, 626), (415, 415, 1, 629), (416, 420, 2, 417),
    (422, 422, 1, 640), (423, 423, 1, 424), (425, 425, 1, 643), (428, 428, 1, 429),
    (430, 430, 1, 648), (431, 431, 1, 432), (433, 434, 1, 650), (435, 437, 2, 436),
    (439, 439, 1, 658), (440, 440, 1, 441), (444, 444, 1, 445), (452, 452, 1, 454),
    (453, 453, 1, 454), (455, 455, 1, 457), (456, 456, 1, 457), (458, 458, 1, 460),
    (459, 475, 2, 460), (478, 494, 2, 479), (497, 497, 1, 499), (498, 500, 2, 499),
    (502, 502, 1, 405), (503, 503, 1, 447), (504, 542, 2, 505), (544, 544, 1, 414),
    (546, 562, 2, 547), (570, 570, 1, 11365), (571, 571, 1, 572), (573, 573, 1, 410),
    (574, 574, 1, 11366), (577, 577, 1, 578), (579, 579, 1, 384), (580, 580, 1, 649),
    (581, 581, 1, 652), (582, 590, 2, 583), (880, 882, 2, 881), (886, 886, 1, 887),
    (895, 895, 1, 1011), (902, 902, 1, 940), (904, 906, 1, 941), (908, 908, 1, 972),
    (910, 911, 1, 973), (913, 929, 1, 945), (931, 939, 1, 963), (975, 975, 1, 983),
    (984, 1006, 2, 985), (1012, 1012, 1, 952), (1015, 1015, 1, 1016), (1017, 1017, 1, 1010),
    (1018, 1018, 1, 1019), (1021, 1023, 1, 891), (1024, 1039, 1, 1104), (1040, 1071, 1, 1072),
    (1120, 1152, 2, 1121), (1162, 1214, 2, 1163), (1216, 1216, 1, 1231), (1217, 1229, 2, 1218),
    (1232, 1326, 2, 1233), (1329, 1366, 1, 1377), (4256, 4293, 1, 11520), (4295, 4295, 1, 11559),
    (4301, 4301, 1, 11565), (5024, 5103, 1, 43888), (5104, 5109, 1, 5112), (7312, 7354, 1, 4304),
    (7357, 7359, 1, 4349), (7680, 7828, 2, 7681), (7838, 7838, 1, 223), (7840, 7934, 2, 7841),
    (7944, 7951, 1, 7936), (7960, 7965, 1, 7952), (7976, 7983, 1, 7968), (7992, 7999, 1, 7984),
    (8008, 8013, 1, 8000), (8025, 8025, 1, 8017), (8027, 8027, 1, 8019), (8029, 8029, 1, 8021),
    (8031, 8031, 1, 8023), (8040, 8047, 1, 8032), (8072, 8079, 1, 8064), (8088, 8095, 1, 8080),
    (8104, 8111, 1, 8096), (8120, 8121, 1, 8112), (8122, 8123, 1, 8048), (8124, 8124, 1, 8115),
    (8136, 8139, 1, 8050), (8140, 8140, 1, 8131), (8152, 8153, 1, 8144), (8154, 8155, 1, 8054),
    (8168, 8169, 1, 8160), (8170, 8171, 1, 8058), (8172, 8172, 1, 8165), (8184, 8185, 1, 8056),
    (8186, 8187, 1, 8060), (8188, 8188, 1, 8179), (8486, 8486, 1, 969), (8490, 8490, 1, 107),
    (8491, 8491, 1, 229), (8498, 8498, 1, 8526), (8544, 8559, 1, 8560), (8579, 8579, 1, 8580),
    (9398, 9423, 1, 9424), (11264, 11311, 1, 11312), (11360, 11360, 1, 11361),
    (11362, 11362, 1, 619), (11363, 11363, 1, 7549), (11364, 11364, 1, 637),
    (11367, 11371, 2, 11368), (11373, 11373, 1, 593), (11374, 11374, 1, 625),
    (11375, 11375, 1, 592), (11376, 11376, 1, 594), (11378, 11378, 1, 11379),
    (11381, 11381, 1, 11382), (11390, 11391, 1, 575), (11392, 11490, 2, 11393),
    (11499, 11501, 2, 11500), (11506, 11506, 1, 11507), (42560, 42604, 2, 42561),
    (42624, 42650, 2, 42625), (42786, 42798, 2, 42787), (42802, 42862, 2, 42803),
    (42873, 42875, 2, 42874), (42877, 42877, 1, 7545), (42878, 42886, 2, 42879),
    (42891, 42891, 1, 42892), (42893, 42893, 1, 613), (42896, 42898, 2, 42897),
    (42902, 42920, 2, 42903), (42922, 42922, 1, 614), (42923, 42923, 1, 604),
    (42924, 42924, 1, 609), (42925, 42925, 1, 620), (42926, 42926, 1, 618),
    (42928, 42928, 1, 670), (42929, 42929, 1, 647), (42930, 42930, 1, 669),
    (42931, 42931, 1, 43859), (42932, 42946, 2, 42933), (42948, 42948, 1, 42900),
    (42949, 42949, 1, 642), (42950, 42950, 1, 7566), (42951, 42953, 2, 42952),
    (42960, 42960, 1, 42961), (42966, 42968, 2, 42967), (42997, 42997, 1, 42998),
    (65313, 65338, 1, 65345), (66560, 66599, 1, 66600), (66736, 66771, 1, 66776),
    (66928, 66938, 1, 66967), (66940, 66954, 1, 66979), (66956, 66962, 1, 66995),
    (66964, 66965, 1, 67003), (68736, 68786, 1, 68800), (71840, 71871, 1, 71872),
    (93760, 93791, 1, 93792), (125184, 125217, 1, 125218)]

/-- Whether a code point is mapped by an entry of the table. -/
def unicode.covers (e : Nat × Nat × Nat × Nat) (n : Nat) : Bool :=
  e.1 ≤ n && n ≤ e.2.1 && (n - e.1) % e.2.2.1 == 0

/-- The lowercase code point of a code point outside ASCII. -/
def unicode.lowerOf (n : Nat) : Nat :=
  match unicode.lowerRanges.find? (fun e => unicode.covers e n) with
  | none => n
  | some e => e.2.2.2 + (n - e.1)

/-- Rune mapping `unicode.ToLower`: the letters `A` to `Z` of ASCII directly, a rune outside
ASCII by the table. -/
def unicode.ToLower (r : Char) : Char :=
  if r.toNat < 128 then r.toLower else Char.ofNat (unicode.lowerOf r.toNat)

/-- Lowercase fold `strings.ToLower`: in a string of ASCII only the letters `A` to `Z` are
replaced, every other string is mapped rune by rune with `unicode.ToLower`. -/
def strings.ToLower (s : String) : String :=
  if s.data.all (fun c => c.toNat < 128) then ⟨s.data.map Char.toLower⟩
  else ⟨s.data.map unicode.ToLower⟩

/-- No image of the first entry is mapped by the second entry: the images lie below or above
its code points, or between them. -/
def unicode.apart (e f : Nat × Nat × Nat × Nat) : Bool :=
  e.2.2.2 + (e.2.1 - e.1) < f.1 || f.2.1 < e.2.2.2 ||
    (f.2.2.1 == 2 && (e.2.2.1 == 2 || e.1 == e.2.1) && (e.2.2.2 + f.1) % 2 == 1)

/-- The code points of an entry are outside ASCII, and its images are valid code points and
no capitals of ASCII. -/
def unicode.sound (e : Nat × Nat × Nat × Nat) : Bool :=
  128 ≤ e.1 && 0 < e.2.2.1 && 90 < e.2.2.2 &&
    (e.2.2.2 + (e.2.1 - e.1) < 55296 ||
      (57344 ≤ e.2.2.2 && e.2.2.2 + (e.2.1 - e.1) < 1114112)) &&
    (128 ≤ e.2.2.2 || e.2.2.2 + (e.2.1 - e.1) < 128)

/-- Every entry of the table is sound and no image of the table is mapped by the table. -/
def unicode.imagesFixed : Bool :=
  unicode.lowerRanges.all (fun e =>
    unicode.sound e && unicode.lowerRanges.all (fun f => unicode.apart e f))

/-- Prefix removal `strings.TrimPrefix`: the string without the leading `pre` when it starts
with it, the string itself otherwise. -/
def strings.TrimPrefix (s pre : String) : String :=
  if pre.data.isPrefixOf s.data then ⟨s.data.drop pre.data.length⟩ else s

/-- Cache key of the code → destination mapping, `fmt.Sprintf("url:%s", shortCode)`. -/
def getCacheKey (shortCode : String) : String :=
  "url:" ++ shortCode

/-- Cache key of the click counter, `fmt.Sprintf("clicks:%s", shortCode)`. -/
def getClicksKey (shortCode : String) : String :=
  "clicks:" ++ shortCode

/-- Cache key of the statistics, `fmt.Sprintf("stats:%s", shortCode)`. -/
def getStatsKey (shortCode : String) : String :=
  "stats:" ++ shortCode

/-! ## Base64, URL alphabet -/

/-- Alphabet of `base64.URLEncoding`. -/
def encodeURL : String :=
  "ABCDEFGHIJKLMNOPQRSTUVWXYZabcdefghijklmnopqrstuvwxyz0123456789-_"

/-- Character of the URL alphabet for a six-bit value. -/
def encodeURLChar (i : Nat) : Char :=
  encodeURL.data.getD (i % 64) 'A'

/-- Padded encoding `base64.URLEncoding.EncodeToString` of a byte slice: three bytes give four
characters, a rest of one or two bytes is padded with `=`. -/
def base64.URLEncoding.EncodeToString : List Nat → List Char
  | [] => []
  | [b0] =>
      [encodeURLChar (b0 % 256 / 4), encodeURLChar (b0 % 4 * 16), '=', '=']
  | [b0, b1] =>
      [encodeURLChar (b0 % 256 / 4), encodeURLChar (b0 % 4 * 16 + b1 % 256 / 16),
        encodeURLChar (b1 % 16 * 4), '=']
  | b0 :: b1 :: b2 :: rest =>
      encodeURLChar (b0 % 256 / 4) :: encodeURLChar (b0 % 4 * 16 + b1 % 256 / 16) ::
        encodeURLChar (b1 % 16 * 4 + b2 % 256 / 64) :: encodeURLChar (b2 % 64) ::
        base64.URLEncoding.EncodeToString rest

/-- Buffer of `n` bytes after `rand.Read` filled it from the bytes the entropy source
delivered (a source that delivered fewer bytes leaves the zero bytes of `make`). -/
def fillBytes : Nat → List Nat → List Nat
  | 0, _ => []
  | n + 1, [] => 0 :: fillBytes n []
  | n + 1, b :: bs => b % 256 :: fillBytes n bs

/-- Body of `generateShortCode`: eight random bytes, encoded, cut to six characters.
`entropy` is what `rand.Read` delivered, `none` when it failed. -/
def generateShortCode (entropy : Option (List Nat)) : Except Err String :=
  match entropy with
  | none => .error .randError
  | some bs => .ok ⟨(base64.URLEncoding.EncodeToString (fillBytes 8 bs)).take 6⟩

/-! ## The collaborators: Redis and the `urls` table -/

/-- Redis `GET`: the value under the key, `none` for `redis.Nil`. -/
def Redis.Get (cache : List (String × CacheEntry)) (key : String) : Option String :=
  (cache.lookup key).map CacheEntry.value

/-- Redis `EXISTS` on one key: the number of keys found. -/
def Redis.Exists (cache : List (String × CacheEntry)) (key : String) : Nat :=
  if (cache.lookup key).isSome then 1 else 0

/-- Redis `SET key value EX ttl`: unconditional upsert with expiry. -/
def Redis.Set (cache : List (String × CacheEntry)) (key value : String) (ttl : Nat) :
    List (String × CacheEntry) :=
  (key, ⟨value, some ttl⟩) :: cache.filter (fun e => e.1 != key)

/-- Query `SELECT count(*) FROM urls WHERE short_url = ?`. -/
def DB.Count (db : List URL) (shortCode : String) : Nat :=
  (db.filter (fun r => r.ShortURL == shortCode)).length

/-- Query `Where("short_url = ?", shortCode).First(&url)`; `none` is `gorm.ErrRecordNotFound`.
The unique index on `short_url` leaves at most one candidate row. -/
def DB.First (db : List URL) (shortCode : String) : Option URL :=
  db.find? (fun r => r.ShortURL == shortCode)

/-- Insert `tx.Create(url)`: refused (`none`) when the primary key or the unique index on
`short_url` is violated. -/
def DB.Create (db : List URL) (row : URL) : Option (List URL) :=
  if db.any (fun r => r.ID == row.ID || r.ShortURL == row.ShortURL) then none
  else some (db ++ [row])

/-- No two rows of the table share a short code (the unique index on `short_url`). -/
def UniqueCodes (db : List URL) : Prop :=
  (db.map URL.ShortURL).Nodup

instance (db : List URL) : Decidable (UniqueCodes db) := by
  unfold UniqueCodes; infer_instance

/-- Appends a call to the log of the state. -/
def State.call (st : State) (c : Call) : State :=
  { st with log := st.log ++ [c] }

/-! ## Oracles -/

/-- Outcome of the two calls of `isShortCodeTaken` that the service does not control:
`existsErr` when the Redis `EXISTS` fails, `countErr` when the count query fails. -/
structure TakenOracle where
  existsErr : Bool
  countErr : Bool
  deriving DecidableEq, Repr

/-- One iteration of the loop of `generateUniqueShortCode`: what `rand.Read` delivered
(`none` when it failed) and the outcome of the collision check. -/
structure Attempt where
  entropy : Option (List Nat)
  taken : TakenOracle
  deriving DecidableEq, Repr

/-- Everything `CreateShortURL` receives from outside: the outcome of the collision check of
a custom code, the iterations of the generator by loop index, the values of `uuid.New()` and
of the two `time.Now()`, and which of the steps of the transaction fail: `beginErr` the begin,
`createErr` the insert for a reason that is not in the `urls` table (an unreachable store, an
owner without a row in `users`), `setErr` the cache write, `commitErr` the commit. -/
structure CreateOracle where
  taken : TakenOracle
  attempts : Nat → Attempt
  id : Nat
  createdAt : Nat
  updatedAt : Nat
  beginErr : Bool
  createErr : Bool
  setErr : Bool
  commitErr : Bool

/-- Everything `GetLongURL` receives from outside: whether the Redis `GET` fails (with an
error other than `redis.Nil`), whether the query fails, whether the cache update fails. -/
structure GetOracle where
  getErr : Bool
  firstErr : Bool
  setErr : Bool
  deriving DecidableEq, Repr

/-! ## The service -/

/-- Collision check `URLService.isShortCodeTaken`: the cache first, then the table. Returns
the pair `(taken, err)` of the Go function. -/
def isShortCodeTaken (st : State) (o : TakenOracle) (shortCode : String) :
    (Bool × Option Err) × State :=
  let st1 := st.call (.redisExists (getCacheKey shortCode))
  if !o.existsErr && Redis.Exists st.cache (getCacheKey shortCode) > 0 then
    ((true, none), st1)
  else
    let st2 := st1.call (.dbCount shortCode)
    if o.countErr then ((false, some .dbError), st2)
    else ((decide (DB.Count st.db shortCode > 0), none), st2)

/-- Loop `for i := 0; i < 3; i++` of `generateUniqueShortCode`, entered at index `i` with
`fuel = 3 - i` iterations left. -/
def generateUniqueShortCode.loop (att : Nat → Attempt) :
    Nat → Nat → State → Except Err String × State
  | 0, _, st => (.error .ErrGenerateShortCode, st)
  | fuel + 1, i, st =>
    let st1 := st.call .randRead
    match generateShortCode (att i).entropy with
    | .error _ => generateUniqueShortCode.loop att fuel (i + 1) st1
    | .ok code =>
      match isShortCodeTaken st1 (att i).taken code with
      | ((taken, err), st2) =>
        if err.isSome || !taken then (.ok code, st2)
        else generateUniqueShortCode.loop att fuel (i + 1) st2

/-- Generator `URLService.generateUniqueShortCode`. -/
def generateUniqueShortCode (st : State) (att : Nat → Attempt) : Except Err String × State :=
  generateUniqueShortCode.loop att 3 0 st

/-- First half of `CreateShortURL` (lines 36-56): the short code the link will get, or the
error the function returns before it builds the row. -/
def CreateShortURL.resolveCode (st : State) (o : CreateOracle) (customShortCode : String) :
    Except Err String × State :=
  if customShortCode != "" then
    if !shortCodePattern.MatchString customShortCode then (.error .ErrInvalidShortCode, st)
    else
      let shortCode := strings.ToLower customShortCode
      match isShortCodeTaken st o.taken shortCode with
      | ((_, some e), st1) => (.error e, st1)
      | ((true, none), st1) => (.error .ErrShortCodeTaken, st1)
      | ((false, none), st1) => (.ok shortCode, st1)
  else generateUniqueShortCode st o.attempts

/-- The row `CreateShortURL` builds at lines 58-65. -/
def CreateShortURL.newURL (o : CreateOracle) (userID : Nat) (longURL shortCode : String) : URL :=
  { ID := o.id, UserID := userID, LongURL := longURL, ShortURL := shortCode, Clicks := 0,
    CreatedAt := o.createdAt, UpdatedAt := o.updatedAt }

/-- Second half of `CreateShortURL` (lines 58-85): the row is inserted and the cache mapping
written inside one gorm transaction, whose closure returns the error of the cache write; an
error of the closure or of the commit rolls the insert back. -/
def CreateShortURL.persist (urlPrefix : String) (st : State) (o : CreateOracle) (userID : Nat)
    (longURL shortCode : String) : Except Err URL × State :=
  let url : URL := CreateShortURL.newURL o userID longURL shortCode
  let st1 := st.call .dbBegin
  if o.beginErr then (.error .dbError, st1)
  else
    let st2 := st1.call (.dbCreate url)
    match (if o.createErr then none else DB.Create st.db url) with
    | none => (.error .dbError, st2.call .dbRollback)
    | some db' =>
      let st3 := st2.call (.redisSet (getCacheKey shortCode) longURL 86400)
      if o.setErr then (.error .redisError, st3.call .dbRollback)
      else
        let st4 := { st3 with cache := Redis.Set st.cache (getCacheKey shortCode) longURL 86400 }
        let st5 := st4.call .dbCommit
        if o.commitErr then (.error .dbError, st5.call .dbRollback)
        else
          (.ok { url with ShortURL := urlPrefix ++ "urls/" ++ shortCode }, { st5 with db := db' })

/-- Operation `URLService.CreateShortURL`. -/
def CreateShortURL (urlPrefix : String) (st : State) (o : CreateOracle) (userID : Nat)
    (longURL customShortCode : String) : Except Err URL × State :=
  match CreateShortURL.resolveCode st o customShortCode with
  | (.error e, st1) => (.error e, st1)
  | (.ok shortCode, st1) => CreateShortURL.persist urlPrefix st1 o userID longURL shortCode

/-- Operation `URLService.GetLongURL`; returns the pair `(longURL, err)` of the Go function.
The goroutine `go s.incrementClickCount(ctx, shortCode)` is recorded as pending. -/
def GetLongURL (st : State) (o : GetOracle) (shortCode : String) :
    (String × Option Err) × State :=
  let shortCode := strings.TrimPrefix shortCode "urls/"
  let st1 := st.call (.redisGet (getCacheKey shortCode))
  match (if o.getErr then none else Redis.Get st.cache (getCacheKey shortCode)) with
  | some longURL => ((longURL, none), { st1 with pending := st1.pending ++ [shortCode] })
  | none =>
    let st2 := st1.call (.dbFirst shortCode)
    if o.firstErr then (("", some .dbError), st2)
    else
      match DB.First st.db shortCode with
      | none => (("", some .ErrURLNotFound), st2)
      | some url =>
        let st3 := st2.call (.redisSet (getCacheKey shortCode) url.LongURL 86400)
        let st4 :=
          if o.setErr then st3
          else { st3 with cache := Redis.Set st.cache (getCacheKey shortCode) url.LongURL 86400 }
        ((url.LongURL, none), { st4 with pending := st4.pending ++ [shortCode] })

/-! ## Decimal integers -/

/-- The character of a decimal digit. -/
def digitChar (d : Nat) : Char :=
  Char.ofNat (48 + d)

/-- The value of a decimal digit, `none` for any other character. -/
def digitVal? (c : Char) : Option Nat :=
  if 48 ≤ c.toNat ∧ c.toNat ≤ 57 then some (c.toNat - 48) else none

/-- Decimal digits of a natural number, least significant first; `fuel` bounds the number of
digits and `n + 1` is always enough for `n`. -/
def natDigits : Nat → Nat → List Nat
  | 0, _ => []
  | fuel + 1, n => if n < 10 then [n] else n % 10 :: natDigits fuel (n / 10)

/-- The number with the given decimal digits, least significant first. -/
def ofDigits : List Nat → Nat
  | [] => 0
  | d :: ds => d + 10 * ofDigits ds

/-- Decimal representation of a natural number, without leading zeros. -/
def formatNat (n : Nat) : List Char :=
  (natDigits (n + 1) n).reverse.map digitChar

/-- Canonical decimal representation of an integer, as `strconv.FormatInt(i, 10)` and the
Redis server write it. -/
def strconv.FormatInt (i : Int) : String :=
  match i with
  | .ofNat n => ⟨formatNat n⟩
  | .negSucc n => ⟨'-' :: formatNat (n + 1)⟩

/-- The digits of a string of decimal digits, `none` when a character is not a digit. -/
def digitsOf : List Char → Option (List Nat)
  | [] => some []
  | c :: cs =>
    match digitVal? c, digitsOf cs with
    | some d, some ds => some (d :: ds)
    | _, _ => none

/-- The value of a non-empty string of decimal digits. -/
def parseNat (cs : List Char) : Option Nat :=
  if cs.isEmpty then none else (digitsOf cs).map (fun ds => ofDigits ds.reverse)

/-- Conversion `strconv.ParseInt(s, 10, 64)`: an optional sign and decimal digits, in the range of
a signed 64-bit integer; `none` is the error. -/
def strconv.ParseInt (s : String) : Option Int :=
  match s.data with
  | [] => none
  | c :: cs =>
    if c = '-' then
      (parseNat cs).bind (fun n => if n ≤ 2 ^ 63 then some (-(n : Int)) else none)
    else if c = '+' then
      (parseNat cs).bind (fun n => if n < 2 ^ 63 then some (n : Int) else none)
    else
      (parseNat (c :: cs)).bind (fun n => if n < 2 ^ 63 then some (n : Int) else none)

/-- The integer a Redis string value stands for (`string2ll` of the server): the value must
be the canonical decimal representation of a signed 64-bit integer. -/
def Redis.string2ll (s : String) : Option Int :=
  match strconv.ParseInt s with
  | none => none
  | some v => if strconv.FormatInt v = s then some v else none

/-! ## More of the collaborators -/

/-- Redis `DEL` of several keys. -/
def Redis.Del (cache : List (String × CacheEntry)) (keys : List String) :
    List (String × CacheEntry) :=
  cache.filter (fun e => !keys.contains e.1)

/-- Redis `INCR`: a missing key counts as 0 and is created without expiry, a value that is
not an integer or that would overflow is an error (`none`); the expiry of an existing key is
kept. -/
def Redis.Incr (cache : List (String × CacheEntry)) (key : String) :
    Option (List (String × CacheEntry)) :=
  match cache.lookup key with
  | none => some ((key, ⟨"1", none⟩) :: cache.filter (fun e => e.1 != key))
  | some e =>
    match Redis.string2ll e.value with
    | none => none
    | some v =>
      if v + 1 > 2 ^ 63 - 1 then none
      else
        some ((key, ⟨strconv.FormatInt (v + 1), e.ttl⟩) :: cache.filter (fun e => e.1 != key))

/-- Redis `EXPIRE`: sets the time to live of an existing key, does nothing for a missing one. -/
def Redis.Expire (cache : List (String × CacheEntry)) (key : String) (ttl : Nat) :
    List (String × CacheEntry) :=
  match cache.lookup key with
  | none => cache
  | some e => (key, ⟨e.value, some ttl⟩) :: cache.filter (fun e => e.1 != key)

/-- Query `Where("id = ? AND user_id = ?", urlID, userID).First(&url)`. -/
def DB.FirstByIDUser (db : List URL) (urlID userID : Nat) : Option URL :=
  db.find? (fun r => r.ID == urlID && r.UserID == userID)

/-- Query `First(&url, "id = ?", urlID)`. -/
def DB.FirstByID (db : List URL) (urlID : Nat) : Option URL :=
  db.find? (fun r => r.ID == urlID)

/-- Statement `tx.Delete(&url)`: the row with the primary key of `url` is removed. -/
def DB.Delete (db : List URL) (url : URL) : List URL :=
  db.filter (fun r => r.ID != url.ID)

/-- Statement `tx.Save(&url)`: all columns of the row with the primary key of `url` are
written. -/
def DB.Save (db : List URL) (url : URL) : List URL :=
  db.map (fun r => if r.ID == url.ID then url else r)

/-- Statement `UPDATE urls SET clicks = clicks + 1 WHERE short_url = ?`; refused (`none`) when
a counter would leave the range of `bigint`. -/
def DB.UpdateClicks (db : List URL) (shortCode : String) : Option (List URL) :=
  if db.any (fun r => r.ShortURL == shortCode && decide (r.Clicks + 1 > 2 ^ 63 - 1)) then none
  else some (db.map (fun r => if r.ShortURL == shortCode then { r with Clicks := r.Clicks + 1 }
    else r))

/-- No two rows of the table share an id (the primary key). -/
def UniqueIDs (db : List URL) : Prop :=
  (db.map URL.ID).Nodup

instance (db : List URL) : Decidable (UniqueIDs db) := by
  unfold UniqueIDs; infer_instance

/-! ## More oracles -/

/-- Everything `UpdateURL` receives from outside: the time written to `updated_at` and which
of the steps of the transaction fail. -/
structure UpdateOracle where
  updatedAt : Nat
  beginErr : Bool
  firstErr : Bool
  saveErr : Bool
  setErr : Bool
  commitErr : Bool
  deriving DecidableEq, Repr

/-- Everything `DeleteURL` receives from outside: which of the steps of the transaction fail;
`pipeErr` is the failure of the pipeline that removes the two cache keys. -/
structure DeleteOracle where
  beginErr : Bool
  firstErr : Bool
  deleteErr : Bool
  pipeErr : Bool
  commitErr : Bool
  deriving DecidableEq, Repr

/-- Everything `GetURLStats` receives from outside: whether the query fails and whether the
Redis `GET` of the counter fails. -/
structure StatsOracle where
  firstErr : Bool
  getErr : Bool
  deriving DecidableEq, Repr

/-- Everything `incrementClickCount` receives from outside: whether the pipeline does not
reach the cache (for instance because the context of the request was cancelled) and whether
the update of the table fails. -/
structure IncrOracle where
  pipeErr : Bool
  updateErr : Bool
  deriving DecidableEq, Repr

/-- Result `models.URLStats` of `GetURLStats`. -/
structure URLStats where
  TotalClicks : Int
  LastAccessedAt : Nat
  deriving DecidableEq, Repr

/-! ## More of the service -/

/-- Operation `URLService.UpdateURL`: the row is looked up by id and owner, saved with the new
destination and the cache mapping rewritten, all inside one transaction whose closure returns
the error of the cache write. -/
def UpdateURL (urlPrefix : String) (st : State) (o : UpdateOracle) (userID urlID : Nat)
    (longURL : String) : Except Err URL × State :=
  let st1 := st.call .dbBegin
  if o.beginErr then (.error .dbError, st1)
  else
    let st2 := st1.call (.dbFirstByIDUser urlID userID)
    if o.firstErr then (.error .dbError, st2.call .dbRollback)
    else
      match DB.FirstByIDUser st.db urlID userID with
      | none => (.error .ErrURLNotFound, st2.call .dbRollback)
      | some found =>
        let url : URL := { found with LongURL := longURL, UpdatedAt := o.updatedAt }
        let st3 := st2.call (.dbSave url)
        if o.saveErr then (.error .dbError, st3.call .dbRollback)
        else
          let st4 := st3.call (.redisSet (getCacheKey url.ShortURL) longURL 86400)
          if o.setErr then (.error .redisError, st4.call .dbRollback)
          else
            let st5 :=
              { st4 with cache := Redis.Set st.cache (getCacheKey url.ShortURL) longURL 86400 }
            let st6 := st5.call .dbCommit
            if o.commitErr then (.error .dbError, st6.call .dbRollback)
            else
              (.ok { url with ShortURL := urlPrefix ++ "urls/" ++ url.ShortURL },
                { st6 with db := DB.Save st.db url })

/-- Operation `URLService.DeleteURL`; returns the error of the Go function, `none` for `nil`.
The row is looked up by id and owner and deleted, and the two cache keys are removed by one
pipeline, all inside one transaction whose closure returns the error of the pipeline. -/
def DeleteURL (st : State) (o : DeleteOracle) (userID urlID : Nat) : Option Err × State :=
  let st1 := st.call .dbBegin
  if o.beginErr then (some .dbError, st1)
  else
    let st2 := st1.call (.dbFirstByIDUser urlID userID)
    if o.firstErr then (some .dbError, st2.call .dbRollback)
    else
      match DB.FirstByIDUser st.db urlID userID with
      | none => (some .ErrURLNotFound, st2.call .dbRollback)
      | some url =>
        let st3 := st2.call (.dbDelete url.ID)
        if o.deleteErr then (some .dbError, st3.call .dbRollback)
        else
          let st4 :=
            st3.call (.redisDel [getCacheKey url.ShortURL, getClicksKey url.ShortURL])
          if o.pipeErr then (some .redisError, st4.call .dbRollback)
          else
            let st5 :=
              { st4 with
                cache := Redis.Del st.cache [getCacheKey url.ShortURL, getClicksKey url.ShortURL] }
            let st6 := st5.call .dbCommit
            if o.commitErr then (some .dbError, st6.call .dbRollback)
            else (none, { st6 with db := DB.Delete st.db url })

/-- Operation `URLService.GetURLStats`. -/
def GetURLStats (st : State) (o : StatsOracle) (urlID : Nat) : Except Err URLStats × State :=
  let st1 := st.call (.dbFirstByID urlID)
  if o.firstErr then (.error .dbError, st1)
  else
    match DB.FirstByID st.db urlID with
    | none => (.error .ErrURLNotFound, st1)
    | some url =>
      let st2 := st1.call (.redisGet (getClicksKey url.ShortURL))
      let cached : Option Int :=
        (if o.getErr then none else Redis.Get st.cache (getClicksKey url.ShortURL)).bind
          strconv.ParseInt
      let clicks : Int :=
        match cached with
        | some n => n
        | none => url.Clicks
      (.ok { TotalClicks := clicks, LastAccessedAt := url.UpdatedAt }, st2)

/-- Click accounting `URLService.incrementClickCount`, run to its end: the pipeline of `INCR`
and `EXPIRE` on the counter key, then, when the pipeline reported no error, the goroutine
that increments the `clicks` column. The commands of a pipeline that reached the cache are
executed one by one, so `EXPIRE` is applied also when `INCR` fails. -/
def incrementClickCount (st : State) (o : IncrOracle) (shortCode : String) : State :=
  let clicksKey := getClicksKey shortCode
  let st1 := (st.call (.redisIncr clicksKey)).call (.redisExpire clicksKey 2592000)
  if o.pipeErr then st1
  else
    match Redis.Incr st.cache clicksKey with
    | none => { st1 with cache := Redis.Expire st.cache clicksKey 2592000 }
    | some cache1 =>
      let st2 := { st1 with cache := Redis.Expire cache1 clicksKey 2592000 }
      let st3 := st2.call (.dbUpdateClicks shortCode)
      match (if o.updateErr then none else DB.UpdateClicks st.db shortCode) with
      | none => st3
      | some db' => { st3 with db := db' }

/-- The oldest pending click-accounting goroutine runs to its end. -/
def State.runPending (st : State) (o : IncrOracle) : State :=
  match st.pending with
  | [] => st
  | shortCode :: rest => incrementClickCount { st with pending := rest } o shortCode

/-! ## Cache keys of the other services, and the key prefix of `RedisCache` -/

/-- Cache key of a rendered QR code, `fmt.Sprintf("qr:%s", shortCode)` (`qr_service.go`). -/
def getQRCodeKey (shortCode : String) : String :=
  "qr:" ++ shortCode

/-- Lower-case hexadecimal digit of the low four bits of a number. -/
def hexDigit (d : Nat) : Char :=
  "0123456789abcdef".data.getD (d % 16) '0'

/-- The low `width` hexadecimal digits of a number, most significant first (`hex.Encode` of
the bytes). -/
def hexFixed : Nat → Nat → List Char
  | 0, _ => []
  | width + 1, n => hexFixed width (n / 16) ++ [hexDigit n]

/-- Canonical text `uuid.UUID.String()` of a UUID, `xxxxxxxx-xxxx-xxxx-xxxx-xxxxxxxxxxxx`; a
UUID is given by the 128-bit number its sixteen bytes spell, most significant byte first. -/
def uuid.String (u : Nat) : String :=
  ⟨hexFixed 8 (u / 16 ^ 24) ++ ['-'] ++ hexFixed 4 (u / 16 ^ 20) ++ ['-'] ++
    hexFixed 4 (u / 16 ^ 16) ++ ['-'] ++ hexFixed 4 (u / 16 ^ 12) ++ ['-'] ++ hexFixed 12 u⟩

/-- Cache key of the sessions of a user, `fmt.Sprintf("session:%s", userID.String())`
(`auth_service.go`). -/
def getUserSessionKey (userID : Nat) : String :=
  "session:" ++ uuid.String userID

/-- Key of the backing store for a key of a `RedisCache` with the given prefix,
`fmt.Sprintf("%s:%s", c.prefix, key)`. -/
def RedisCache.prefixKey (pre key : String) : String :=
  pre ++ ":" ++ key

/-! ## Passwords (`models/user.go`) -/

/-- Alphabet of `base64.StdEncoding`. -/
def encodeStd : String :=
  "ABCDEFGHIJKLMNOPQRSTUVWXYZabcdefghijklmnopqrstuvwxyz0123456789+/"

/-- Character of the standard alphabet for a six-bit value. -/
def encodeStdChar (i : Nat) : Char :=
  encodeStd.data.getD (i % 64) 'A'

/-- Unpadded encoding `base64.RawStdEncoding.EncodeToString` of a byte slice: three bytes give
four characters, a rest of one byte two characters, a rest of two bytes three. -/
def base64.RawStdEncoding.EncodeToString : List Nat → List Char
  | [] => []
  | [b0] =>
      [encodeStdChar (b0 % 256 / 4), encodeStdChar (b0 % 4 * 16)]
  | [b0, b1] =>
      [encodeStdChar (b0 % 256 / 4), encodeStdChar (b0 % 4 * 16 + b1 % 256 / 16),
        encodeStdChar (b1 % 16 * 4)]
  | b0 :: b1 :: b2 :: rest =>
      encodeStdChar (b0 % 256 / 4) :: encodeStdChar (b0 % 4 * 16 + b1 % 256 / 16) ::
        encodeStdChar (b1 % 16 * 4 + b2 % 256 / 64) :: encodeStdChar (b2 % 64) ::
        base64.RawStdEncoding.EncodeToString rest

/-- Constant `Argon2Time`. -/
def Argon2Time : Nat := 1

/-- Constant `Argon2Memory`. -/
def Argon2Memory : Nat := 64 * 1024

/-- Constant `Argon2Threads`. -/
def Argon2Threads : Nat := 4

/-- Constant `Argon2KeyLength`. -/
def Argon2KeyLength : Nat := 32

/-- Constant `SaltLength`. -/
def SaltLength : Nat := 16

/-- The key derivation `argon2.IDKey(password, salt, time, memory, threads, keyLen)` of
`golang.org/x/crypto`, a deterministic function the models take as a parameter; of the bytes
it returns the first `keyLen` are read, modulo 256. -/
abbrev Argon2 : Type :=
  String → String → Nat → Nat → Nat → Nat → List Nat

/-- Record `models.User` (the `URLs` association is not part of the row). -/
structure User where
  ID : Nat
  Email : String
  Password : String
  FirstName : String
  LastName : String
  CreatedAt : Nat
  UpdatedAt : Nat
  deriving DecidableEq, Repr

/-- Errors `fmt.Errorf("invalid password format")` and `fmt.Errorf("incorrect password")` of
`CheckPassword`. -/
inductive PasswordErr where
  | invalidFormat
  | incorrect
  deriving DecidableEq, Repr

/-- Function `generateSalt`: sixteen random bytes, encoded; `entropy` is what `rand.Read`
delivered, `none` when it failed. -/
def generateSalt (entropy : Option (List Nat)) : Except Err String :=
  match entropy with
  | none => .error .randError
  | some bs => .ok ⟨base64.RawStdEncoding.EncodeToString (fillBytes SaltLength bs)⟩

/-- Method `User.HashPassword`: the password is replaced by `salt$hash`. -/
def User.HashPassword (idKey : Argon2) (u : User) (entropy : Option (List Nat)) :
    Except Err User :=
  match generateSalt entropy with
  | .error e => .error e
  | .ok salt =>
    let hash := fillBytes Argon2KeyLength
      (idKey u.Password salt Argon2Time Argon2Memory Argon2Threads Argon2KeyLength)
    .ok { u with Password := salt ++ "$" ++ ⟨base64.RawStdEncoding.EncodeToString hash⟩ }

/-- Loop of `split`: `current` is the part being read and `result` the parts closed so far. -/
def split.loop (delim : Char) : List Char → String → List String → List String
  | [], current, result => result ++ [current]
  | char :: rest, current, result =>
    if char = delim then split.loop delim rest "" (result ++ [current])
    else split.loop delim rest (current ++ String.singleton char) result

/-- Function `split`: the parts of `s` between the occurrences of `delim`. -/
def split (s : String) (delim : Char) : List String :=
  split.loop delim s.data "" []

/-- Function `splitPassword`. -/
def splitPassword (password : String) : List String :=
  split password '$'

/-- Method `User.CheckPassword`; returns the error of the Go function, `none` for `nil`. -/
def User.CheckPassword (idKey : Argon2) (u : User) (password : String) : Option PasswordErr :=
  let parts := splitPassword u.Password
  if parts.length != 2 then some .invalidFormat
  else
    let salt := parts.getD 0 ""
    let storedHash := parts.getD 1 ""
    let hash := fillBytes Argon2KeyLength
      (idKey password salt Argon2Time Argon2Memory Argon2Threads Argon2KeyLength)
    if (⟨base64.RawStdEncoding.EncodeToString hash⟩ : String) != storedHash then some .incorrect
    else none

/-! ## Runs of the service -/

/-- Redis drops a key whose time to live has run out; a key without expiry stays. -/
def Redis.timeout (cache : List (String × CacheEntry)) (key : String) :
    List (String × CacheEntry) :=
  match cache.lookup key with
  | none => cache
  | some e => if e.ttl.isSome then cache.filter (fun x => x.1 != key) else cache

/-- One call of the service with everything it receives from outside; `account` lets the
oldest pending click-accounting goroutine run, `expire` lets the time to live of a cache key
run out. -/
inductive Op where
  | create (urlPrefix : String) (o : CreateOracle) (userID : Nat)
      (longURL customShortCode : String)
  | update (urlPrefix : String) (o : UpdateOracle) (userID urlID : Nat) (longURL : String)
  | delete (o : DeleteOracle) (userID urlID : Nat)
  | resolve (o : GetOracle) (shortCode : String)
  | account (o : IncrOracle)
  | expire (key : String)

/-- The state after one call. -/
def Op.apply (st : State) : Op → State
  | .create urlPrefix o userID longURL customShortCode =>
    (CreateShortURL urlPrefix st o userID longURL customShortCode).2
  | .update urlPrefix o userID urlID longURL => (UpdateURL urlPrefix st o userID urlID longURL).2
  | .delete o userID urlID => (DeleteURL st o userID urlID).2
  | .resolve o shortCode => (GetLongURL st o shortCode).2
  | .account o => st.runPending o
  | .expire key => { st with cache := Redis.timeout st.cache key }

/-- The state after a sequence of calls, made one after the other. -/
def run (st : State) (ops : List Op) : State :=
  ops.foldl Op.apply st

/-- The commit of the transaction of the call, when it is reached, does not fail. -/
def Op.commits : Op → Bool
  | .create _ o _ _ _ => !o.commitErr
  | .update _ o _ _ _ => !o.commitErr
  | .delete o _ _ => !o.commitErr
  | .resolve _ _ => true
  | .account _ => true
  | .expire _ => true

/-- Cache coherence: every mapping of the cache has a row with its code and its destination. -/
def Coherent (st : State) : Prop :=
  ∀ c v, Redis.Get st.cache (getCacheKey c) = some v →
    ∃ r ∈ st.db, r.ShortURL = c ∧ r.LongURL = v

/-! ## The cache package (`internal/cache`) -/

/-- Errors the cache package returns: `key not found` of `RedisCache.Get`, `failed to marshal
value` of `Set`, `failed to marshal value for key <key>` of `SetMultiple`, an error of the
Redis client, which is passed on as it is, and an error of `json.Unmarshal`. -/
inductive CacheErr where
  | keyNotFound
  | marshal
  | marshalKey (key : String)
  | redis
  | unmarshal
  deriving DecidableEq, Repr

/-- A value handed over as `interface{}`, by the cases of the type switch of `RedisCache.Set`:
a string, a byte slice (given by the text it holds), or a value of another type. -/
inductive Value (α : Type) where
  | str (s : String)
  | bytes (b : String)
  | other (a : α)
  deriving DecidableEq, Repr

/-- The type switch of `RedisCache.Set`, `SetMultiple` and `SetNX`: a string and a byte slice
are taken as they are, every other value is serialised by `json.Marshal`, which is a parameter
here; `none` is its error. -/
def Value.strVal {α : Type} (marshal : α → Option String) : Value α → Option String
  | .str s => some s
  | .bytes b => some b
  | .other a => marshal a

/-- Command `client.Set(ctx, key, value, expiration)` of go-redis: an expiration of zero means
that the key has no time to live. -/
def Redis.SetExpiration (cache : List (String × CacheEntry)) (key value : String)
    (expiration : Nat) : List (String × CacheEntry) :=
  (key, ⟨value, if expiration = 0 then none else some expiration⟩) ::
    cache.filter (fun e => e.1 != key)

/-- Read `RedisCache.Get`: `redis.Nil` becomes `key not found`, every other error of the
client (`getErr`) is passed on. -/
def RedisCache.Get (pre : String) (cache : List (String × CacheEntry)) (getErr : Bool)
    (key : String) : Except CacheErr String :=
  if getErr then .error .redis
  else
    match Redis.Get cache (RedisCache.prefixKey pre key) with
    | none => .error .keyNotFound
    | some val => .ok val

/-- Write `RedisCache.Set`: the text of the type switch is written under the prefixed key;
`setErr` says whether the client fails. Returns the error and the cache afterwards. -/
def RedisCache.Set {α : Type} (marshal : α → Option String) (pre : String)
    (cache : List (String × CacheEntry)) (setErr : Bool) (key : String) (value : Value α)
    (expiration : Nat) : Option CacheErr × List (String × CacheEntry) :=
  match value.strVal marshal with
  | none => (some .marshal, cache)
  | some strVal =>
    if setErr then (some .redis, cache)
    else (none, Redis.SetExpiration cache (RedisCache.prefixKey pre key) strVal expiration)

/-- Read `CacheManager.GetObject`: the text under the key is handed to `json.Unmarshal` for the
destination; the decoder of the type of the destination is a parameter, it takes the text and
the destination before the call and gives the destination after it, `none` is its error. -/
def CacheManager.GetObject {β : Type} (unmarshal : String → β → Option β) (pre : String)
    (cache : List (String × CacheEntry)) (getErr : Bool) (key : String) (dest : β) :
    Except CacheErr β :=
  match RedisCache.Get pre cache getErr key with
  | .error err => .error err
  | .ok data =>
    match unmarshal data dest with
    | none => .error .unmarshal
    | some d => .ok d

/-- Write `CacheManager.SetObject`: the call of `Set` of the cache behind the manager. -/
def CacheManager.SetObject {α : Type} (marshal : α → Option String) (pre : String)
    (cache : List (String × CacheEntry)) (setErr : Bool) (key : String) (value : Value α)
    (expiration : Nat) : Option CacheErr × List (String × CacheEntry) :=
  RedisCache.Set marshal pre cache setErr key value expiration

/-- Everything `SetMultiple` receives from outside: whether the pipeline does not reach the
server, and the keys on which the server refuses the `SET` (out of memory, a key the user of
the connection may not write). -/
structure BatchOracle where
  pipeErr : Bool
  refused : String → Bool

/-- The loop of `SetMultiple` over the items, in the order the map is ranged over: each value
goes through the type switch and its `SET` is queued; the first value that cannot be
serialised ends the call with an error that carries its key. -/
def RedisCache.queueItems {α : Type} (marshal : α → Option String) (pre : String) :
    List (String × Value α) → Except CacheErr (List (String × String))
  | [] => .ok []
  | (key, value) :: rest =>
    match value.strVal marshal with
    | none => .error (.marshalKey key)
    | some strVal =>
      match RedisCache.queueItems marshal pre rest with
      | .error err => .error err
      | .ok cmds => .ok ((RedisCache.prefixKey pre key, strVal) :: cmds)

/-- The queued `SET` commands of a pipeline that reached the server, executed one by one: a
refused command writes nothing and the commands after it are executed all the same. -/
def Redis.execSets (refused : String → Bool) (expiration : Nat) :
    List (String × String) → List (String × CacheEntry) → List (String × CacheEntry)
  | [], cache => cache
  | (key, value) :: rest, cache =>
    if refused key then Redis.execSets refused expiration rest cache
    else Redis.execSets refused expiration rest (Redis.SetExpiration cache key value expiration)

/-- Batch write `RedisCache.SetMultiple` over `client.Pipeline()`: `Exec` of a pipeline without
commands does nothing; otherwise the commands are sent in one batch and the error of `Exec` is
the error of the first refused command, the results of the commands are dropped. The items
are given in the order the map is ranged over. -/
def RedisCache.SetMultiple {α : Type} (marshal : α → Option String) (pre : String)
    (cache : List (String × CacheEntry)) (o : BatchOracle) (items : List (String × Value α))
    (expiration : Nat) : Option CacheErr × List (String × CacheEntry) :=
  match RedisCache.queueItems marshal pre items with
  | .error err => (some err, cache)
  | .ok cmds =>
    if cmds.isEmpty then (none, cache)
    else if o.pipeErr then (some .redis, cache)
    else
      (if cmds.any (fun c => o.refused c.1) then some .redis else none,
        Redis.execSets o.refused expiration cmds cache)

/-! ## JSON strings (`encoding/json`) -/

/-- White space of JSON. -/
def json.isSpace (c : Char) : Bool :=
  c.toNat == 32 || c.toNat == 9 || c.toNat == 13 || c.toNat == 10

/-- Value of a hexadecimal digit. -/
def json.hexVal (c : Char) : Option Nat :=
  if 48 ≤ c.toNat ∧ c.toNat ≤ 57 then some (c.toNat - 48)
  else if 97 ≤ c.toNat ∧ c.toNat ≤ 102 then some (c.toNat - 87)
  else if 65 ≤ c.toNat ∧ c.toNat ≤ 70 then some (c.toNat - 55)
  else none

/-- The code unit spelled by the four hexadecimal digits of a `\u` escape. -/
def json.getu4 (a b c d : Char) : Option Nat :=
  (json.hexVal a).bind fun x => (json.hexVal b).bind fun y =>
    (json.hexVal c).bind fun z => (json.hexVal d).map fun w =>
      ((x * 16 + y) * 16 + z) * 16 + w

/-- The character of a one-letter escape. -/
def json.escape (c : Char) : Option Char :=
  if c = '"' then some '"'
  else if c = '\\' then some '\\'
  else if c = '/' then some '/'
  else if c = 'b' then some (Char.ofNat 8)
  else if c = 'f' then some (Char.ofNat 12)
  else if c = 'n' then some '\n'
  else if c = 'r' then some '\r'
  else if c = 't' then some '\t'
  else none

/-- The code point of the surrogate pair that starts with the high surrogate `hi`, when the
text goes on with the `\u` escape of a low surrogate. -/
def json.pairWith (hi : Nat) : List Char → Option Nat
  | '\\' :: 'u' :: a :: b :: c :: d :: _ =>
    (json.getu4 a b c d).bind fun lo =>
      if hi < 0xDC00 ∧ 0xDC00 ≤ lo ∧ lo < 0xE000 then
        some ((hi - 0xD800) * 1024 + (lo - 0xDC00) + 0x10000)
      else none
  | _ => none

/-- The content of a JSON string literal, from the character after the opening quote to the
closing quote, which ends the text; the first argument counts characters of an escape that
was decoded already. Control characters, a quote before the end and unknown escapes are
errors; a `\u` escape of a surrogate without its partner gives U+FFFD. -/
def json.unquote : Nat → List Char → Option (List Char)
  | _ + 1, [] => none
  | skip + 1, _ :: rest => json.unquote skip rest
  | 0, [] => none
  | 0, c :: rest =>
    if c = '"' then (if rest.isEmpty then some [] else none)
    else if c = '\\' then
      match rest with
      | [] => none
      | e :: rest1 =>
        if e = 'u' then
          match rest1 with
          | a :: b :: x :: d :: rest2 =>
            match json.getu4 a b x d with
            | none => none
            | some rr =>
              if 0xD800 ≤ rr ∧ rr < 0xE000 then
                match json.pairWith rr rest2 with
                | some r => (json.unquote 11 rest).map (fun t => Char.ofNat r :: t)
                | none => (json.unquote 5 rest).map (fun t => Char.ofNat 0xFFFD :: t)
              else (json.unquote 5 rest).map (fun t => Char.ofNat rr :: t)
          | _ => none
        else
          match json.escape e with
          | none => none
          | some x => (json.unquote 1 rest).map (fun t => x :: t)
    else if c.toNat < 32 then none
    else (json.unquote 0 rest).map (fun t => c :: t)

/-- Decoder `json.Unmarshal(data, &dest)` for a destination of type `string`: white space
around the value is skipped, `null` leaves the destination as it was, a string literal gives
its content, every other text is an error (a syntax error, or a value of another type). -/
def json.UnmarshalString (data : String) (dest : String) : Option String :=
  let text := ((data.data.dropWhile json.isSpace).reverse.dropWhile json.isSpace).reverse
  if text = "null".data then some dest
  else
    match text with
    | '"' :: rest => (json.unquote 0 rest).map String.mk
    | _ => none

/-! ## Concrete scenarios -/

/-- The state before anything was created. -/
def emptyState : State :=
  ⟨[], [], [], []⟩

/-- Collision check in which cache and store both answer. -/
def calm : TakenOracle :=
  ⟨false, false⟩

/-- An iteration of the generator that draws eight zero bytes, the code `AAAAAA`. -/
def drawZero : Attempt :=
  ⟨some [0, 0, 0, 0, 0, 0, 0, 0], calm⟩

/-- A creation in which nothing fails; every draw of the generator gives `AAAAAA`. -/
def calmCreate : CreateOracle :=
  { taken := calm, attempts := fun _ => drawZero, id := 1, createdAt := 1700000000,
    updatedAt := 1700000000, beginErr := false, createErr := false, setErr := false,
    commitErr := false }

/-- A resolution in which nothing fails. -/
def calmGet : GetOracle :=
  ⟨false, false, false⟩

/-- The link `calmCreate` returns for owner 7 and a generated code under the prefix
`https://lynx.test/`. -/
def linkAAAAAA : URL :=
  { ID := 1, UserID := 7, LongURL := "https://example.com/a",
    ShortURL := "https://lynx.test/urls/AAAAAA", Clicks := 0, CreatedAt := 1700000000,
    UpdatedAt := 1700000000 }

/-- The row of the link with the code `AAAAAA`. -/
def rowAAAAAA : URL :=
  { linkAAAAAA with ShortURL := "AAAAAA" }

/-- A state in which the link with the generated code `AAAAAA` exists, in the store and in
the cache. -/
def stateAAAAAA : State :=
  { db := [rowAAAAAA],
    cache := [("url:AAAAAA", ⟨"https://example.com/a", some 86400⟩)],
    log := [], pending := [] }

/-- A second creation in which nothing fails. -/
def calmCreate2 : CreateOracle :=
  { calmCreate with id := 2, createdAt := 1700000100, updatedAt := 1700000100 }

/-- Collision check during which the cache does not answer. -/
def cacheDown : TakenOracle :=
  ⟨true, false⟩

/-- Collision check during which neither the cache nor the store answers. -/
def outage : TakenOracle :=
  ⟨true, true⟩

/-- A state whose cache holds a mapping for `AAAAAA` that has no row in the store. -/
def staleCacheState : State :=
  { db := [], cache := [("url:AAAAAA", ⟨"https://example.com/a", some 86400⟩)],
    log := [], pending := [] }

/-- A creation in which only the cache write of the mapping fails. -/
def cacheWriteFails : CreateOracle :=
  { calmCreate with setErr := true }

/-- A second creation in which only the cache write of the mapping fails. -/
def cacheWriteFails2 : CreateOracle :=
  { calmCreate2 with setErr := true }

/-- A deletion in which nothing fails. -/
def calmDelete : DeleteOracle :=
  ⟨false, false, false, false, false⟩

/-- A deletion in which only the cleanup of the cache fails. -/
def cleanupFails : DeleteOracle :=
  { calmDelete with pipeErr := true }

/-- An update in which nothing fails. -/
def calmUpdate : UpdateOracle :=
  ⟨1700000500, false, false, false, false, false⟩

/-- A state in which the link `AAAAAA` exists and its click counter in the cache is 41. -/
def stateClicked : State :=
  { stateAAAAAA with
    cache := [("clicks:AAAAAA", ⟨"41", some 1000⟩),
      ("url:AAAAAA", ⟨"https://example.com/a", some 86400⟩)] }

/-- A click-accounting run in which nothing fails. -/
def calmIncr : IncrOracle :=
  ⟨false, false⟩

/-- A click-accounting run whose pipeline does not reach the cache. -/
def cacheDownIncr : IncrOracle :=
  ⟨true, false⟩

/-- A statistics request in which nothing fails. -/
def calmStats : StatsOracle :=
  ⟨false, false⟩

/-- A creation in which only the commit of the transaction fails. -/
def commitFails : CreateOracle :=
  { calmCreate with commitErr := true }

/-- A run without a failing commit: a link is created with the generated code `AAAAAA`,
resolved, and given a new destination by its owner. -/
def calmRun : List Op :=
  [.create "https://lynx.test/" calmCreate 7 "https://example.com/a" "",
   .resolve calmGet "AAAAAA",
   .update "https://lynx.test/" calmUpdate 7 1 "https://example.com/new"]

/-- Values of two Go types other than string and byte slice: a 64-bit integer, and a channel,
which `json.Marshal` refuses (`json: unsupported type`). -/
inductive Payload where
  | int64 (n : Int)
  | channel
  deriving DecidableEq, Repr

/-- Serialisation `json.Marshal` of these values: the decimal text of the integer. -/
def Payload.marshal : Payload → Option String
  | .int64 n => some (strconv.FormatInt n)
  | .channel => none

/-- A batch write in which the server refuses the `SET` of the key `lynx:b` only. -/
def refusesB : BatchOracle :=
  ⟨false, fun key => key == "lynx:b"⟩

/-- A batch of two strings, ranged over in this order. -/
def batchAB : List (String × Value Payload) :=
  [("a", .str "1"), ("b", .str "2")]

/-- A batch whose second value cannot be serialised. -/
def batchChannel : List (String × Value Payload) :=
  [("a", .str "1"), ("b", .other .channel), ("c", .other (.int64 3))]

/-! ## Lemmas on the collaborators -/

theorem Redis.Get_Set_self (cache : List (String × CacheEntry)) (key value : String)
    (ttl : Nat) : Redis.Get (Redis.Set cache key value ttl) key = some value := by
  simp [Redis.Get, Redis.Set, List.lookup]

theorem Redis.Exists_Set_self (cache : List (String × CacheEntry)) (key value : String)
    (ttl : Nat) : Redis.Exists (Redis.Set cache key value ttl) key = 1 := by
  simp [Redis.Exists, Redis.Set, List.lookup]

theorem DB.Create_eq_some {db db' : List URL} {row : URL} (h : DB.Create db row = some db') :
    db' = db ++ [row] ∧ (∀ r ∈ db, r.ID ≠ row.ID ∧ r.ShortURL ≠ row.ShortURL) := by
  unfold DB.Create at h
  split at h
  · cases h
  · rename_i hany
    refine ⟨by injection h with h; exact h.symm, ?_⟩
    intro r hr
    simp only [List.any_eq_true, not_exists, not_and] at hany
    have := hany r hr
    simpa using this

theorem DB.First_append_new {db : List URL} (row : URL)
    (h : ∀ r ∈ db, r.ShortURL ≠ row.ShortURL) :
    DB.First (db ++ [row]) row.ShortURL = some row := by
  unfold DB.First
  rw [List.find?_append]
  have : db.find? (fun r => r.ShortURL == row.ShortURL) = none := by
    rw [List.find?_eq_none]
    intro r hr
    simpa using h r hr
  simp [this]

theorem DB.First_of_unique {db : List URL} {row : URL} (hu : UniqueCodes db) (hr : row ∈ db) :
    DB.First db row.ShortURL = some row := by
  unfold DB.First
  induction db with
  | nil => cases hr
  | cons a t ih =>
    unfold UniqueCodes at hu
    rw [List.map_cons, List.nodup_cons] at hu
    rcases List.mem_cons.mp hr with rfl | ht
    · simp
    · have hne : a.ShortURL ≠ row.ShortURL := by
        intro heq
        exact hu.1 (heq ▸ List.mem_map_of_mem URL.ShortURL ht)
      rw [List.find?_cons_of_neg]
      · exact ih hu.2 ht
      · simpa using hne

theorem DB.First_eq_none_iff {db : List URL} {code : String} :
    DB.First db code = none ↔ ∀ r ∈ db, r.ShortURL ≠ code := by
  unfold DB.First
  rw [List.find?_eq_none]
  simp

theorem DB.Count_pos_iff {db : List URL} {code : String} :
    0 < DB.Count db code ↔ ∃ r ∈ db, r.ShortURL = code := by
  unfold DB.Count
  rw [List.length_pos_iff_exists_mem]
  simp [List.mem_filter]

theorem Redis.Exists_pos_iff {cache : List (String × CacheEntry)} {key : String} :
    0 < Redis.Exists cache key ↔ (Redis.Get cache key).isSome = true := by
  unfold Redis.Exists Redis.Get
  cases cache.lookup key <;> simp

/-! ## Lemmas on strings -/

theorem isCodeChar_encodeURLChar (i : Nat) : isCodeChar (encodeURLChar i) = true := by
  have h : ∀ j < 64, isCodeChar (encodeURL.data.getD j 'A') = true := by decide
  exact h (i % 64) (Nat.mod_lt _ (by norm_num))

theorem EncodeToString_chars (bs : List Nat) :
    ∀ c ∈ base64.URLEncoding.EncodeToString bs, isCodeChar c = true ∨ c = '=' := by
  induction bs using base64.URLEncoding.EncodeToString.induct with
  | case1 => simp [base64.URLEncoding.EncodeToString]
  | case2 b0 =>
    intro c hc
    simp only [base64.URLEncoding.EncodeToString, List.mem_cons, List.mem_singleton,
      List.mem_nil_iff, or_false] at hc
    rcases hc with rfl | rfl | rfl | rfl <;> simp [isCodeChar_encodeURLChar]
  | case3 b0 b1 =>
    intro c hc
    simp only [base64.URLEncoding.EncodeToString, List.mem_cons, List.mem_singleton,
      List.mem_nil_iff, or_false] at hc
    rcases hc with rfl | rfl | rfl | rfl <;> simp [isCodeChar_encodeURLChar]
  | case4 b0 b1 b2 rest ih =>
    intro c hc
    simp only [base64.URLEncoding.EncodeToString, List.mem_cons] at hc
    rcases hc with rfl | rfl | rfl | rfl | hc
    · simp [isCodeChar_encodeURLChar]
    · simp [isCodeChar_encodeURLChar]
    · simp [isCodeChar_encodeURLChar]
    · simp [isCodeChar_encodeURLChar]
    · exact ih c hc

theorem generateShortCode_no_slash {entropy : Option (List Nat)} {code : String}
    (h : generateShortCode entropy = .ok code) : '/' ∉ code.data := by
  unfold generateShortCode at h
  cases entropy with
  | none => cases h
  | some bs =>
    injection h with h
    subst h
    intro hmem
    have hmem2 := List.mem_of_mem_take hmem
    rcases EncodeToString_chars _ _ hmem2 with h1 | h1
    · revert h1; decide
    · revert h1; decide

theorem TrimPrefix_urls_of_no_slash {s : String} (h : '/' ∉ s.data) :
    strings.TrimPrefix s "urls/" = s := by
  unfold strings.TrimPrefix
  split
  · rename_i hp
    exfalso
    apply h
    have hp2 := List.isPrefixOf_iff_prefix.mp hp
    exact hp2.subset (by decide)
  · rfl

/-! ## Lemmas on the lowercase fold -/

/-- The characters of the charset are ASCII. -/
theorem isCodeChar_ascii {c : Char} (h : isCodeChar c = true) : c.toNat < 128 := by
  unfold isCodeChar at h
  simp only [Bool.or_eq_true, Bool.and_eq_true, decide_eq_true_eq, beq_iff_eq] at h
  omega

/-- On ASCII `unicode.ToLower` replaces the letters `A` to `Z`. -/
theorem unicode.ToLower_of_ascii {r : Char} (h : r.toNat < 128) :
    unicode.ToLower r = r.toLower := by
  unfold unicode.ToLower
  rw [if_pos h]

/-- The fold maps every rune with `unicode.ToLower`, on both paths of `strings.ToLower`. -/
theorem strings.ToLower_data (s : String) :
    (strings.ToLower s).data = s.data.map unicode.ToLower := by
  unfold strings.ToLower
  split
  · rename_i h
    rw [List.all_eq_true] at h
    simp only
    apply List.map_congr_left
    intro c hc
    have := h c hc
    rw [unicode.ToLower_of_ascii (by simpa using this)]
  · rfl

/-- On a code of the charset the fold replaces the letters `A` to `Z`. -/
theorem ToLower_of_codeChars {s : String} (h : ∀ x ∈ s.data, isCodeChar x = true) :
    strings.ToLower s = ⟨s.data.map Char.toLower⟩ := by
  unfold strings.ToLower
  rw [if_pos]
  rw [List.all_eq_true]
  intro x hx
  simpa using isCodeChar_ascii (h x hx)

/-- Folding a folded ASCII character changes nothing. -/
theorem Char.toLower_toLower (c : Char) : c.toLower.toLower = c.toLower := by
  by_cases hu : c.toNat ≥ 65 ∧ c.toNat ≤ 90
  · have h1 : c.toLower = Char.ofNat (c.toNat + 32) := by
      unfold Char.toLower
      simp only [hu, and_self, if_true]
    rw [h1]
    obtain ⟨h2, h3⟩ := hu
    generalize c.toNat = n at h2 h3
    interval_cases n <;> decide
  · have h1 : c.toLower = c := by
      unfold Char.toLower
      simp only [hu, if_false]
    rw [h1, h1]

/-- The number of a valid code point is read back from its character. -/
theorem Char.toNat_ofNat_of_valid (m : Nat) (h : m < 55296 ∨ (57343 < m ∧ m < 1114112)) :
    (Char.ofNat m).toNat = m := by
  unfold Char.ofNat
  rw [dif_pos h]
  rfl

/-- An ASCII character stays ASCII under the fold of ASCII. -/
theorem Char.toLower_ascii {c : Char} (h : c.toNat < 128) : c.toLower.toNat < 128 := by
  by_cases hu : c.toNat ≥ 65 ∧ c.toNat ≤ 90
  · have h1 : c.toLower = Char.ofNat (c.toNat + 32) := by
      unfold Char.toLower
      simp only [hu, and_self, if_true]
    rw [h1, Char.toNat_ofNat_of_valid _ (by omega)]
    omega
  · have h1 : c.toLower = c := by
      unfold Char.toLower
      simp only [hu, if_false]
    rw [h1]
    exact h

/-- A character that is no capital of ASCII is its own fold of ASCII. -/
theorem Char.toLower_of_not_capital {c : Char} (h : 90 < c.toNat) : c.toLower = c := by
  unfold Char.toLower
  simp only
  rw [if_neg]
  omega

set_option maxRecDepth 100000 in
/-- The table is sound and maps none of its images. -/
theorem unicode.imagesFixed_eq : unicode.imagesFixed = true := by
  decide!

/-- The image of a mapped code point is a valid code point, no capital of ASCII, and not
mapped by the table. -/
theorem unicode.image_fixed {n : Nat} {e : Nat × Nat × Nat × Nat}
    (hfind : unicode.lowerRanges.find? (fun e => unicode.covers e n) = some e) :
    (e.2.2.2 + (n - e.1) < 55296 ∨
        (57343 < e.2.2.2 + (n - e.1) ∧ e.2.2.2 + (n - e.1) < 1114112)) ∧
      90 < e.2.2.2 + (n - e.1) ∧
      (128 ≤ e.2.2.2 + (n - e.1) →
        unicode.lowerRanges.find? (fun f => unicode.covers f (e.2.2.2 + (n - e.1))) = none) := by
  have hmem := List.mem_of_find?_eq_some hfind
  have hcov := List.find?_some hfind
  have hall := unicode.imagesFixed_eq
  unfold unicode.imagesFixed at hall
  rw [List.all_eq_true] at hall
  have he := hall e hmem
  rw [Bool.and_eq_true, List.all_eq_true] at he
  obtain ⟨hsound, hapart⟩ := he
  obtain ⟨lo, hi, stride, tgt⟩ := e
  simp only [unicode.covers, Bool.and_eq_true, decide_eq_true_eq, beq_iff_eq] at hcov
  simp only [unicode.sound, Bool.and_eq_true, Bool.or_eq_true, decide_eq_true_eq] at hsound
  simp only at hapart ⊢
  obtain ⟨⟨hlo, hhi⟩, hmod⟩ := hcov
  refine ⟨by omega, by omega, ?_⟩
  intro _
  rw [List.find?_eq_none]
  intro f hf hcovf
  have hap := hapart f hf
  obtain ⟨lo2, hi2, stride2, tgt2⟩ := f
  simp only [unicode.covers, Bool.and_eq_true, decide_eq_true_eq, beq_iff_eq] at hcovf
  simp only [unicode.apart, Bool.or_eq_true, Bool.and_eq_true, decide_eq_true_eq,
    beq_iff_eq] at hap
  obtain ⟨⟨hlo2, hhi2⟩, hmod2⟩ := hcovf
  rcases hap with (h1 | h2) | ⟨⟨hs2, hs⟩, hpar⟩
  · omega
  · omega
  · subst hs2
    rcases hs with hs | hs
    · subst hs
      omega
    · omega

/-- Lowering a lowered rune changes nothing. -/
theorem unicode.ToLower_twice (r : Char) :
    unicode.ToLower (unicode.ToLower r) = unicode.ToLower r := by
  by_cases h : r.toNat < 128
  · rw [unicode.ToLower_of_ascii h, unicode.ToLower_of_ascii (Char.toLower_ascii h),
      Char.toLower_toLower]
  · have hr : unicode.ToLower r = Char.ofNat (unicode.lowerOf r.toNat) := by
      unfold unicode.ToLower
      rw [if_neg h]
    rw [hr]
    unfold unicode.lowerOf
    split
    · rw [Char.ofNat_toNat, hr]
      unfold unicode.lowerOf
      rename_i hnone
      rw [hnone]
      simp only [Char.ofNat_toNat]
    · rename_i e hfind
      obtain ⟨hvalid, hcap, hnone⟩ := unicode.image_fixed hfind
      have hnat := Char.toNat_ofNat_of_valid _ hvalid
      by_cases hm : e.2.2.2 + (r.toNat - e.1) < 128
      · rw [unicode.ToLower_of_ascii (by rw [hnat]; exact hm)]
        exact Char.toLower_of_not_capital (by rw [hnat]; exact hcap)
      · unfold unicode.ToLower
        rw [if_neg (by rw [hnat]; exact hm), hnat]
        unfold unicode.lowerOf
        rw [hnone (by omega)]

/-- The fold is idempotent on every string. -/
theorem ToLower_idempotent (s : String) :
    strings.ToLower (strings.ToLower s) = strings.ToLower s := by
  apply String.ext
  rw [strings.ToLower_data, strings.ToLower_data, List.map_map]
  apply List.map_congr_left
  intro c _
  exact unicode.ToLower_twice c

/-- The fold keeps the number of runes, so only the empty string folds to the empty string. -/
theorem ToLower_eq_empty {s : String} (h : strings.ToLower s = "") : s = "" := by
  have hd := congrArg String.data h
  rw [strings.ToLower_data] at hd
  have hnil : s.data = [] := List.map_eq_nil_iff.mp hd
  exact String.ext hnil

/-! ## Lemmas on the service -/

/-- The collision check only reads: store, cache and pending goroutines are unchanged. -/
theorem isShortCodeTaken_frame (st : State) (o : TakenOracle) (code : String) :
    (isShortCodeTaken st o code).2.db = st.db ∧
      (isShortCodeTaken st o code).2.cache = st.cache ∧
      (isShortCodeTaken st o code).2.pending = st.pending := by
  unfold isShortCodeTaken
  simp only [State.call]
  split
  · exact ⟨rfl, rfl, rfl⟩
  · split <;> exact ⟨rfl, rfl, rfl⟩

/-- The collision check answers "taken" when it can see the code: in the cache with a
working cache, or in the table with a working query. -/
theorem isShortCodeTaken_of_visible {st : State} {o : TakenOracle} {code : String}
    (h : (o.existsErr = false ∧ (Redis.Get st.cache (getCacheKey code)).isSome = true) ∨
      (o.countErr = false ∧ ∃ r ∈ st.db, r.ShortURL = code)) :
    (isShortCodeTaken st o code).1 = (true, none) ∧
      ∃ l, (isShortCodeTaken st o code).2.log = st.log ++ l ∧ l.count Call.randRead = 0 ∧
        ∀ c ∈ l, c = Call.redisExists (getCacheKey code) ∨ c = Call.dbCount code := by
  unfold isShortCodeTaken
  simp only [State.call]
  by_cases hc : (!o.existsErr && decide (Redis.Exists st.cache (getCacheKey code) > 0)) = true
  · rw [if_pos hc]
    exact ⟨rfl, [Call.redisExists (getCacheKey code)], rfl, by simp, by simp⟩
  · rw [if_neg hc]
    have hcount : o.countErr = false ∧ ∃ r ∈ st.db, r.ShortURL = code := by
      rcases h with ⟨h1, h2⟩ | h
      · exfalso; apply hc
        have := Redis.Exists_pos_iff.mpr h2
        simp [h1, this]
      · exact h
    have hpos := DB.Count_pos_iff.mpr hcount.2
    simp only [hcount.1, Bool.false_eq_true, if_false]
    refine ⟨by simp [hpos], [Call.redisExists (getCacheKey code), Call.dbCount code],
      by simp, by simp, by simp⟩

/-- What the collision check has established when it answers "free" without error. -/
theorem isShortCodeTaken_free {st st1 : State} {o : TakenOracle} {code : String} {b : Bool}
    {e : Option Err} (h : isShortCodeTaken st o code = ((b, e), st1))
    (hret : (e.isSome || !b) = true) :
    st1.log = st.log ++ [Call.redisExists (getCacheKey code), Call.dbCount code] ∧
      (o.existsErr = false → Redis.Get st.cache (getCacheKey code) = none) ∧
      (o.countErr = false → e = none ∧ ∀ r ∈ st.db, r.ShortURL ≠ code) := by
  unfold isShortCodeTaken at h
  simp only [State.call] at h
  by_cases hc : (!o.existsErr && decide (Redis.Exists st.cache (getCacheKey code) > 0)) = true
  · rw [if_pos hc] at h
    simp only [Prod.mk.injEq] at h
    obtain ⟨⟨rfl, rfl⟩, -⟩ := h
    simp at hret
  · rw [if_neg hc] at h
    have hex : o.existsErr = false → Redis.Get st.cache (getCacheKey code) = none := by
      intro he
      by_contra hne
      apply hc
      have : (Redis.Get st.cache (getCacheKey code)).isSome = true := by
        cases hg : Redis.Get st.cache (getCacheKey code) with
        | none => exact absurd hg hne
        | some v => rfl
      simp [he, Redis.Exists_pos_iff.mpr this]
    cases hce : o.countErr with
    | true =>
      simp only [hce, if_true, Prod.mk.injEq] at h
      obtain ⟨-, rfl⟩ := h
      exact ⟨by simp, hex, by simp⟩
    | false =>
      simp only [hce, Bool.false_eq_true, if_false, Prod.mk.injEq] at h
      obtain ⟨⟨rfl, rfl⟩, rfl⟩ := h
      refine ⟨by simp, hex, fun _ => ⟨rfl, ?_⟩⟩
      intro r hr heq
      have hpos := DB.Count_pos_iff.mpr ⟨r, hr, heq⟩
      simp [hpos] at hret

theorem isShortCodeTaken_log (st : State) (o : TakenOracle) (code : String) :
    ∃ l, (isShortCodeTaken st o code).2.log = st.log ++ l := by
  unfold isShortCodeTaken
  simp only [State.call]
  split
  · exact ⟨[Call.redisExists (getCacheKey code)], rfl⟩
  · split <;> exact ⟨[Call.redisExists (getCacheKey code), Call.dbCount code], by simp⟩

/-- What is known of a code the generator loop returns: it was drawn at some iteration `j`, the
collision check of that iteration was its last action, and the check saw neither a cache key
(when the cache answered) nor a row (when the query answered). -/
theorem generateUniqueShortCode.loop_ok {att : Nat → Attempt} :
    ∀ (fuel i : Nat) (st st' : State) (code : String),
      generateUniqueShortCode.loop att fuel i st = (.ok code, st') →
      ∃ j, i ≤ j ∧ j < i + fuel ∧ generateShortCode (att j).entropy = .ok code ∧
        (∃ pre, st'.log = st.log ++ pre ++
          [Call.randRead, Call.redisExists (getCacheKey code), Call.dbCount code]) ∧
        ((att j).taken.existsErr = false → Redis.Get st.cache (getCacheKey code) = none) ∧
        ((att j).taken.countErr = false → ∀ r ∈ st.db, r.ShortURL ≠ code) ∧
        st'.db = st.db ∧ st'.cache = st.cache ∧ st'.pending = st.pending := by
  intro fuel
  induction fuel with
  | zero =>
    intro i st st' code h
    simp [generateUniqueShortCode.loop] at h
  | succ n ih =>
    intro i st st' code h
    unfold generateUniqueShortCode.loop at h
    simp only at h
    cases hg : generateShortCode (att i).entropy with
    | error e =>
      rw [hg] at h
      simp only at h
      obtain ⟨j, h1, h2, h3, ⟨pre, h4⟩, h5, h6, h7, h8, h9⟩ := ih (i + 1) _ st' code h
      refine ⟨j, by omega, by omega, h3, ⟨Call.randRead :: pre, ?_⟩, h5, h6, h7, h8, h9⟩
      rw [h4]; simp [State.call]
    | ok c =>
      rw [hg] at h
      simp only at h
      rcases hr : isShortCodeTaken (st.call Call.randRead) (att i).taken c with ⟨⟨b, e⟩, st2⟩
      rw [hr] at h
      simp only at h
      by_cases hcond : (e.isSome || !b) = true
      · rw [if_pos hcond] at h
        simp only [Prod.mk.injEq, Except.ok.injEq] at h
        obtain ⟨rfl, rfl⟩ := h
        obtain ⟨hl, hex, hco⟩ := isShortCodeTaken_free hr hcond
        have hf := isShortCodeTaken_frame (st.call Call.randRead) (att i).taken c
        rw [hr] at hf
        refine ⟨i, le_refl _, by omega, hg, ⟨[], ?_⟩, hex, fun hc => (hco hc).2, hf.1, hf.2.1,
          hf.2.2⟩
        rw [hl]; simp [State.call]
      · rw [if_neg hcond] at h
        obtain ⟨j, h1, h2, h3, ⟨pre, h4⟩, h5, h6, h7, h8, h9⟩ := ih (i + 1) _ st' code h
        have hf := isShortCodeTaken_frame (st.call Call.randRead) (att i).taken c
        obtain ⟨l, hl⟩ := isShortCodeTaken_log (st.call Call.randRead) (att i).taken c
        rw [hr] at hf hl
        simp only at hf hl
        refine ⟨j, by omega, by omega, h3, ⟨Call.randRead :: l ++ pre, ?_⟩, ?_, ?_, ?_, ?_, ?_⟩
        · rw [h4, hl]; simp [State.call]
        · rw [hf.2.1] at h5; exact h5
        · rw [hf.1] at h6; exact h6
        · rw [h7, hf.1]; rfl
        · rw [h8, hf.2.1]; rfl
        · rw [h9, hf.2.2]; rfl

/-- Outcome of the transaction of `CreateShortURL` when it returns a link. -/
theorem CreateShortURL.persist_ok {urlPrefix : String} {st st' : State} {o : CreateOracle}
    {userID : Nat} {longURL shortCode : String} {url : URL}
    (h : CreateShortURL.persist urlPrefix st o userID longURL shortCode = (.ok url, st')) :
    url.ShortURL = urlPrefix ++ "urls/" ++ shortCode ∧ url.LongURL = longURL ∧
      url.UserID = userID ∧
      st'.db = st.db ++ [{ url with ShortURL := shortCode }] ∧
      (∀ r ∈ st.db, r.ID ≠ o.id ∧ r.ShortURL ≠ shortCode) ∧
      st'.cache = Redis.Set st.cache (getCacheKey shortCode) longURL 86400 ∧
      o.setErr = false := by
  unfold CreateShortURL.persist at h
  simp only [State.call] at h
  split at h
  · cases h
  · split at h
    · cases h
    · rename_i db' hdb
      split at hdb
      · cases hdb
      · obtain ⟨rfl, hfresh⟩ := DB.Create_eq_some hdb
        split at h
        · cases h
        · rename_i hset
          split at h
          · cases h
          · simp only [Prod.mk.injEq, Except.ok.injEq] at h
            obtain ⟨rfl, rfl⟩ := h
            exact ⟨rfl, rfl, rfl, rfl, hfresh, rfl, by simpa using hset⟩

/-- Cache hit of `GetLongURL`. -/
theorem GetLongURL_hit {st : State} {g : GetOracle} {c k v : String}
    (hk : strings.TrimPrefix c "urls/" = k) (hg : g.getErr = false)
    (hv : Redis.Get st.cache (getCacheKey k) = some v) :
    (GetLongURL st g c).1 = (v, none) := by
  unfold GetLongURL
  simp [hk, hg, hv]

/-- Fallback of `GetLongURL` to the table when the cache does not answer. -/
theorem GetLongURL_fallback {st : State} {g : GetOracle} {c k : String} {r : URL}
    (hk : strings.TrimPrefix c "urls/" = k)
    (hmiss : g.getErr = true ∨ Redis.Get st.cache (getCacheKey k) = none)
    (hq : g.firstErr = false) (hr : DB.First st.db k = some r) :
    (GetLongURL st g c).1 = (r.LongURL, none) := by
  have hm : (if g.getErr = true then none else Redis.Get st.cache (getCacheKey k)) = none := by
    rcases hmiss with h | h
    · simp [h]
    · simp [h]
  unfold GetLongURL
  simp only [hk, hm, hq, hr, Bool.false_eq_true, if_false]

theorem Char.toLower_codeChar (c : Char) (h : isCodeChar c = true) :
    isCodeChar c.toLower = true := by
  unfold Char.toLower
  simp only
  split
  · rename_i hu
    generalize c.toNat = n at hu
    obtain ⟨h1, h2⟩ := hu
    interval_cases n <;> decide
  · exact h

theorem ToLower_no_slash {c : String} (h : shortCodePattern.MatchString c = true) :
    '/' ∉ (strings.ToLower c).data := by
  unfold shortCodePattern.MatchString at h
  simp only [Bool.and_eq_true, List.all_eq_true] at h
  intro hmem
  rw [ToLower_of_codeChars h.2] at hmem
  simp only [List.mem_map] at hmem
  obtain ⟨x, hx, hxl⟩ := hmem
  have := Char.toLower_codeChar x (h.2 x hx)
  rw [hxl] at this
  revert this
  decide

/-- The first half of `CreateShortURL` only reads, and the code it resolves to is the fold of
the custom code, or a code drawn by the generator. -/
theorem CreateShortURL.resolveCode_ok {st st1 : State} {o : CreateOracle} {c code : String}
    (h : CreateShortURL.resolveCode st o c = (.ok code, st1)) :
    st1.db = st.db ∧ st1.cache = st.cache ∧ st1.pending = st.pending ∧
      (c ≠ "" → shortCodePattern.MatchString c = true ∧ code = strings.ToLower c) ∧
      (c = "" → ∃ j, j < 3 ∧ generateShortCode (o.attempts j).entropy = .ok code) := by
  unfold CreateShortURL.resolveCode at h
  by_cases hc : c = ""
  · subst hc
    simp only [bne_self_eq_false, Bool.false_eq_true, if_false] at h
    obtain ⟨j, -, h2, h3, -, -, -, h7, h8, h9⟩ :=
      generateUniqueShortCode.loop_ok 3 0 st st1 code h
    exact ⟨h7, h8, h9, fun hne => absurd rfl hne, fun _ => ⟨j, by omega, h3⟩⟩
  · have hb : (c != "") = true := by simpa using hc
    rw [if_pos hb] at h
    cases hm : shortCodePattern.MatchString c with
    | false => simp [hm] at h
    | true =>
      simp only [hm, Bool.not_true, Bool.false_eq_true, if_false] at h
      have hf := isShortCodeTaken_frame st o.taken (strings.ToLower c)
      rcases hr : isShortCodeTaken st o.taken (strings.ToLower c) with ⟨⟨b, e⟩, st2⟩
      rw [hr] at h hf
      cases e with
      | some e => simp at h
      | none =>
        cases b with
        | true => simp at h
        | false =>
          simp only [Prod.mk.injEq, Except.ok.injEq] at h
          obtain ⟨rfl, rfl⟩ := h
          exact ⟨hf.1, hf.2.1, hf.2.2, fun _ => ⟨rfl, rfl⟩, fun he => absurd he hc⟩

/-- Outcome of a `CreateShortURL` that returns a link. -/
theorem CreateShortURL_ok {urlPrefix : String} {st st' : State} {o : CreateOracle}
    {userID : Nat} {longURL c : String} {url : URL}
    (h : CreateShortURL urlPrefix st o userID longURL c = (.ok url, st')) :
    ∃ code, url.ShortURL = urlPrefix ++ "urls/" ++ code ∧ url.LongURL = longURL ∧
      url.UserID = userID ∧
      st'.db = st.db ++ [{ url with ShortURL := code }] ∧
      (∀ r ∈ st.db, r.ID ≠ o.id ∧ r.ShortURL ≠ code) ∧
      st'.cache = Redis.Set st.cache (getCacheKey code) longURL 86400 ∧
      (c ≠ "" → shortCodePattern.MatchString c = true ∧ code = strings.ToLower c) ∧
      (c = "" → ∃ j, j < 3 ∧ generateShortCode (o.attempts j).entropy = .ok code) := by
  unfold CreateShortURL at h
  rcases hr : CreateShortURL.resolveCode st o c with ⟨_ | code, st1⟩
  · rw [hr] at h; simp at h
  · rw [hr] at h
    simp only at h
    obtain ⟨h1, h2, h3, h4, h5⟩ := CreateShortURL.resolveCode_ok hr
    obtain ⟨p1, p2, p3, p4, p5, p6, -⟩ := CreateShortURL.persist_ok h
    refine ⟨code, p1, p2, p3, ?_, ?_, ?_, h4, h5⟩
    · rw [p4, h1]
    · rw [← h1]; exact p5
    · rw [p6, h2]

/-- The code a successful `CreateShortURL` stored has no `/`, so `GetLongURL` looks it up as
it is. -/
theorem CreateShortURL_code_no_slash {o : CreateOracle} {c code : String}
    (h4 : c ≠ "" → shortCodePattern.MatchString c = true ∧ code = strings.ToLower c)
    (h5 : c = "" → ∃ j, j < 3 ∧ generateShortCode (o.attempts j).entropy = .ok code) :
    '/' ∉ code.data := by
  by_cases hc : c = ""
  · obtain ⟨j, -, hj⟩ := h5 hc
    exact generateShortCode_no_slash hj
  · obtain ⟨hm, rfl⟩ := h4 hc
    exact ToLower_no_slash hm

/-- After a successful `CreateShortURL` the stored code resolves to the destination, through
the cache or, when the cache does not answer, through the table. -/
theorem GetLongURL_after_create {st' : State} {db : List URL} {cache : List (String × CacheEntry)}
    (row : URL) {g : GetOracle}
    (hdb : st'.db = db ++ [row]) (hfresh : ∀ r ∈ db, r.ShortURL ≠ row.ShortURL)
    (hcache : st'.cache = Redis.Set cache (getCacheKey row.ShortURL) row.LongURL 86400)
    (hslash : '/' ∉ row.ShortURL.data)
    (hg : ¬ (g.getErr = true ∧ g.firstErr = true)) :
    (GetLongURL st' g row.ShortURL).1 = (row.LongURL, none) := by
  have hk := TrimPrefix_urls_of_no_slash hslash
  cases hge : g.getErr with
  | false =>
    apply GetLongURL_hit hk hge
    rw [hcache]
    exact Redis.Get_Set_self _ _ _ _
  | true =>
    have hq : g.firstErr = false := by
      cases hfe : g.firstErr with
      | false => rfl
      | true => exact absurd ⟨hge, hfe⟩ hg
    apply GetLongURL_fallback hk (Or.inl hge) hq
    rw [hdb]
    exact DB.First_append_new row hfresh

theorem isShortCodeTaken_of_free {st : State} {o : TakenOracle} {code : String}
    (hcache : Redis.Get st.cache (getCacheKey code) = none) (hq : o.countErr = false)
    (hdb : ∀ r ∈ st.db, r.ShortURL ≠ code) :
    isShortCodeTaken st o code =
      ((false, none),
        (st.call (Call.redisExists (getCacheKey code))).call (Call.dbCount code)) := by
  have hex : Redis.Exists st.cache (getCacheKey code) = 0 := by
    unfold Redis.Exists
    unfold Redis.Get at hcache
    cases hl : st.cache.lookup (getCacheKey code) with
    | none => rfl
    | some v => rw [hl] at hcache; cases hcache
  have hcnt : DB.Count st.db code = 0 := by
    by_contra hne
    obtain ⟨r, hr, heq⟩ := DB.Count_pos_iff.mp (Nat.pos_of_ne_zero hne)
    exact hdb r hr heq
  unfold isShortCodeTaken
  simp [hex, hcnt, hq]

theorem DB.Create_of_fresh {db : List URL} {row : URL}
    (h : ∀ r ∈ db, r.ID ≠ row.ID ∧ r.ShortURL ≠ row.ShortURL) :
    DB.Create db row = some (db ++ [row]) := by
  unfold DB.Create
  rw [if_neg]
  simp only [List.any_eq_true, not_exists, not_and]
  intro r hr
  have := h r hr
  simp [this.1, this.2]

theorem MatchString_ne_empty {c : String} (h : shortCodePattern.MatchString c = true) :
    c ≠ "" := by
  rintro rfl
  revert h
  decide

/-- The generator loop only reads. -/
theorem generateUniqueShortCode.loop_frame (att : Nat → Attempt) :
    ∀ (fuel i : Nat) (st : State),
      (generateUniqueShortCode.loop att fuel i st).2.db = st.db ∧
        (generateUniqueShortCode.loop att fuel i st).2.cache = st.cache ∧
        (generateUniqueShortCode.loop att fuel i st).2.pending = st.pending := by
  intro fuel
  induction fuel with
  | zero => intro i st; exact ⟨rfl, rfl, rfl⟩
  | succ n ih =>
    intro i st
    unfold generateUniqueShortCode.loop
    simp only
    cases hg : generateShortCode (att i).entropy with
    | error e => exact ih (i + 1) (st.call Call.randRead)
    | ok c =>
      simp only
      have hf := isShortCodeTaken_frame (st.call Call.randRead) (att i).taken c
      rcases hr : isShortCodeTaken (st.call Call.randRead) (att i).taken c with ⟨⟨b, e⟩, st2⟩
      rw [hr] at hf
      simp only at hf ⊢
      split
      · exact hf
      · obtain ⟨h1, h2, h3⟩ := ih (i + 1) st2
        exact ⟨h1.trans hf.1, h2.trans hf.2.1, h3.trans hf.2.2⟩

/-- The first half of `CreateShortURL` only reads, whatever it returns. -/
theorem CreateShortURL.resolveCode_frame (st : State) (o : CreateOracle) (c : String) :
    (CreateShortURL.resolveCode st o c).2.db = st.db ∧
      (CreateShortURL.resolveCode st o c).2.cache = st.cache ∧
      (CreateShortURL.resolveCode st o c).2.pending = st.pending := by
  unfold CreateShortURL.resolveCode
  split
  · split
    · exact ⟨rfl, rfl, rfl⟩
    · have hf := isShortCodeTaken_frame st o.taken (strings.ToLower c)
      simp only
      split <;> rename_i hr <;> rw [hr] at hf <;> exact hf
  · exact generateUniqueShortCode.loop_frame o.attempts 3 0 st

/-- The first half of `CreateShortURL` on a custom code that passes the charset check. -/
theorem CreateShortURL.resolveCode_custom {st : State} {o : CreateOracle} {c : String}
    (hm : shortCodePattern.MatchString c = true) :
    CreateShortURL.resolveCode st o c =
      match isShortCodeTaken st o.taken (strings.ToLower c) with
      | ((_, some e), st1) => (.error e, st1)
      | ((true, none), st1) => (.error .ErrShortCodeTaken, st1)
      | ((false, none), st1) => (.ok (strings.ToLower c), st1) := by
  have hne : (c != "") = true := by simpa using MatchString_ne_empty hm
  unfold CreateShortURL.resolveCode
  rw [if_pos hne]
  simp only [hm, Bool.not_true, Bool.false_eq_true, if_false]

/-- A non-empty custom code outside the charset is rejected before anything is read. -/
theorem CreateShortURL_invalid (urlPrefix : String) (st : State) (o : CreateOracle)
    (owner : Nat) (dest : String) {c : String} (hne : c ≠ "")
    (hm : shortCodePattern.MatchString c = false) :
    CreateShortURL urlPrefix st o owner dest c = (.error .ErrInvalidShortCode, st) := by
  have hb : (c != "") = true := by simpa using hne
  unfold CreateShortURL CreateShortURL.resolveCode
  simp [hb, hm]

/-- The collision check fails with the error of the store when neither the cache nor the
store answers. -/
theorem isShortCodeTaken_of_outage {st : State} {o : TakenOracle} {code : String}
    (he : o.existsErr = true) (hq : o.countErr = true) :
    isShortCodeTaken st o code =
      ((false, some .dbError),
        (st.call (Call.redisExists (getCacheKey code))).call (Call.dbCount code)) := by
  unfold isShortCodeTaken
  simp [he, hq]

/-- When every remaining iteration draws a code the collision check can see as taken, the
generator loop runs all of them and gives up. -/
theorem generateUniqueShortCode.loop_exhausted (att : Nat → Attempt) :
    ∀ (fuel i : Nat) (st : State),
      (∀ j, i ≤ j → j < i + fuel → ∃ code, generateShortCode (att j).entropy = .ok code ∧
        (((att j).taken.existsErr = false ∧
            (Redis.Get st.cache (getCacheKey code)).isSome = true) ∨
          ((att j).taken.countErr = false ∧ ∃ r ∈ st.db, r.ShortURL = code))) →
      (generateUniqueShortCode.loop att fuel i st).1 = .error .ErrGenerateShortCode ∧
        ∃ l, (generateUniqueShortCode.loop att fuel i st).2.log = st.log ++ l ∧
          l.count Call.randRead = fuel ∧
          ∀ c ∈ l, c = Call.randRead ∨ (∃ k, c = Call.redisExists k) ∨ ∃ k, c = Call.dbCount k := by
  intro fuel
  induction fuel with
  | zero =>
    intro i st _
    exact ⟨rfl, [], by simp [generateUniqueShortCode.loop], rfl, by simp⟩
  | succ n ih =>
    intro i st h
    obtain ⟨code, hg, hvis⟩ := h i (le_refl _) (by omega)
    have hvis1 : (((att i).taken.existsErr = false ∧
        (Redis.Get (st.call Call.randRead).cache (getCacheKey code)).isSome = true) ∨
        ((att i).taken.countErr = false ∧
          ∃ r ∈ (st.call Call.randRead).db, r.ShortURL = code)) := hvis
    obtain ⟨hres, l1, hl1, hc1, hk1⟩ := isShortCodeTaken_of_visible hvis1
    have hf := isShortCodeTaken_frame (st.call Call.randRead) (att i).taken code
    rcases hr : isShortCodeTaken (st.call Call.randRead) (att i).taken code with ⟨⟨b, e⟩, st2⟩
    rw [hr] at hres hl1 hf
    simp only [Prod.mk.injEq] at hres
    obtain ⟨rfl, rfl⟩ := hres
    simp only at hl1 hf
    have hnext : ∀ j, i + 1 ≤ j → j < i + 1 + n →
        ∃ code, generateShortCode (att j).entropy = .ok code ∧
          (((att j).taken.existsErr = false ∧
              (Redis.Get st2.cache (getCacheKey code)).isSome = true) ∨
            ((att j).taken.countErr = false ∧ ∃ r ∈ st2.db, r.ShortURL = code)) := by
      intro j hj1 hj2
      obtain ⟨cj, hgj, hvj⟩ := h j (by omega) (by omega)
      refine ⟨cj, hgj, ?_⟩
      rw [hf.1, hf.2.1]
      exact hvj
    obtain ⟨hE, l2, hl2, hc2, hk2⟩ := ih (i + 1) st2 hnext
    have hstep : generateUniqueShortCode.loop att (n + 1) i st =
        generateUniqueShortCode.loop att n (i + 1) st2 := by
      rw [generateUniqueShortCode.loop]
      simp only [hg, hr]
      simp
    rw [hstep]
    refine ⟨hE, Call.randRead :: l1 ++ l2, ?_, ?_, ?_⟩
    · rw [hl2, hl1]; simp [State.call]
    · simp [List.count_cons, hc1, hc2]
    · intro c hc
      simp only [List.cons_append, List.mem_cons, List.mem_append] at hc
      rcases hc with rfl | hc | hc
      · exact Or.inl rfl
      · rcases hk1 c hc with rfl | rfl
        · exact Or.inr (Or.inl ⟨_, rfl⟩)
        · exact Or.inr (Or.inr ⟨_, rfl⟩)
      · exact hk2 c hc

/-- The transaction of `CreateShortURL` when the cache write fails: it never returns a link
and leaves store and cache as they were; when the insert had succeeded the error is the
error of the cache and the transaction is rolled back. -/
theorem CreateShortURL.persist_setErr (urlPrefix : String) (st : State) (o : CreateOracle)
    (userID : Nat) (longURL shortCode : String) (hset : o.setErr = true) :
    (∃ e, (CreateShortURL.persist urlPrefix st o userID longURL shortCode).1 = .error e) ∧
      (CreateShortURL.persist urlPrefix st o userID longURL shortCode).2.db = st.db ∧
      (CreateShortURL.persist urlPrefix st o userID longURL shortCode).2.cache = st.cache ∧
      (o.beginErr = false → o.createErr = false →
        (∀ r ∈ st.db, r.ID ≠ o.id ∧ r.ShortURL ≠ shortCode) →
        CreateShortURL.persist urlPrefix st o userID longURL shortCode =
          (.error .redisError,
            (((st.call Call.dbBegin).call
              (Call.dbCreate (CreateShortURL.newURL o userID longURL shortCode))).call
              (Call.redisSet (getCacheKey shortCode) longURL 86400)).call Call.dbRollback)) := by
  refine ⟨?_, ?_, ?_, ?_⟩
  · unfold CreateShortURL.persist
    simp only [hset, if_true]
    split
    · exact ⟨_, rfl⟩
    · split <;> exact ⟨_, rfl⟩
  · unfold CreateShortURL.persist
    simp only [hset, if_true]
    split
    · rfl
    · split <;> rfl
  · unfold CreateShortURL.persist
    simp only [hset, if_true]
    split
    · rfl
    · split <;> rfl
  · intro hb hc hfresh
    have hins : DB.Create st.db (CreateShortURL.newURL o userID longURL shortCode) =
        some (st.db ++ [CreateShortURL.newURL o userID longURL shortCode]) :=
      DB.Create_of_fresh hfresh
    unfold CreateShortURL.persist
    simp only [hset, hb, hc, hins, if_true, Bool.false_eq_true, if_false]

/-- The answer of `GetLongURL` depends on its argument through `strings.TrimPrefix` only. -/
theorem GetLongURL_congr {st : State} {g : GetOracle} {c c' : String}
    (h : strings.TrimPrefix c "urls/" = strings.TrimPrefix c' "urls/") :
    GetLongURL st g c = GetLongURL st g c' := by
  unfold GetLongURL
  rw [h]

theorem TrimPrefix_urls_append (c : String) : strings.TrimPrefix ("urls/" ++ c) "urls/" = c := by
  unfold strings.TrimPrefix
  have hd : ("urls/" ++ c).data = "urls/".data ++ c.data := String.data_append _ _
  have hp : "urls/".data.isPrefixOf ("urls/" ++ c).data = true := by
    rw [hd, List.isPrefixOf_iff_prefix]
    exact List.prefix_append _ _
  rw [if_pos hp]
  have : ("urls/" ++ c).data.drop "urls/".data.length = c.data := by
    rw [hd, List.drop_left]
  simp [this]

/-! ## Lemmas on normalization and on generated codes -/

theorem TrimPrefix_eq_self_iff (t : String) :
    strings.TrimPrefix t "urls/" = t ↔ "urls/".data.isPrefixOf t.data = false := by
  unfold strings.TrimPrefix
  cases hp : "urls/".data.isPrefixOf t.data with
  | false => simp
  | true =>
    simp only [if_true, Bool.true_eq_false, iff_false]
    intro heq
    have hlen : (t.data.drop "urls/".data.length).length = t.data.length :=
      congrArg (fun u : String => u.data.length) heq
    rw [List.length_drop] at hlen
    have hpre := List.isPrefixOf_iff_prefix.mp hp
    have hle := hpre.length_le
    have h5 : "urls/".data.length = 5 := by decide
    omega

theorem fillBytes_length (n : Nat) (bs : List Nat) : (fillBytes n bs).length = n := by
  induction n generalizing bs with
  | zero => rfl
  | succ k ih =>
    cases bs with
    | nil => simp [fillBytes, ih]
    | cons b t => simp [fillBytes, ih]

/-- The encoding of eight bytes has twelve characters, and its first six are characters of
the URL alphabet. -/
theorem EncodeToString_eight (l : List Nat) (hl : l.length = 8) :
    (base64.URLEncoding.EncodeToString l).length = 12 ∧
      ((base64.URLEncoding.EncodeToString l).take 6).length = 6 ∧
      ∀ c ∈ (base64.URLEncoding.EncodeToString l).take 6, isCodeChar c = true := by
  rcases l with _ | ⟨a0, _ | ⟨a1, _ | ⟨a2, _ | ⟨a3, _ | ⟨a4, _ | ⟨a5, _ | ⟨a6, _ | ⟨a7, _ | ⟨a8, t⟩⟩⟩⟩⟩⟩⟩⟩⟩ <;>
    simp at hl
  refine ⟨by simp [base64.URLEncoding.EncodeToString], by
    simp [base64.URLEncoding.EncodeToString], ?_⟩
  intro c hc
  simp only [base64.URLEncoding.EncodeToString, List.take_succ_cons, List.take_zero,
    List.mem_cons, List.mem_singleton, List.mem_nil_iff, or_false] at hc
  rcases hc with rfl | rfl | rfl | rfl | rfl | rfl <;> exact isCodeChar_encodeURLChar _

/-! ## Lemmas on `UpdateURL` and `DeleteURL` -/

theorem lookup_filter_none {cache : List (String × CacheEntry)} {key : String}
    {p : String × CacheEntry → Bool} (hp : ∀ e, e.1 = key → p e = false) :
    (cache.filter p).lookup key = none := by
  induction cache with
  | nil => rfl
  | cons a t ih =>
    by_cases hpa : p a = true
    · rw [List.filter_cons_of_pos hpa]
      have hne : a.1 ≠ key := fun h => by rw [hp a h] at hpa; cases hpa
      have hb : (key == a.1) = false := by simpa using fun h : key = a.1 => hne h.symm
      obtain ⟨k, v⟩ := a
      simp only [List.lookup, hb, ih] at hb ⊢
    · rw [List.filter_cons_of_neg hpa]
      exact ih

theorem lookup_filter_of_ne {cache : List (String × CacheEntry)} {key : String}
    {p : String × CacheEntry → Bool} (hp : ∀ e, e.1 = key → p e = true) :
    (cache.filter p).lookup key = cache.lookup key := by
  induction cache with
  | nil => rfl
  | cons a t ih =>
    obtain ⟨k, v⟩ := a
    by_cases hk : k = key
    · have hpa : p (k, v) = true := hp (k, v) hk
      rw [List.filter_cons_of_pos hpa]
      subst hk
      simp [List.lookup]
    · have hb : (key == k) = false := by simpa using fun h : key = k => hk h.symm
      by_cases hpa : p (k, v) = true
      · rw [List.filter_cons_of_pos hpa]
        simp only [List.lookup, hb, ih]
      · rw [List.filter_cons_of_neg hpa]
        simp only [List.lookup, hb, ih]

theorem Redis.Get_Del_of_mem {cache : List (String × CacheEntry)} {keys : List String}
    {key : String} (h : key ∈ keys) : Redis.Get (Redis.Del cache keys) key = none := by
  unfold Redis.Get Redis.Del
  rw [lookup_filter_none]
  · rfl
  · intro e he
    subst he
    simp [h]

theorem DB.FirstByIDUser_of_unique {db : List URL} {r : URL} (hu : UniqueIDs db) (hr : r ∈ db)
    (userID : Nat) :
    DB.FirstByIDUser db r.ID userID = if r.UserID = userID then some r else none := by
  unfold DB.FirstByIDUser
  induction db with
  | nil => cases hr
  | cons a t ih =>
    unfold UniqueIDs at hu
    rw [List.map_cons, List.nodup_cons] at hu
    rcases List.mem_cons.mp hr with rfl | ht
    · by_cases ho : r.UserID = userID
      · simp [ho]
      · have hnone : t.find? (fun x => x.ID == r.ID && x.UserID == userID) = none := by
          rw [List.find?_eq_none]
          intro x hx
          have : x.ID ≠ r.ID := fun h => hu.1 (h ▸ List.mem_map_of_mem URL.ID hx)
          simp [this]
        simp [ho, hnone]
    · have hne : a.ID ≠ r.ID := fun h => hu.1 (h ▸ List.mem_map_of_mem URL.ID ht)
      rw [List.find?_cons_of_neg]
      · exact ih hu.2 ht
      · simp [hne]

theorem DB.FirstByIDUser_eq_some {db : List URL} {urlID userID : Nat} {url : URL}
    (h : DB.FirstByIDUser db urlID userID = some url) :
    url ∈ db ∧ url.ID = urlID ∧ url.UserID = userID := by
  unfold DB.FirstByIDUser at h
  have h1 := List.mem_of_find?_eq_some h
  have h2 := List.find?_some h
  simp only [Bool.and_eq_true, beq_iff_eq] at h2
  exact ⟨h1, h2.1, h2.2⟩

/-- After the delete no row carries the code of the deleted row. -/
theorem DB.Delete_code_gone {db : List URL} {url : URL} (hu : UniqueCodes db) (hr : url ∈ db) :
    ∀ r ∈ DB.Delete db url, r.ShortURL ≠ url.ShortURL := by
  intro r hmem hcode
  unfold DB.Delete at hmem
  rw [List.mem_filter] at hmem
  have heq : r = url := List.inj_on_of_nodup_map hu hmem.1 hr hcode
  rw [heq] at hmem
  simp at hmem

/-- Outcome of a `DeleteURL` that returns no error. -/
theorem DeleteURL_ok {st st' : State} {o : DeleteOracle} {userID urlID : Nat}
    (h : DeleteURL st o userID urlID = (none, st')) :
    ∃ url, DB.FirstByIDUser st.db urlID userID = some url ∧
      st'.db = DB.Delete st.db url ∧
      st'.cache = Redis.Del st.cache [getCacheKey url.ShortURL, getClicksKey url.ShortURL] ∧
      st'.pending = st.pending := by
  unfold DeleteURL at h
  simp only [State.call] at h
  split at h
  · cases h
  · split at h
    · cases h
    · split at h
      · cases h
      · rename_i url hfound
        split at h
        · cases h
        · split at h
          · cases h
          · split at h
            · cases h
            · simp only [Prod.mk.injEq, true_and] at h
              subst h
              exact ⟨url, hfound, rfl, rfl, rfl⟩

/-- Outcome of a `DeleteURL` that finds no row with the id and the owner: an error, which is
`ErrURLNotFound` when the store answers, and nothing but the begin, the query and the
rollback. -/
theorem DeleteURL_not_found {st : State} (o : DeleteOracle) {userID urlID : Nat}
    (hnone : DB.FirstByIDUser st.db urlID userID = none) :
    (∃ e, (DeleteURL st o userID urlID).1 = some e ∧ e ≠ Err.ErrUnauthorized) ∧
      (o.beginErr = false ∧ o.firstErr = false →
        (DeleteURL st o userID urlID).1 = some .ErrURLNotFound) ∧
      (DeleteURL st o userID urlID).2.db = st.db ∧
      (DeleteURL st o userID urlID).2.cache = st.cache ∧
      (DeleteURL st o userID urlID).2.pending = st.pending ∧
      ((DeleteURL st o userID urlID).2.log = st.log ++ [Call.dbBegin] ∨
        (DeleteURL st o userID urlID).2.log =
          st.log ++ [Call.dbBegin, Call.dbFirstByIDUser urlID userID, Call.dbRollback]) := by
  unfold DeleteURL
  simp only [State.call, hnone, List.append_assoc, List.cons_append, List.nil_append]
  cases o.beginErr with
  | true =>
    exact ⟨⟨_, rfl, by decide⟩, fun h => absurd h.1 (by decide), rfl, rfl, rfl, Or.inl rfl⟩
  | false =>
    cases o.firstErr with
    | true =>
      exact ⟨⟨_, rfl, by decide⟩, fun h => absurd h.2 (by decide), rfl, rfl, rfl, Or.inr rfl⟩
    | false => exact ⟨⟨_, rfl, by decide⟩, fun _ => rfl, rfl, rfl, rfl, Or.inr rfl⟩

/-- Outcome of an `UpdateURL` that finds no row with the id and the owner. -/
theorem UpdateURL_not_found (urlPrefix : String) {st : State} (o : UpdateOracle)
    {userID urlID : Nat} (longURL : String)
    (hnone : DB.FirstByIDUser st.db urlID userID = none) :
    (∃ e, (UpdateURL urlPrefix st o userID urlID longURL).1 = .error e ∧
        e ≠ Err.ErrUnauthorized) ∧
      (o.beginErr = false ∧ o.firstErr = false →
        (UpdateURL urlPrefix st o userID urlID longURL).1 = .error .ErrURLNotFound) ∧
      (UpdateURL urlPrefix st o userID urlID longURL).2.db = st.db ∧
      (UpdateURL urlPrefix st o userID urlID longURL).2.cache = st.cache := by
  unfold UpdateURL
  simp only [State.call, hnone]
  cases o.beginErr with
  | true => exact ⟨⟨_, rfl, by decide⟩, fun h => absurd h.1 (by decide), rfl, rfl⟩
  | false =>
    cases o.firstErr with
    | true => exact ⟨⟨_, rfl, by decide⟩, fun h => absurd h.2 (by decide), rfl, rfl⟩
    | false => exact ⟨⟨_, rfl, by decide⟩, fun _ => rfl, rfl, rfl⟩

/-- `GetLongURL` of a code without row, when the cache does not answer with a mapping and
the store answers. -/
theorem GetLongURL_unknown {st : State} {g : GetOracle} {c : String}
    (hdb : ∀ r ∈ st.db, r.ShortURL ≠ strings.TrimPrefix c "urls/")
    (hmiss : g.getErr = true ∨
      Redis.Get st.cache (getCacheKey (strings.TrimPrefix c "urls/")) = none)
    (hq : g.firstErr = false) :
    (GetLongURL st g c).1 = ("", some .ErrURLNotFound) := by
  have hm : (if g.getErr = true then none
      else Redis.Get st.cache (getCacheKey (strings.TrimPrefix c "urls/"))) = none := by
    rcases hmiss with h | h
    · simp [h]
    · simp [h]
  have hfirst : DB.First st.db (strings.TrimPrefix c "urls/") = none :=
    DB.First_eq_none_iff.mpr hdb
  unfold GetLongURL
  simp only [hm, hfirst, hq, Bool.false_eq_true, if_false]

/-! ## Lemmas on decimal integers -/

theorem digitVal?_digitChar (d : Nat) (hd : d < 10) : digitVal? (digitChar d) = some d := by
  interval_cases d <;> decide

theorem digitChar_ne_sign (d : Nat) (hd : d < 10) : digitChar d ≠ '-' ∧ digitChar d ≠ '+' := by
  interval_cases d <;> decide

theorem natDigits_lt (fuel n : Nat) : ∀ d ∈ natDigits fuel n, d < 10 := by
  induction fuel generalizing n with
  | zero => intro d hd; simp [natDigits] at hd
  | succ k ih =>
    intro d hd
    unfold natDigits at hd
    split at hd
    · simp only [List.mem_singleton] at hd
      omega
    · rcases List.mem_cons.mp hd with rfl | h
      · exact Nat.mod_lt _ (by norm_num)
      · exact ih _ d h

theorem natDigits_ne_nil (fuel n : Nat) : natDigits (fuel + 1) n ≠ [] := by
  unfold natDigits
  split <;> simp

theorem ofDigits_natDigits (fuel n : Nat) (h : n < fuel) : ofDigits (natDigits fuel n) = n := by
  induction fuel generalizing n with
  | zero => omega
  | succ k ih =>
    unfold natDigits
    split
    · simp [ofDigits]
    · rename_i hge
      have hk : n / 10 < k := by omega
      simp only [ofDigits, ih (n / 10) hk]
      omega

theorem digitsOf_map_digitChar (ds : List Nat) (h : ∀ d ∈ ds, d < 10) :
    digitsOf (ds.map digitChar) = some ds := by
  induction ds with
  | nil => rfl
  | cons d t ih =>
    have hd := digitVal?_digitChar d (h d (List.mem_cons_self _ _))
    have ht := ih (fun x hx => h x (List.mem_cons_of_mem _ hx))
    simp only [List.map_cons, digitsOf, hd, ht]

theorem parseNat_formatNat (n : Nat) : parseNat (formatNat n) = some n := by
  unfold parseNat formatNat
  have hne : ((natDigits (n + 1) n).reverse.map digitChar).isEmpty = false := by
    have := natDigits_ne_nil n n
    cases hl : natDigits (n + 1) n with
    | nil => exact absurd hl this
    | cons a t => simp
  have hds : digitsOf ((natDigits (n + 1) n).reverse.map digitChar) =
      some (natDigits (n + 1) n).reverse :=
    digitsOf_map_digitChar _ (fun d hd => natDigits_lt _ _ d (List.mem_reverse.mp hd))
  simp only [hne, hds, Bool.false_eq_true, if_false, Option.map_some', List.reverse_reverse,
    ofDigits_natDigits (n + 1) n (Nat.lt_succ_self n)]

/-- The first character of the representation of a natural number is a digit. -/
theorem formatNat_head (n : Nat) :
    ∃ c cs, formatNat n = c :: cs ∧ c ≠ '-' ∧ c ≠ '+' := by
  unfold formatNat
  have hne := natDigits_ne_nil n n
  have hlt := natDigits_lt (n + 1) n
  cases hl : (natDigits (n + 1) n).reverse with
  | nil =>
    have := List.reverse_eq_nil_iff.mp hl
    exact absurd this hne
  | cons d t =>
    have hd : d < 10 := hlt d (List.mem_reverse.mp (by rw [hl]; exact List.mem_cons_self _ _))
    exact ⟨digitChar d, t.map digitChar, rfl, digitChar_ne_sign d hd⟩

/-- The representation of a 64-bit integer is read back as that integer. -/
theorem ParseInt_FormatInt (v : Int) (hlo : -(2 : Int) ^ 63 ≤ v) (hhi : v < (2 : Int) ^ 63) :
    strconv.ParseInt (strconv.FormatInt v) = some v := by
  cases v with
  | ofNat n =>
    obtain ⟨c, cs, hf, h1, h2⟩ := formatNat_head n
    have hp := parseNat_formatNat n
    rw [hf] at hp
    have hn : n < 2 ^ 63 := by
      have : (n : Int) < (2 : Int) ^ 63 := hhi
      exact_mod_cast this
    unfold strconv.ParseInt strconv.FormatInt
    simp only [hf, h1, h2, if_false, hp, Option.some_bind]
    rw [if_pos hn]
    rfl
  | negSucc n =>
    have hp := parseNat_formatNat (n + 1)
    have hn : n + 1 ≤ 2 ^ 63 := by
      have h : -(2 : Int) ^ 63 ≤ -((n : Int) + 1) := by
        rw [Int.negSucc_eq] at hlo
        exact hlo
      have h2 : ((n : Int) + 1) ≤ (2 : Int) ^ 63 := by linarith
      exact_mod_cast h2
    unfold strconv.ParseInt strconv.FormatInt
    simp only [if_true, hp, Option.some_bind]
    rw [if_pos (by omega), Int.negSucc_eq]
    push_cast
    rfl

theorem parseNat_bound_some {cs : List Char} {f : Nat → Option Int} {v : Int}
    (h : (parseNat cs).bind f = some v) : ∃ n, parseNat cs = some n ∧ f n = some v := by
  cases hp : parseNat cs with
  | none => rw [hp] at h; cases h
  | some n => rw [hp] at h; exact ⟨n, rfl, h⟩

/-- What `strconv.ParseInt` reads is a 64-bit integer. -/
theorem ParseInt_range {s : String} {v : Int} (h : strconv.ParseInt s = some v) :
    -(2 : Int) ^ 63 ≤ v ∧ v < (2 : Int) ^ 63 := by
  unfold strconv.ParseInt at h
  split at h
  · cases h
  · split at h
    · obtain ⟨n, -, hn⟩ := parseNat_bound_some h
      split at hn
      · rename_i hle
        injection hn with hn
        subst hn
        have : (n : Int) ≤ (2 : Int) ^ 63 := by exact_mod_cast hle
        constructor <;> linarith [Int.ofNat_nonneg n]
      · cases hn
    · split at h
      · obtain ⟨n, -, hn⟩ := parseNat_bound_some h
        split at hn
        · rename_i hlt
          injection hn with hn
          subst hn
          have : (n : Int) < (2 : Int) ^ 63 := by exact_mod_cast hlt
          constructor <;> linarith [Int.ofNat_nonneg n]
        · cases hn
      · obtain ⟨n, -, hn⟩ := parseNat_bound_some h
        split at hn
        · rename_i hlt
          injection hn with hn
          subst hn
          have : (n : Int) < (2 : Int) ^ 63 := by exact_mod_cast hlt
          constructor <;> linarith [Int.ofNat_nonneg n]
        · cases hn

theorem string2ll_eq_some {s : String} {v : Int} (h : Redis.string2ll s = some v) :
    strconv.ParseInt s = some v ∧ strconv.FormatInt v = s := by
  unfold Redis.string2ll at h
  split at h
  · cases h
  · rename_i w hw
    split at h
    · rename_i hf
      injection h with h
      subst h
      exact ⟨hw, hf⟩
    · cases h

theorem string2ll_FormatInt (v : Int) (hlo : -(2 : Int) ^ 63 ≤ v) (hhi : v < (2 : Int) ^ 63) :
    Redis.string2ll (strconv.FormatInt v) = some v := by
  unfold Redis.string2ll
  rw [ParseInt_FormatInt v hlo hhi]
  simp

/-! ## Lemmas on click accounting -/

theorem lookup_put (cache : List (String × CacheEntry)) (key k : String) (e : CacheEntry) :
    ((key, e) :: cache.filter (fun x => x.1 != key)).lookup k =
      if k = key then some e else cache.lookup k := by
  by_cases hk : k = key
  · subst hk
    simp [List.lookup]
  · have hb : (k == key) = false := by simpa using hk
    rw [if_neg hk]
    simp only [List.lookup, hb]
    exact lookup_filter_of_ne (fun x hx => by
      have : x.1 ≠ key := fun h => hk (hx.symm.trans h)
      simpa using this)

theorem Redis.Expire_lookup (cache : List (String × CacheEntry)) (key k : String) (ttl : Nat) :
    (Redis.Expire cache key ttl).lookup k =
      if k = key then (cache.lookup key).map (fun e => ⟨e.value, some ttl⟩)
      else cache.lookup k := by
  unfold Redis.Expire
  cases hl : cache.lookup key with
  | none =>
    by_cases hk : k = key
    · subst hk; simp [hl]
    · simp [hk]
  | some e =>
    rw [lookup_put]
    by_cases hk : k = key
    · simp [hk]
    · simp [hk]

theorem Redis.Incr_lookup {cache cache1 : List (String × CacheEntry)} {key : String}
    (h : Redis.Incr cache key = some cache1) (k : String) (hk : k ≠ key) :
    cache1.lookup k = cache.lookup k := by
  unfold Redis.Incr at h
  split at h
  · injection h with h
    subst h
    rw [lookup_put, if_neg hk]
  · split at h
    · cases h
    · split at h
      · cases h
      · injection h with h
        subst h
        rw [lookup_put, if_neg hk]

/-- What a successful `INCR` leaves under its key: the representation of the old count plus
one, a missing key counting as 0. -/
theorem Redis.Incr_value {cache : List (String × CacheEntry)} {key : String} {old : Int}
    (hold : (cache.lookup key = none ∧ old = 0) ∨
      ∃ e, cache.lookup key = some e ∧ Redis.string2ll e.value = some old)
    (hrange : old + 1 ≤ 2 ^ 63 - 1) :
    ∃ cache1 e1, Redis.Incr cache key = some cache1 ∧ cache1.lookup key = some e1 ∧
      e1.value = strconv.FormatInt (old + 1) := by
  unfold Redis.Incr
  rcases hold with ⟨hnone, rfl⟩ | ⟨e, he, hv⟩
  · simp only [hnone]
    refine ⟨_, ⟨"1", none⟩, rfl, ?_, by decide⟩
    rw [lookup_put, if_pos rfl]
  · have hnot : ¬ (old + 1 > 2 ^ 63 - 1) := by omega
    simp only [he, hv, hnot, if_false]
    refine ⟨_, ⟨strconv.FormatInt (old + 1), e.ttl⟩, rfl, ?_, rfl⟩
    rw [lookup_put, if_pos rfl]

theorem getCacheKey_ne_getClicksKey (a b : String) : getCacheKey a ≠ getClicksKey b := by
  intro h
  have := congrArg String.data h
  simp [getCacheKey, getClicksKey, String.data_append] at this

/-- Click accounting does not touch the mapping keys of the cache. -/
theorem incrementClickCount_cache_frame (st : State) (o : IncrOracle) (code k : String)
    (hk : k ≠ getClicksKey code) :
    (incrementClickCount st o code).cache.lookup k = st.cache.lookup k := by
  unfold incrementClickCount
  simp only [State.call]
  split
  · rfl
  · split
    · simp only [Redis.Expire_lookup, if_neg hk]
    · rename_i cache1 hinc
      have h1 : (Redis.Expire cache1 (getClicksKey code) 2592000).lookup k = st.cache.lookup k := by
        rw [Redis.Expire_lookup, if_neg hk]
        exact Redis.Incr_lookup hinc k hk
      split <;> exact h1

/-- The update of the click counters keeps order, codes and destinations of the rows. -/
theorem DB.First_UpdateClicks {db db' : List URL} {code : String}
    (h : DB.UpdateClicks db code = some db') (k : String) :
    DB.First db' k = (DB.First db k).map
      (fun r => if r.ShortURL == code then { r with Clicks := r.Clicks + 1 } else r) := by
  unfold DB.UpdateClicks at h
  split at h
  · cases h
  · injection h with h
    subst h
    unfold DB.First
    rw [List.find?_map]
    have hfun : ((fun r : URL => r.ShortURL == k) ∘
        (fun r : URL => if r.ShortURL == code then { r with Clicks := r.Clicks + 1 } else r)) =
        (fun r : URL => r.ShortURL == k) := by
      funext r
      simp only [Function.comp]
      split <;> rfl
    rw [hfun]

/-- Click accounting changes the `clicks` column only. -/
theorem incrementClickCount_First (st : State) (o : IncrOracle) (code k : String) :
    (DB.First (incrementClickCount st o code).db k).map URL.LongURL =
      (DB.First st.db k).map URL.LongURL := by
  unfold incrementClickCount
  simp only [State.call]
  split
  · rfl
  · split
    · rfl
    · split
      · rfl
      · rename_i db' hdb
        split at hdb
        · cases hdb
        · simp only
          rw [DB.First_UpdateClicks hdb k]
          cases DB.First st.db k with
          | none => rfl
          | some r =>
            simp only [Option.map_some']
            split <;> rfl

/-- The answer of `GetLongURL` is a function of the mapping of its code in the cache and of
the destination of the first row with the code. -/
theorem GetLongURL_result_congr {st st' : State} (g : GetOracle) (c : String)
    (hcache : Redis.Get st'.cache (getCacheKey (strings.TrimPrefix c "urls/")) =
      Redis.Get st.cache (getCacheKey (strings.TrimPrefix c "urls/")))
    (hdb : (DB.First st'.db (strings.TrimPrefix c "urls/")).map URL.LongURL =
      (DB.First st.db (strings.TrimPrefix c "urls/")).map URL.LongURL) :
    (GetLongURL st' g c).1 = (GetLongURL st g c).1 := by
  unfold GetLongURL
  simp only [hcache]
  split
  · rfl
  · split
    · rfl
    · cases h1 : DB.First st.db (strings.TrimPrefix c "urls/") with
      | none =>
        rw [h1] at hdb
        cases h2 : DB.First st'.db (strings.TrimPrefix c "urls/") with
        | none => rfl
        | some r => rw [h2] at hdb; cases hdb
      | some r =>
        rw [h1] at hdb
        cases h2 : DB.First st'.db (strings.TrimPrefix c "urls/") with
        | none => rw [h2] at hdb; cases hdb
        | some r' =>
          rw [h2] at hdb
          simp only [Option.map_some', Option.some.injEq] at hdb
          simp only [hdb]

/-- A click-accounting run, whatever its outcome, does not change what `GetLongURL` returns. -/
theorem GetLongURL_after_increment (st : State) (o : IncrOracle) (g : GetOracle)
    (code c : String) :
    (GetLongURL (incrementClickCount st o code) g c).1 = (GetLongURL st g c).1 := by
  apply GetLongURL_result_congr
  · unfold Redis.Get
    rw [incrementClickCount_cache_frame st o code _ (getCacheKey_ne_getClicksKey _ _)]
  · exact incrementClickCount_First st o code _

/-- The calls `GetLongURL` issues are the lookup in the cache, the query and the update of
the mapping: the click accounting it starts is still pending when it returns. -/
theorem GetLongURL_log (st : State) (g : GetOracle) (c : String) :
    ∃ l, (GetLongURL st g c).2.log = st.log ++ l ∧
      ∀ call ∈ l, (∃ k, call = Call.redisGet k) ∨ (∃ k, call = Call.dbFirst k) ∨
        ∃ k v t, call = Call.redisSet k v t := by
  unfold GetLongURL
  simp only [State.call]
  split
  · exact ⟨[Call.redisGet (getCacheKey (strings.TrimPrefix c "urls/"))], rfl, by simp⟩
  · split
    · exact ⟨[Call.redisGet (getCacheKey (strings.TrimPrefix c "urls/")),
        Call.dbFirst (strings.TrimPrefix c "urls/")], by simp, by simp⟩
    · split
      · exact ⟨[Call.redisGet (getCacheKey (strings.TrimPrefix c "urls/")),
          Call.dbFirst (strings.TrimPrefix c "urls/")], by simp, by simp⟩
      · rename_i url _
        refine ⟨[Call.redisGet (getCacheKey (strings.TrimPrefix c "urls/")),
          Call.dbFirst (strings.TrimPrefix c "urls/"),
          Call.redisSet (getCacheKey (strings.TrimPrefix c "urls/")) url.LongURL 86400],
          ?_, by simp⟩
        split <;> simp

/-- The cache after a click-accounting run whose pipeline reached the cache and whose `INCR`
succeeded. -/
theorem incrementClickCount_cache_of_incr {st : State} {o : IncrOracle} {code : String}
    {cache1 : List (String × CacheEntry)} (hpipe : o.pipeErr = false)
    (hinc : Redis.Incr st.cache (getClicksKey code) = some cache1) :
    (incrementClickCount st o code).cache = Redis.Expire cache1 (getClicksKey code) 2592000 ∧
      (incrementClickCount st o code).log = st.log ++
        [Call.redisIncr (getClicksKey code), Call.redisExpire (getClicksKey code) 2592000,
          Call.dbUpdateClicks code] ∧
      (incrementClickCount st o code).db =
        ((if o.updateErr = true then none else DB.UpdateClicks st.db code).getD st.db) := by
  unfold incrementClickCount
  simp only [State.call, hpipe, hinc, Bool.false_eq_true, if_false, List.append_assoc,
    List.cons_append, List.nil_append]
  split
  · rename_i h
    rw [h]
    exact ⟨rfl, rfl, rfl⟩
  · rename_i db' h
    rw [h]
    exact ⟨rfl, rfl, rfl⟩

/-- A click-accounting run whose cache step failed stops there. -/
theorem incrementClickCount_of_cache_failure {st : State} {o : IncrOracle} {code : String}
    (h : ¬ (o.pipeErr = false ∧ (Redis.Incr st.cache (getClicksKey code)).isSome = true)) :
    (incrementClickCount st o code).log = st.log ++
        [Call.redisIncr (getClicksKey code), Call.redisExpire (getClicksKey code) 2592000] ∧
      (incrementClickCount st o code).db = st.db := by
  unfold incrementClickCount
  simp only [State.call, List.append_assoc, List.cons_append, List.nil_append]
  cases hp : o.pipeErr with
  | true => exact ⟨rfl, rfl⟩
  | false =>
    cases hi : Redis.Incr st.cache (getClicksKey code) with
    | none => exact ⟨rfl, rfl⟩
    | some c1 => exact absurd ⟨hp, by rw [hi]; rfl⟩ h

theorem DB.UpdateClicks_of_range {db : List URL} {code : String}
    (h : ∀ r ∈ db, r.ShortURL = code → r.Clicks + 1 ≤ 2 ^ 63 - 1) :
    DB.UpdateClicks db code =
      some (db.map (fun r => if r.ShortURL == code then { r with Clicks := r.Clicks + 1 }
        else r)) := by
  unfold DB.UpdateClicks
  rw [if_neg]
  simp only [List.any_eq_true, Bool.and_eq_true, beq_iff_eq, decide_eq_true_eq, not_exists,
    not_and]
  intro r hr hc
  have := h r hr hc
  omega

theorem DB.FirstByID_of_unique {db : List URL} {r : URL} (hu : UniqueIDs db) (hr : r ∈ db) :
    DB.FirstByID db r.ID = some r := by
  unfold DB.FirstByID
  induction db with
  | nil => cases hr
  | cons a t ih =>
    unfold UniqueIDs at hu
    rw [List.map_cons, List.nodup_cons] at hu
    rcases List.mem_cons.mp hr with rfl | ht
    · simp
    · have hne : a.ID ≠ r.ID := fun h => hu.1 (h ▸ List.mem_map_of_mem URL.ID ht)
      rw [List.find?_cons_of_neg]
      · exact ih hu.2 ht
      · simpa using hne

theorem DB.FirstByID_eq_none {db : List URL} {urlID : Nat} (h : ∀ r ∈ db, r.ID ≠ urlID) :
    DB.FirstByID db urlID = none := by
  unfold DB.FirstByID
  rw [List.find?_eq_none]
  intro r hr
  simpa using h r hr

/-! ## Lemmas on persisted codes and on `UpdateURL` -/

/-- A code `generateShortCode` returns has six characters of the class. -/
theorem generateShortCode_shape {entropy : Option (List Nat)} {code : String}
    (h : generateShortCode entropy = .ok code) :
    code.data.length = 6 ∧ ∀ x ∈ code.data, isCodeChar x = true := by
  unfold generateShortCode at h
  cases entropy with
  | none => cases h
  | some bs =>
    injection h with h
    subst h
    obtain ⟨-, h6, hall⟩ := EncodeToString_eight (fillBytes 8 bs) (fillBytes_length 8 bs)
    exact ⟨h6, hall⟩

/-- The fold of a code of the charset is of the charset. -/
theorem ToLower_codeChars {c : String} (h : shortCodePattern.MatchString c = true) :
    ∀ x ∈ (strings.ToLower c).data, isCodeChar x = true := by
  unfold shortCodePattern.MatchString at h
  simp only [Bool.and_eq_true, List.all_eq_true] at h
  intro x hx
  rw [ToLower_of_codeChars h.2] at hx
  simp only [List.mem_map] at hx
  obtain ⟨y, hy, rfl⟩ := hx
  exact Char.toLower_codeChar y (h.2 y hy)

/-- Columns that `Save` does not write keep their values: for every column `f` on which the
saved row agrees with the row it was read from, the column is unchanged in a table with
unique ids. -/
theorem DB.Save_map {β : Type} (f : URL → β) {db : List URL} {found url : URL}
    (hu : UniqueIDs db) (hf : found ∈ db) (hid : url.ID = found.ID) (hcol : f url = f found) :
    (DB.Save db url).map f = db.map f := by
  unfold DB.Save
  rw [List.map_map]
  apply List.map_congr_left
  intro r hr
  simp only [Function.comp]
  split
  · rename_i heq
    have hrid : r.ID = found.ID := by
      have : r.ID = url.ID := by simpa using heq
      rw [this, hid]
    have : r = found := List.inj_on_of_nodup_map hu hr hf hrid
    rw [hcol, this]
  · rfl

theorem DB.Save_mem {db : List URL} {found url : URL} (hf : found ∈ db)
    (hid : url.ID = found.ID) : url ∈ DB.Save db url := by
  unfold DB.Save
  rw [List.mem_map]
  exact ⟨found, hf, by simp [hid]⟩

/-- Outcome of an `UpdateURL` that returns a link. -/
theorem UpdateURL_ok {urlPrefix : String} {st st' : State} {o : UpdateOracle}
    {userID urlID : Nat} {longURL : String} {url : URL}
    (h : UpdateURL urlPrefix st o userID urlID longURL = (.ok url, st')) :
    ∃ found, DB.FirstByIDUser st.db urlID userID = some found ∧
      st'.db = DB.Save st.db { found with LongURL := longURL, UpdatedAt := o.updatedAt } ∧
      st'.cache = Redis.Set st.cache (getCacheKey found.ShortURL) longURL 86400 ∧
      url = { found with LongURL := longURL, UpdatedAt := o.updatedAt,
                         ShortURL := urlPrefix ++ "urls/" ++ found.ShortURL } ∧
      st'.pending = st.pending := by
  unfold UpdateURL at h
  simp only [State.call] at h
  split at h
  · cases h
  · split at h
    · cases h
    · split at h
      · cases h
      · rename_i found hfound
        split at h
        · cases h
        · split at h
          · cases h
          · split at h
            · cases h
            · simp only [Prod.mk.injEq, Except.ok.injEq] at h
              obtain ⟨rfl, rfl⟩ := h
              exact ⟨found, hfound, rfl, rfl, rfl, rfl⟩

/-! ## Lemmas on cache keys -/

theorem String.append_left_cancel {p a b : String} (h : p ++ a = p ++ b) : a = b := by
  have hd := congrArg String.data h
  simp only [String.data_append] at hd
  exact String.ext (List.append_cancel_left hd)

theorem hexDigit_inj (a b : Nat) (h : hexDigit a = hexDigit b) : a % 16 = b % 16 := by
  have key : ∀ i < 16, ∀ j < 16,
      "0123456789abcdef".data.getD i '0' = "0123456789abcdef".data.getD j '0' → i = j := by
    decide
  exact key (a % 16) (Nat.mod_lt _ (by norm_num)) (b % 16) (Nat.mod_lt _ (by norm_num)) h

theorem hexFixed_length (w n : Nat) : (hexFixed w n).length = w := by
  induction w generalizing n with
  | zero => rfl
  | succ k ih => simp [hexFixed, ih]

theorem hexFixed_inj (w : Nat) : ∀ a b : Nat, hexFixed w a = hexFixed w b →
    a % 16 ^ w = b % 16 ^ w := by
  induction w with
  | zero => intro a b _; simp [Nat.mod_one]
  | succ k ih =>
    intro a b h
    unfold hexFixed at h
    have hlen : (hexFixed k (a / 16)).length = (hexFixed k (b / 16)).length := by
      rw [hexFixed_length, hexFixed_length]
    obtain ⟨h1, h2⟩ := List.append_inj h hlen
    have hd := hexDigit_inj a b (by simpa using h2)
    have hr := ih _ _ h1
    rw [pow_succ', Nat.mod_mul, Nat.mod_mul, hd, hr]

theorem uuid.String_inj (u v : Nat) (h : uuid.String u = uuid.String v) :
    u % 2 ^ 128 = v % 2 ^ 128 := by
  have hd := congrArg String.data h
  simp only [uuid.String, List.append_assoc, List.singleton_append] at hd
  obtain ⟨h1, hd⟩ := List.append_inj hd (by rw [hexFixed_length, hexFixed_length])
  injection hd with _ hd
  obtain ⟨h2, hd⟩ := List.append_inj hd (by rw [hexFixed_length, hexFixed_length])
  injection hd with _ hd
  obtain ⟨h3, hd⟩ := List.append_inj hd (by rw [hexFixed_length, hexFixed_length])
  injection hd with _ hd
  obtain ⟨h4, hd⟩ := List.append_inj hd (by rw [hexFixed_length, hexFixed_length])
  injection hd with _ h5
  have e1 := hexFixed_inj _ _ _ h1
  have e2 := hexFixed_inj _ _ _ h2
  have e3 := hexFixed_inj _ _ _ h3
  have e4 := hexFixed_inj _ _ _ h4
  have e5 := hexFixed_inj _ _ _ h5
  norm_num at e1 e2 e3 e4 e5 ⊢
  omega

/-- Two lists that agree up to and including their first colon have the same part before
it. -/
theorem colon_split {l1 l2 r1 r2 : List Char} (h1 : ':' ∉ l1) (h2 : ':' ∉ l2)
    (h : l1 ++ ':' :: r1 = l2 ++ ':' :: r2) : l1 = l2 := by
  induction l1 generalizing l2 with
  | nil =>
    cases l2 with
    | nil => rfl
    | cons b t =>
      simp only [List.nil_append, List.cons_append, List.cons.injEq] at h
      exact absurd (h.1 ▸ List.mem_cons_self _ _) h2
  | cons a t ih =>
    cases l2 with
    | nil =>
      simp only [List.nil_append, List.cons_append, List.cons.injEq] at h
      exact absurd (h.1 ▸ List.mem_cons_self _ _) h1
    | cons b t2 =>
      simp only [List.cons_append, List.cons.injEq] at h
      rw [h.1, ih (fun hm => h1 (List.mem_cons_of_mem _ hm))
        (fun hm => h2 (List.mem_cons_of_mem _ hm)) h.2]

theorem prefixKey_data (p k : String) :
    (RedisCache.prefixKey p k).data = (p ++ ":").data ++ k.data := by
  simp [RedisCache.prefixKey, String.data_append]

/-- Two prefixes give a common backing key exactly when one of them, with its colon, begins
the other with its colon. -/
theorem prefixKey_disjoint_iff (p1 p2 : String) :
    (∀ k1 k2, RedisCache.prefixKey p1 k1 ≠ RedisCache.prefixKey p2 k2) ↔
      (¬ (p1 ++ ":").data <+: (p2 ++ ":").data ∧ ¬ (p2 ++ ":").data <+: (p1 ++ ":").data) := by
  constructor
  · intro h
    constructor
    · rintro ⟨t, ht⟩
      apply h ⟨t⟩ ""
      apply String.ext
      rw [prefixKey_data, prefixKey_data, ht]
      simp
    · rintro ⟨t, ht⟩
      apply h "" ⟨t⟩
      apply String.ext
      rw [prefixKey_data, prefixKey_data, ht]
      simp
  · rintro ⟨h1, h2⟩ k1 k2 heq
    have hd := congrArg String.data heq
    rw [prefixKey_data, prefixKey_data] at hd
    have hp1 : (p1 ++ ":").data <+: (p2 ++ ":").data ++ k2.data := ⟨k1.data, hd⟩
    have hp2 : (p2 ++ ":").data <+: (p2 ++ ":").data ++ k2.data := ⟨k2.data, rfl⟩
    rcases List.prefix_or_prefix_of_prefix hp1 hp2 with h | h
    · exact h1 h
    · exact h2 h

/-! ## Lemmas on passwords -/

theorem encodeStdChar_ne_dollar (i : Nat) : encodeStdChar i ≠ '$' := by
  have h : ∀ j < 64, encodeStd.data.getD j 'A' ≠ '$' := by decide
  exact h (i % 64) (Nat.mod_lt _ (by norm_num))

theorem RawStd_no_dollar (bs : List Nat) :
    '$' ∉ base64.RawStdEncoding.EncodeToString bs := by
  induction bs using base64.RawStdEncoding.EncodeToString.induct with
  | case1 => simp [base64.RawStdEncoding.EncodeToString]
  | case2 b0 =>
    simp only [base64.RawStdEncoding.EncodeToString, List.mem_cons, List.mem_singleton,
      List.mem_nil_iff, or_false, not_or]
    exact ⟨(encodeStdChar_ne_dollar _).symm, (encodeStdChar_ne_dollar _).symm⟩
  | case3 b0 b1 =>
    simp only [base64.RawStdEncoding.EncodeToString, List.mem_cons, List.mem_singleton,
      List.mem_nil_iff, or_false, not_or]
    exact ⟨(encodeStdChar_ne_dollar _).symm, (encodeStdChar_ne_dollar _).symm,
      (encodeStdChar_ne_dollar _).symm⟩
  | case4 b0 b1 b2 rest ih =>
    simp only [base64.RawStdEncoding.EncodeToString, List.mem_cons, not_or]
    exact ⟨(encodeStdChar_ne_dollar _).symm, (encodeStdChar_ne_dollar _).symm,
      (encodeStdChar_ne_dollar _).symm, (encodeStdChar_ne_dollar _).symm, ih⟩

theorem encodeStdChar_inj (i j : Nat) (h : encodeStdChar i = encodeStdChar j) :
    i % 64 = j % 64 := by
  have key : ∀ k < 64, encodeStd.data.indexOf (encodeStd.data.getD k 'A') = k := by decide
  have hi := key (i % 64) (Nat.mod_lt _ (by norm_num))
  have hj := key (j % 64) (Nat.mod_lt _ (by norm_num))
  unfold encodeStdChar at h
  rw [h] at hi
  rw [← hi, hj]

theorem fillBytes_lt (n : Nat) (bs : List Nat) : ∀ b ∈ fillBytes n bs, b < 256 := by
  induction n generalizing bs with
  | zero => intro b hb; simp [fillBytes] at hb
  | succ k ih =>
    intro b hb
    cases bs with
    | nil =>
      simp only [fillBytes, List.mem_cons] at hb
      rcases hb with rfl | hb
      · norm_num
      · exact ih _ b hb
    | cons a t =>
      simp only [fillBytes, List.mem_cons] at hb
      rcases hb with rfl | hb
      · exact Nat.mod_lt _ (by norm_num)
      · exact ih _ b hb

theorem sextet_first {b c : Nat} (hb : b < 256) (hc : c < 256)
    (e : b % 256 / 4 % 64 = c % 256 / 4 % 64) : b / 4 = c / 4 := by
  omega

theorem sextet_second {b0 c0 b1 c1 : Nat} (hb : b1 < 256) (hc : c1 < 256)
    (e : (b0 % 4 * 16 + b1 % 256 / 16) % 64 = (c0 % 4 * 16 + c1 % 256 / 16) % 64) :
    b0 % 4 = c0 % 4 ∧ b1 / 16 = c1 / 16 := by
  omega

theorem sextet_third {b1 c1 b2 c2 : Nat} (hb : b2 < 256) (hc : c2 < 256)
    (e : (b1 % 16 * 4 + b2 % 256 / 64) % 64 = (c1 % 16 * 4 + c2 % 256 / 64) % 64) :
    b1 % 16 = c1 % 16 ∧ b2 / 64 = c2 / 64 := by
  omega

theorem sextet_low2 {b0 c0 : Nat} (e : b0 % 4 * 16 % 64 = c0 % 4 * 16 % 64) :
    b0 % 4 = c0 % 4 := by
  omega

theorem sextet_low4 {b1 c1 : Nat} (e : b1 % 16 * 4 % 64 = c1 % 16 * 4 % 64) :
    b1 % 16 = c1 % 16 := by
  omega

theorem byte_of_parts4 {b c : Nat} (h1 : b / 4 = c / 4) (h2 : b % 4 = c % 4) : b = c := by
  omega

theorem byte_of_parts16 {b c : Nat} (h1 : b / 16 = c / 16) (h2 : b % 16 = c % 16) : b = c := by
  omega

theorem byte_of_parts64 {b c : Nat} (h1 : b / 64 = c / 64) (h2 : b % 64 = c % 64) : b = c := by
  omega

/-- The unpadded encoding is injective on byte slices of one length. -/
theorem RawStd_inj : ∀ l1 l2 : List Nat, (∀ b ∈ l1, b < 256) → (∀ b ∈ l2, b < 256) →
    l1.length = l2.length →
    base64.RawStdEncoding.EncodeToString l1 = base64.RawStdEncoding.EncodeToString l2 →
    l1 = l2 := by
  intro l1
  induction l1 using base64.RawStdEncoding.EncodeToString.induct with
  | case1 =>
    intro l2 _ _ hlen _
    cases l2 with
    | nil => rfl
    | cons a t => simp at hlen
  | case2 b0 =>
    intro l2 h1 h2 hlen h
    rcases l2 with _ | ⟨c0, _ | ⟨c1, t⟩⟩ <;> simp at hlen
    simp only [base64.RawStdEncoding.EncodeToString, List.cons.injEq, and_true] at h
    have hb := h1 b0 (by simp)
    have hc := h2 c0 (by simp)
    have x0 : b0 = c0 :=
      byte_of_parts4 (sextet_first hb hc (encodeStdChar_inj _ _ h.1))
        (sextet_low2 (encodeStdChar_inj _ _ h.2))
    rw [x0]
  | case3 b0 b1 =>
    intro l2 h1 h2 hlen h
    rcases l2 with _ | ⟨c0, _ | ⟨c1, _ | ⟨c2, t⟩⟩⟩ <;> simp at hlen
    simp only [base64.RawStdEncoding.EncodeToString, List.cons.injEq, and_true] at h
    have hb0 := h1 b0 (by simp)
    have hb1 := h1 b1 (by simp)
    have hc0 := h2 c0 (by simp)
    have hc1 := h2 c1 (by simp)
    have s2 := sextet_second hb1 hc1 (encodeStdChar_inj _ _ h.2.1)
    have x0 : b0 = c0 :=
      byte_of_parts4 (sextet_first hb0 hc0 (encodeStdChar_inj _ _ h.1)) s2.1
    have x1 : b1 = c1 :=
      byte_of_parts16 s2.2 (sextet_low4 (encodeStdChar_inj _ _ h.2.2))
    rw [x0, x1]
  | case4 b0 b1 b2 rest ih =>
    intro l2 h1 h2 hlen h
    rcases l2 with _ | ⟨c0, _ | ⟨c1, _ | ⟨c2, t⟩⟩⟩ <;> simp at hlen
    simp only [base64.RawStdEncoding.EncodeToString, List.cons.injEq] at h
    have hb0 := h1 b0 (by simp)
    have hb1 := h1 b1 (by simp)
    have hb2 := h1 b2 (by simp)
    have hc0 := h2 c0 (by simp)
    have hc1 := h2 c1 (by simp)
    have hc2 := h2 c2 (by simp)
    have s2 := sextet_second hb1 hc1 (encodeStdChar_inj _ _ h.2.1)
    have s3 := sextet_third hb2 hc2 (encodeStdChar_inj _ _ h.2.2.1)
    have x0 : b0 = c0 :=
      byte_of_parts4 (sextet_first hb0 hc0 (encodeStdChar_inj _ _ h.1)) s2.1
    have x1 : b1 = c1 := byte_of_parts16 s2.2 s3.1
    have e3 : b2 % 64 = c2 % 64 := by
      have := encodeStdChar_inj _ _ h.2.2.2.1
      omega
    have x2 : b2 = c2 := byte_of_parts64 s3.2 e3
    have xr : rest = t :=
      ih t (fun b hb => h1 b (by simp [hb])) (fun b hb => h2 b (by simp [hb])) hlen h.2.2.2.2
    rw [x0, x1, x2, xr]

theorem split.loop_no_delim (delim : Char) : ∀ (l : List Char) (current : String)
    (result : List String), delim ∉ l →
    split.loop delim l current result = result ++ [current ++ ⟨l⟩] := by
  intro l
  induction l with
  | nil =>
    intro current result _
    have : current ++ (⟨[]⟩ : String) = current := String.ext (by simp [String.data_append])
    simp [split.loop, this]
  | cons ch rest ih =>
    intro current result h
    have hne : ch ≠ delim := fun he => h (he ▸ List.mem_cons_self _ _)
    have hrest : delim ∉ rest := fun hm => h (List.mem_cons_of_mem _ hm)
    have heq : current ++ String.singleton ch ++ (⟨rest⟩ : String) = current ++ ⟨ch :: rest⟩ :=
      String.ext (by simp [String.data_append, String.singleton])
    simp only [split.loop, hne, if_false, ih _ _ hrest, heq]

theorem split.loop_delim (delim : Char) : ∀ (l r : List Char) (current : String)
    (result : List String), delim ∉ l →
    split.loop delim (l ++ delim :: r) current result =
      split.loop delim r "" (result ++ [current ++ ⟨l⟩]) := by
  intro l
  induction l with
  | nil =>
    intro r current result _
    have : current ++ (⟨[]⟩ : String) = current := String.ext (by simp [String.data_append])
    simp [split.loop, this]
  | cons ch rest ih =>
    intro r current result h
    have hne : ch ≠ delim := fun he => h (he ▸ List.mem_cons_self _ _)
    have hrest : delim ∉ rest := fun hm => h (List.mem_cons_of_mem _ hm)
    have heq : current ++ String.singleton ch ++ (⟨rest⟩ : String) = current ++ ⟨ch :: rest⟩ :=
      String.ext (by simp [String.data_append, String.singleton])
    rw [List.cons_append, split.loop, if_neg hne, ih _ _ _ hrest, heq]

/-- Two parts without `$`, joined by `$`, are what `splitPassword` gives back. -/
theorem splitPassword_join (salt hash : String) (hs : '$' ∉ salt.data) (hh : '$' ∉ hash.data) :
    splitPassword (salt ++ "$" ++ hash) = [salt, hash] := by
  unfold splitPassword split
  have hd : (salt ++ "$" ++ hash).data = salt.data ++ '$' :: hash.data := by
    simp [String.data_append]
  rw [hd, split.loop_delim '$' _ _ _ _ hs, split.loop_no_delim '$' _ _ _ hh]
  have e1 : ("" : String) ++ (⟨salt.data⟩ : String) = salt := String.ext (by simp [String.data_append])
  have e2 : ("" : String) ++ (⟨hash.data⟩ : String) = hash := String.ext (by simp [String.data_append])
  simp [e1, e2]

/-! ## Effects of the calls on store and cache -/

/-- What the transaction of `CreateShortURL` does to store and cache. -/
theorem CreateShortURL.persist_effect (urlPrefix : String) (st : State) (o : CreateOracle)
    (userID : Nat) (longURL shortCode : String) :
    ((CreateShortURL.persist urlPrefix st o userID longURL shortCode).2.db = st.db ∧
        (CreateShortURL.persist urlPrefix st o userID longURL shortCode).2.cache = st.cache) ∨
      ((∀ r ∈ st.db, r.ID ≠ o.id ∧ r.ShortURL ≠ shortCode) ∧
        (CreateShortURL.persist urlPrefix st o userID longURL shortCode).2.cache =
          Redis.Set st.cache (getCacheKey shortCode) longURL 86400 ∧
        ((o.commitErr = false ∧
            (CreateShortURL.persist urlPrefix st o userID longURL shortCode).2.db =
              st.db ++ [CreateShortURL.newURL o userID longURL shortCode]) ∨
          (o.commitErr = true ∧
            (CreateShortURL.persist urlPrefix st o userID longURL shortCode).2.db = st.db))) := by
  unfold CreateShortURL.persist
  simp only [State.call]
  split
  · exact Or.inl ⟨rfl, rfl⟩
  · split
    · exact Or.inl ⟨rfl, rfl⟩
    · rename_i db' hdb
      split at hdb
      · cases hdb
      · obtain ⟨rfl, hfresh⟩ := DB.Create_eq_some hdb
        split
        · exact Or.inl ⟨rfl, rfl⟩
        · cases hc : o.commitErr with
          | true => exact Or.inr ⟨hfresh, rfl, Or.inr ⟨rfl, rfl⟩⟩
          | false => exact Or.inr ⟨hfresh, rfl, Or.inl ⟨rfl, rfl⟩⟩

/-- What `CreateShortURL` does to store and cache. -/
theorem CreateShortURL_effect (urlPrefix : String) (st : State) (o : CreateOracle)
    (userID : Nat) (longURL c : String) :
    ((CreateShortURL urlPrefix st o userID longURL c).2.db = st.db ∧
        (CreateShortURL urlPrefix st o userID longURL c).2.cache = st.cache) ∨
      ∃ code, (∀ r ∈ st.db, r.ID ≠ o.id ∧ r.ShortURL ≠ code) ∧
        (CreateShortURL urlPrefix st o userID longURL c).2.cache =
          Redis.Set st.cache (getCacheKey code) longURL 86400 ∧
        ((o.commitErr = false ∧
            (CreateShortURL urlPrefix st o userID longURL c).2.db =
              st.db ++ [CreateShortURL.newURL o userID longURL code]) ∨
          (o.commitErr = true ∧
            (CreateShortURL urlPrefix st o userID longURL c).2.db = st.db)) := by
  have hf := CreateShortURL.resolveCode_frame st o c
  unfold CreateShortURL
  rcases hr : CreateShortURL.resolveCode st o c with ⟨r, st1⟩
  rw [hr] at hf
  simp only at hf
  cases r with
  | error e => exact Or.inl ⟨hf.1, hf.2.1⟩
  | ok code =>
    simp only
    rcases CreateShortURL.persist_effect urlPrefix st1 o userID longURL code with
      ⟨h1, h2⟩ | ⟨hfresh, hcache, hdb⟩
    · exact Or.inl ⟨h1.trans hf.1, h2.trans hf.2.1⟩
    · refine Or.inr ⟨code, by rw [← hf.1]; exact hfresh, by rw [hcache, hf.2.1], ?_⟩
      rcases hdb with ⟨hc, hdb⟩ | ⟨hc, hdb⟩
      · exact Or.inl ⟨hc, by rw [hdb, hf.1]⟩
      · exact Or.inr ⟨hc, by rw [hdb, hf.1]⟩

/-- What `UpdateURL` does to store and cache. -/
theorem UpdateURL_effect (urlPrefix : String) (st : State) (o : UpdateOracle)
    (userID urlID : Nat) (longURL : String) :
    ((UpdateURL urlPrefix st o userID urlID longURL).2.db = st.db ∧
        (UpdateURL urlPrefix st o userID urlID longURL).2.cache = st.cache) ∨
      ∃ found, DB.FirstByIDUser st.db urlID userID = some found ∧
        (UpdateURL urlPrefix st o userID urlID longURL).2.cache =
          Redis.Set st.cache (getCacheKey found.ShortURL) longURL 86400 ∧
        ((o.commitErr = false ∧
            (UpdateURL urlPrefix st o userID urlID longURL).2.db =
              DB.Save st.db { found with LongURL := longURL, UpdatedAt := o.updatedAt }) ∨
          (o.commitErr = true ∧
            (UpdateURL urlPrefix st o userID urlID longURL).2.db = st.db)) := by
  unfold UpdateURL
  simp only [State.call]
  split
  · exact Or.inl ⟨rfl, rfl⟩
  · split
    · exact Or.inl ⟨rfl, rfl⟩
    · split
      · exact Or.inl ⟨rfl, rfl⟩
      · rename_i found hfound
        split
        · exact Or.inl ⟨rfl, rfl⟩
        · split
          · exact Or.inl ⟨rfl, rfl⟩
          · cases hc : o.commitErr with
            | true => exact Or.inr ⟨found, hfound, rfl, Or.inr ⟨rfl, rfl⟩⟩
            | false => exact Or.inr ⟨found, hfound, rfl, Or.inl ⟨rfl, rfl⟩⟩

/-- What `DeleteURL` does to store and cache. -/
theorem DeleteURL_effect (st : State) (o : DeleteOracle) (userID urlID : Nat) :
    ((DeleteURL st o userID urlID).2.db = st.db ∧
        (DeleteURL st o userID urlID).2.cache = st.cache) ∨
      ∃ url, DB.FirstByIDUser st.db urlID userID = some url ∧
        (DeleteURL st o userID urlID).2.cache =
          Redis.Del st.cache [getCacheKey url.ShortURL, getClicksKey url.ShortURL] ∧
        ((o.commitErr = false ∧ (DeleteURL st o userID urlID).2.db = DB.Delete st.db url) ∨
          (o.commitErr = true ∧ (DeleteURL st o userID urlID).2.db = st.db)) := by
  unfold DeleteURL
  simp only [State.call]
  split
  · exact Or.inl ⟨rfl, rfl⟩
  · split
    · exact Or.inl ⟨rfl, rfl⟩
    · split
      · exact Or.inl ⟨rfl, rfl⟩
      · rename_i url hfound
        split
        · exact Or.inl ⟨rfl, rfl⟩
        · split
          · exact Or.inl ⟨rfl, rfl⟩
          · cases hc : o.commitErr with
            | true => exact Or.inr ⟨url, hfound, rfl, Or.inr ⟨rfl, rfl⟩⟩
            | false => exact Or.inr ⟨url, hfound, rfl, Or.inl ⟨rfl, rfl⟩⟩

/-- What `GetLongURL` does to store and cache. -/
theorem GetLongURL_effect (st : State) (g : GetOracle) (c : String) :
    (GetLongURL st g c).2.db = st.db ∧
      ((GetLongURL st g c).2.cache = st.cache ∨
        ∃ url, DB.First st.db (strings.TrimPrefix c "urls/") = some url ∧
          (GetLongURL st g c).2.cache =
            Redis.Set st.cache (getCacheKey (strings.TrimPrefix c "urls/")) url.LongURL 86400) := by
  unfold GetLongURL
  simp only [State.call]
  split
  · exact ⟨rfl, Or.inl rfl⟩
  · split
    · exact ⟨rfl, Or.inl rfl⟩
    · split
      · exact ⟨rfl, Or.inl rfl⟩
      · rename_i url hfirst
        cases hs : g.setErr with
        | true => exact ⟨rfl, Or.inl rfl⟩
        | false => exact ⟨rfl, Or.inr ⟨url, hfirst, rfl⟩⟩

/-- What a click-accounting run does to the store. -/
theorem incrementClickCount_db (st : State) (o : IncrOracle) (code : String) :
    (incrementClickCount st o code).db = st.db ∨
      DB.UpdateClicks st.db code = some (incrementClickCount st o code).db := by
  unfold incrementClickCount
  simp only [State.call]
  split
  · exact Or.inl rfl
  · split
    · exact Or.inl rfl
    · split
      · exact Or.inl rfl
      · rename_i db' hdb
        split at hdb
        · cases hdb
        · exact Or.inr hdb

/-! ## Invariants of the runs -/

/-- The key of a mapping determines its code. -/
theorem getCacheKey_inj {a b : String} (h : getCacheKey a = getCacheKey b) : a = b :=
  String.append_left_cancel h

/-- A row whose column value is new keeps the column free of duplicates. -/
theorem nodup_map_append_new {β : Type} (f : URL → β) (db : List URL) (x : URL)
    (hn : (db.map f).Nodup) (hx : ∀ r ∈ db, f r ≠ f x) : ((db ++ [x]).map f).Nodup := by
  rw [List.map_append, List.nodup_append]
  refine ⟨hn, by simp, ?_⟩
  intro b hb hb'
  rw [List.mem_map] at hb
  obtain ⟨r, hr, rfl⟩ := hb
  simp only [List.map_cons, List.map_nil, List.mem_singleton] at hb'
  exact hx r hr hb'

/-- The counter update changes no column but `clicks`. -/
theorem DB.UpdateClicks_map {β : Type} (f : URL → β) {db db' : List URL} {code : String}
    (hf : ∀ r : URL, f { r with Clicks := r.Clicks + 1 } = f r)
    (h : DB.UpdateClicks db code = some db') : db'.map f = db.map f := by
  unfold DB.UpdateClicks at h
  split at h
  · cases h
  · injection h with h
    subst h
    rw [List.map_map]
    apply List.map_congr_left
    intro r _
    simp only [Function.comp]
    split
    · exact hf r
    · rfl

/-- The rows after a click-accounting run differ from the rows before in `clicks` only. -/
theorem incrementClickCount_map {β : Type} (f : URL → β)
    (hf : ∀ r : URL, f { r with Clicks := r.Clicks + 1 } = f r)
    (st : State) (o : IncrOracle) (code : String) :
    (incrementClickCount st o code).db.map f = st.db.map f := by
  rcases incrementClickCount_db st o code with h | h
  · rw [h]
  · exact DB.UpdateClicks_map f hf h

/-- The rows after the oldest pending goroutine ran differ in `clicks` only. -/
theorem runPending_map {β : Type} (f : URL → β)
    (hf : ∀ r : URL, f { r with Clicks := r.Clicks + 1 } = f r)
    (st : State) (o : IncrOracle) : (st.runPending o).db.map f = st.db.map f := by
  unfold State.runPending
  split
  · rfl
  · exact incrementClickCount_map f hf _ o _

/-- The mappings of the cache after the oldest pending goroutine ran are those before. -/
theorem runPending_Get (st : State) (o : IncrOracle) (c : String) :
    Redis.Get (st.runPending o).cache (getCacheKey c) = Redis.Get st.cache (getCacheKey c) := by
  unfold State.runPending
  split
  · rfl
  · unfold Redis.Get
    rw [incrementClickCount_cache_frame _ o _ _ (getCacheKey_ne_getClicksKey _ _)]

/-- `UpdateURL` writes neither the id nor the code of a row. -/
theorem UpdateURL_map {β : Type} (f : URL → β)
    (hf : ∀ (r : URL) (l : String) (t : Nat), f { r with LongURL := l, UpdatedAt := t } = f r)
    (urlPrefix : String) (st : State) (o : UpdateOracle) (userID urlID : Nat)
    (longURL : String) (hu : UniqueIDs st.db) :
    (UpdateURL urlPrefix st o userID urlID longURL).2.db.map f = st.db.map f := by
  rcases UpdateURL_effect urlPrefix st o userID urlID longURL with
    ⟨h, _⟩ | ⟨found, hfound, _, ⟨_, h⟩ | ⟨_, h⟩⟩
  · rw [h]
  · rw [h]
    exact DB.Save_map f hu (DB.FirstByIDUser_eq_some hfound).1 rfl (hf found _ _)
  · rw [h]

/-- Every call keeps the codes and the ids of the table free of duplicates. -/
theorem Op.apply_unique (st : State) (op : Op) (h : UniqueCodes st.db ∧ UniqueIDs st.db) :
    UniqueCodes (op.apply st).db ∧ UniqueIDs (op.apply st).db := by
  cases op with
  | create urlPrefix o userID longURL c =>
    simp only [Op.apply]
    rcases CreateShortURL_effect urlPrefix st o userID longURL c with
      ⟨hdb, _⟩ | ⟨code, hfresh, _, ⟨_, hdb⟩ | ⟨_, hdb⟩⟩
    · rw [hdb]; exact h
    · rw [hdb]
      exact ⟨nodup_map_append_new URL.ShortURL _ _ h.1 (fun r hr => (hfresh r hr).2),
        nodup_map_append_new URL.ID _ _ h.2 (fun r hr => (hfresh r hr).1)⟩
    · rw [hdb]; exact h
  | update urlPrefix o userID urlID longURL =>
    simp only [Op.apply]
    unfold UniqueCodes UniqueIDs
    rw [UpdateURL_map URL.ShortURL (fun _ _ _ => rfl) urlPrefix st o userID urlID longURL h.2,
      UpdateURL_map URL.ID (fun _ _ _ => rfl) urlPrefix st o userID urlID longURL h.2]
    exact h
  | delete o userID urlID =>
    simp only [Op.apply]
    rcases DeleteURL_effect st o userID urlID with
      ⟨hdb, _⟩ | ⟨url, _, _, ⟨_, hdb⟩ | ⟨_, hdb⟩⟩
    · rw [hdb]; exact h
    · rw [hdb]
      exact ⟨h.1.sublist ((List.filter_sublist _).map _),
        h.2.sublist ((List.filter_sublist _).map _)⟩
    · rw [hdb]; exact h
  | resolve g c =>
    simp only [Op.apply]
    rw [(GetLongURL_effect st g c).1]
    exact h
  | account o =>
    simp only [Op.apply]
    unfold UniqueCodes UniqueIDs
    rw [runPending_map URL.ShortURL (fun _ => rfl), runPending_map URL.ID (fun _ => rfl)]
    exact h
  | expire key => exact h

/-- Every run keeps the codes and the ids of the table free of duplicates. -/
theorem run_unique (ops : List Op) : ∀ st : State, UniqueCodes st.db ∧ UniqueIDs st.db →
    UniqueCodes (run st ops).db ∧ UniqueIDs (run st ops).db := by
  induction ops with
  | nil => intro st h; exact h
  | cons op rest ih =>
    intro st h
    exact ih (op.apply st) (Op.apply_unique st op h)

/-! ## Cache coherence along the runs -/

/-- Reading after a `SET`. -/
theorem Redis.Get_Set (cache : List (String × CacheEntry)) (key k value : String) (ttl : Nat) :
    Redis.Get (Redis.Set cache key value ttl) k =
      if k = key then some value else Redis.Get cache k := by
  unfold Redis.Get Redis.Set
  rw [lookup_put]
  split <;> rfl

/-- What is read after a `DEL` was there before, under a key that was not deleted. -/
theorem Redis.Get_Del_some {cache : List (String × CacheEntry)} {keys : List String}
    {k v : String} (h : Redis.Get (Redis.Del cache keys) k = some v) :
    k ∉ keys ∧ Redis.Get cache k = some v := by
  by_cases hk : k ∈ keys
  · rw [Redis.Get_Del_of_mem hk] at h
    cases h
  · refine ⟨hk, ?_⟩
    unfold Redis.Get Redis.Del at h
    rw [lookup_filter_of_ne] at h
    · exact h
    · intro e he
      subst he
      simp [hk]

/-- What is read after a key timed out was there before. -/
theorem Redis.Get_timeout_some {cache : List (String × CacheEntry)} {key k v : String}
    (h : Redis.Get (Redis.timeout cache key) k = some v) : Redis.Get cache k = some v := by
  unfold Redis.timeout at h
  split at h
  · exact h
  · split at h
    · by_cases hk : k = key
      · subst hk
        unfold Redis.Get at h
        rw [lookup_filter_none] at h
        · cases h
        · intro e he
          simp [he]
      · unfold Redis.Get at h
        rw [lookup_filter_of_ne] at h
        · exact h
        · intro e he
          simpa [he] using hk
    · exact h

/-- A row other than the saved one, by its code, is still there after the save. -/
theorem DB.Save_mem_of_code_ne {db : List URL} {found url r : URL} (hu : UniqueIDs db)
    (hf : found ∈ db) (hid : url.ID = found.ID) (hr : r ∈ db)
    (hne : r.ShortURL ≠ found.ShortURL) : r ∈ DB.Save db url := by
  unfold DB.Save
  rw [List.mem_map]
  refine ⟨r, hr, ?_⟩
  have hrid : r.ID ≠ url.ID := by
    intro heq
    have : r = found := List.inj_on_of_nodup_map hu hr hf (heq.trans hid)
    exact hne (by rw [this])
  simp [hrid]

/-- A row other than the deleted one, by its code, is still there after the delete. -/
theorem DB.Delete_mem_of_code_ne {db : List URL} {url r : URL} (hu : UniqueIDs db)
    (hf : url ∈ db) (hr : r ∈ db) (hne : r.ShortURL ≠ url.ShortURL) :
    r ∈ DB.Delete db url := by
  unfold DB.Delete
  rw [List.mem_filter]
  refine ⟨hr, ?_⟩
  have hrid : r.ID ≠ url.ID := by
    intro heq
    have : r = url := List.inj_on_of_nodup_map hu hr hf heq
    exact hne (by rw [this])
  simp [hrid]

/-- A row found by its code is a row of the table with that code. -/
theorem DB.First_eq_some {db : List URL} {code : String} {url : URL}
    (h : DB.First db code = some url) : url ∈ db ∧ url.ShortURL = code := by
  unfold DB.First at h
  have h1 := List.mem_of_find?_eq_some h
  have h2 := List.find?_some h
  simp only [beq_iff_eq] at h2
  exact ⟨h1, h2⟩

/-- Every call whose commit does not fail keeps the cache coherent with the table. -/
theorem Op.apply_coherent (st : State) (op : Op) (hu : UniqueIDs st.db) (hc : Coherent st)
    (hcommit : op.commits = true) : Coherent (op.apply st) := by
  intro c v hget
  cases op with
  | create urlPrefix o userID longURL custom =>
    simp only [Op.apply] at hget ⊢
    simp only [Op.commits, Bool.not_eq_true'] at hcommit
    rcases CreateShortURL_effect urlPrefix st o userID longURL custom with
      ⟨hdb, hcache⟩ | ⟨code, _, hcache, ⟨_, hdb⟩ | ⟨hce, _⟩⟩
    · rw [hdb]
      rw [hcache] at hget
      exact hc c v hget
    · rw [hdb]
      rw [hcache, Redis.Get_Set] at hget
      split at hget
      · rename_i hk
        have hcode := getCacheKey_inj hk
        injection hget with hv
        exact ⟨CreateShortURL.newURL o userID longURL code, by simp,
          by rw [hcode]; rfl, by rw [← hv]; rfl⟩
      · obtain ⟨r, hr, h1, h2⟩ := hc c v hget
        exact ⟨r, List.mem_append_left _ hr, h1, h2⟩
    · rw [hcommit] at hce
      cases hce
  | update urlPrefix o userID urlID longURL =>
    simp only [Op.apply] at hget ⊢
    simp only [Op.commits, Bool.not_eq_true'] at hcommit
    rcases UpdateURL_effect urlPrefix st o userID urlID longURL with
      ⟨hdb, hcache⟩ | ⟨found, hfound, hcache, ⟨_, hdb⟩ | ⟨hce, _⟩⟩
    · rw [hdb]
      rw [hcache] at hget
      exact hc c v hget
    · have hmem := (DB.FirstByIDUser_eq_some hfound).1
      rw [hdb]
      rw [hcache, Redis.Get_Set] at hget
      split at hget
      · rename_i hk
        have hcode := getCacheKey_inj hk
        injection hget with hv
        exact ⟨_, DB.Save_mem hmem rfl, hcode.symm, hv⟩
      · rename_i hk
        obtain ⟨r, hr, h1, h2⟩ := hc c v hget
        refine ⟨r, DB.Save_mem_of_code_ne hu hmem rfl hr ?_, h1, h2⟩
        intro heq
        exact hk (by rw [← h1, heq])
    · rw [hcommit] at hce
      cases hce
  | delete o userID urlID =>
    simp only [Op.apply] at hget ⊢
    simp only [Op.commits, Bool.not_eq_true'] at hcommit
    rcases DeleteURL_effect st o userID urlID with
      ⟨hdb, hcache⟩ | ⟨url, hfound, hcache, ⟨_, hdb⟩ | ⟨hce, _⟩⟩
    · rw [hdb]
      rw [hcache] at hget
      exact hc c v hget
    · have hmem := (DB.FirstByIDUser_eq_some hfound).1
      rw [hdb]
      rw [hcache] at hget
      obtain ⟨hk, hget⟩ := Redis.Get_Del_some hget
      obtain ⟨r, hr, h1, h2⟩ := hc c v hget
      refine ⟨r, DB.Delete_mem_of_code_ne hu hmem hr ?_, h1, h2⟩
      intro heq
      apply hk
      rw [← h1, heq]
      simp
    · rw [hcommit] at hce
      cases hce
  | resolve g code =>
    simp only [Op.apply] at hget ⊢
    obtain ⟨hdb, hcache⟩ := GetLongURL_effect st g code
    rw [hdb]
    rcases hcache with hcache | ⟨url, hfirst, hcache⟩
    · rw [hcache] at hget
      exact hc c v hget
    · rw [hcache, Redis.Get_Set] at hget
      split at hget
      · rename_i hk
        have hcode := getCacheKey_inj hk
        injection hget with hv
        obtain ⟨hmem, hcd⟩ := DB.First_eq_some hfirst
        exact ⟨url, hmem, by rw [hcd, hcode], hv⟩
      · exact hc c v hget
  | account o =>
    simp only [Op.apply] at hget ⊢
    rw [runPending_Get] at hget
    obtain ⟨r, hr, h1, h2⟩ := hc c v hget
    have hmap := runPending_map (fun r => (r.ShortURL, r.LongURL)) (fun _ => rfl) st o
    have hin : (r.ShortURL, r.LongURL) ∈ (st.runPending o).db.map
        (fun r => (r.ShortURL, r.LongURL)) := by
      rw [hmap]
      exact List.mem_map_of_mem _ hr
    rw [List.mem_map] at hin
    obtain ⟨r', hr', heq⟩ := hin
    injection heq with e1 e2
    exact ⟨r', hr', e1.trans h1, e2.trans h2⟩
  | expire key =>
    simp only [Op.apply] at hget ⊢
    exact hc c v (Redis.Get_timeout_some hget)

/-- Every run without a failing commit keeps the cache coherent with the table. -/
theorem run_coherent (ops : List Op) : ∀ st : State, UniqueCodes st.db ∧ UniqueIDs st.db →
    Coherent st → (∀ op ∈ ops, op.commits = true) → Coherent (run st ops) := by
  induction ops with
  | nil => intro st _ hc _; exact hc
  | cons op rest ih =>
    intro st hu hc hall
    exact ih (op.apply st) (Op.apply_unique st op hu)
      (Op.apply_coherent st op hu.2 hc (hall op (List.mem_cons_self _ _)))
      (fun x hx => hall x (List.mem_cons_of_mem _ hx))

/-! ## Lemmas on the cache package -/

/-- Reading after a `SET` with an expiration. -/
theorem Redis.Get_SetExpiration (cache : List (String × CacheEntry)) (key k value : String)
    (expiration : Nat) :
    Redis.Get (Redis.SetExpiration cache key value expiration) k =
      if k = key then some value else Redis.Get cache k := by
  unfold Redis.Get Redis.SetExpiration
  rw [lookup_put]
  split <;> rfl

/-- The prefixed key determines the key. -/
theorem RedisCache.prefixKey_inj (pre : String) {a b : String}
    (h : RedisCache.prefixKey pre a = RedisCache.prefixKey pre b) : a = b := by
  unfold RedisCache.prefixKey at h
  exact String.append_left_cancel h

/-- A `Set` that returns no error wrote the text of the type switch under the prefixed key. -/
theorem RedisCache.Set_ok {α : Type} {marshal : α → Option String} {pre key : String}
    {cache cache1 : List (String × CacheEntry)} {setErr : Bool} {value : Value α}
    {expiration : Nat}
    (h : RedisCache.Set marshal pre cache setErr key value expiration = (none, cache1)) :
    ∃ text, value.strVal marshal = some text ∧
      cache1 = Redis.SetExpiration cache (RedisCache.prefixKey pre key) text expiration := by
  unfold RedisCache.Set at h
  split at h
  · cases h
  · rename_i text htext
    split at h
    · cases h
    · injection h with _ h2
      exact ⟨text, htext, h2.symm⟩

/-- The loop of `SetMultiple` stops at the first value that cannot be serialised. -/
theorem RedisCache.queueItems_error {α : Type} (marshal : α → Option String) (pre : String)
    (key : String) (value : Value α) (rest : List (String × Value α))
    (hvalue : value.strVal marshal = none) :
    ∀ before : List (String × Value α), (∀ it ∈ before, (it.2.strVal marshal).isSome = true) →
      RedisCache.queueItems marshal pre (before ++ (key, value) :: rest) =
        .error (.marshalKey key) := by
  intro before
  induction before with
  | nil =>
    intro _
    simp only [List.nil_append, RedisCache.queueItems, hvalue]
  | cons it t ih =>
    intro hall
    obtain ⟨k, v⟩ := it
    have hv := hall (k, v) (List.mem_cons_self _ _)
    obtain ⟨s, hs⟩ := Option.isSome_iff_exists.mp hv
    simp only at hs
    rw [List.cons_append, RedisCache.queueItems]
    simp only [hs]
    rw [ih (fun x hx => hall x (List.mem_cons_of_mem _ hx))]

/-- When every value can be serialised the loop queues one `SET` per item, in order, on the
prefixed key and with the text of the type switch. -/
theorem RedisCache.queueItems_ok {α : Type} (marshal : α → Option String) (pre : String) :
    ∀ items : List (String × Value α), (∀ it ∈ items, (it.2.strVal marshal).isSome = true) →
      ∃ cmds, RedisCache.queueItems marshal pre items = .ok cmds ∧
        cmds.map Prod.fst = items.map (fun it => RedisCache.prefixKey pre it.1) ∧
        ∀ key value, (key, value) ∈ items →
          ∃ text, value.strVal marshal = some text ∧
            (RedisCache.prefixKey pre key, text) ∈ cmds := by
  intro items
  induction items with
  | nil =>
    intro _
    exact ⟨[], rfl, rfl, fun _ _ h => by cases h⟩
  | cons it t ih =>
    intro hall
    obtain ⟨k, v⟩ := it
    have hv := hall (k, v) (List.mem_cons_self _ _)
    obtain ⟨s, hs⟩ := Option.isSome_iff_exists.mp hv
    simp only at hs
    obtain ⟨cmds, hq, hkeys, hmem⟩ := ih (fun x hx => hall x (List.mem_cons_of_mem _ hx))
    refine ⟨(RedisCache.prefixKey pre k, s) :: cmds, ?_, ?_, ?_⟩
    · simp only [RedisCache.queueItems, hs, hq]
    · simp only [List.map_cons, hkeys]
    · intro key value hin
      rcases List.mem_cons.mp hin with heq | hin
      · injection heq with h1 h2
        subst h1 h2
        exact ⟨s, hs, List.mem_cons_self _ _⟩
      · obtain ⟨text, h1, h2⟩ := hmem key value hin
        exact ⟨text, h1, List.mem_cons_of_mem _ h2⟩

/-- A key without a command in the pipeline is read as before. -/
theorem Redis.execSets_frame (refused : String → Bool) (expiration : Nat) (k : String) :
    ∀ (cmds : List (String × String)) (cache : List (String × CacheEntry)),
      k ∉ cmds.map Prod.fst →
      Redis.Get (Redis.execSets refused expiration cmds cache) k = Redis.Get cache k := by
  intro cmds
  induction cmds with
  | nil => intro cache _; rfl
  | cons c t ih =>
    intro cache hk
    obtain ⟨key, value⟩ := c
    simp only [List.map_cons, List.mem_cons, not_or] at hk
    unfold Redis.execSets
    by_cases hr : refused key = true
    · rw [if_pos hr]
      exact ih cache hk.2
    · rw [if_neg hr, ih _ hk.2, Redis.Get_SetExpiration, if_neg hk.1]

/-- After the pipeline a key holds the text of its command when the command was accepted,
and what it held before when the command was refused. -/
theorem Redis.execSets_Get (refused : String → Bool) (expiration : Nat) :
    ∀ (cmds : List (String × String)) (cache : List (String × CacheEntry)),
      (cmds.map Prod.fst).Nodup → ∀ key value, (key, value) ∈ cmds →
      Redis.Get (Redis.execSets refused expiration cmds cache) key =
        if refused key = true then Redis.Get cache key else some value := by
  intro cmds
  induction cmds with
  | nil => intro cache _ key value h; cases h
  | cons c t ih =>
    intro cache hnodup key value hin
    obtain ⟨k0, v0⟩ := c
    simp only [List.map_cons, List.nodup_cons] at hnodup
    rcases List.mem_cons.mp hin with heq | hin
    · injection heq with h1 h2
      subst h1 h2
      unfold Redis.execSets
      by_cases hr : refused key = true
      · rw [if_pos hr, if_pos hr]
        exact Redis.execSets_frame refused expiration key t cache hnodup.1
      · rw [if_neg hr, if_neg hr, Redis.execSets_frame refused expiration key t _ hnodup.1,
          Redis.Get_SetExpiration, if_pos rfl]
    · have hne : key ≠ k0 := by
        intro heq
        apply hnodup.1
        rw [← heq]
        exact List.mem_map_of_mem Prod.fst hin
      unfold Redis.execSets
      by_cases hr : refused k0 = true
      · rw [if_pos hr]
        exact ih cache hnodup.2 key value hin
      · rw [if_neg hr, ih _ hnodup.2 key value hin, Redis.Get_SetExpiration, if_neg hne]

/-- A test on the images of a list is the composed test on the list. -/
theorem any_map_eq {α β : Type} (f : α → β) (p : β → Bool) (l : List α) :
    (l.map f).any p = l.any (fun x => p (f x)) := by
  induction l with
  | nil => rfl
  | cons a t ih => simp only [List.map_cons, List.any_cons, ih]

/-- After `SetObject(key, v)` succeeds, the cache holds under the key the text of the type
switch of `Set`, and a `GetObject(key, dest)` whose read reaches the cache hands that text to
the JSON decoder of the destination. For a value `v` that is neither a string nor a byte
slice the text is the JSON serialisation of `v`, so `GetObject` succeeds and leaves the
destination equal to `v` whenever the decoder reads the serialisation of `v` back as `v`.
For a string or a byte slice the text is `v` itself, not its serialisation. -/
theorem CacheManager.GetObject_after_SetObject {α : Type} (marshal : α → Option String)
    (pre key : String) (cache cache1 : List (String × CacheEntry)) (setErr : Bool)
    (value : Value α) (expiration : Nat)
    (hset : CacheManager.SetObject marshal pre cache setErr key value expiration =
      (none, cache1)) :
    ∃ text, value.strVal marshal = some text ∧
      RedisCache.Get pre cache1 false key = .ok text ∧
      (∀ (β : Type) (unmarshal : String → β → Option β) (dest : β),
        CacheManager.GetObject unmarshal pre cache1 false key dest =
          match unmarshal text dest with
          | none => .error .unmarshal
          | some d => .ok d) ∧
      (∀ a, value = .other a → marshal a = some text ∧
        ∀ (unmarshal : String → α → Option α) (dest : α), unmarshal text dest = some a →
          CacheManager.GetObject unmarshal pre cache1 false key dest = .ok a) ∧
      (∀ s, value = .str s ∨ value = .bytes s → text = s) := by
  unfold CacheManager.SetObject at hset
  obtain ⟨text, htext, hcache⟩ := RedisCache.Set_ok hset
  have hget : RedisCache.Get pre cache1 false key = .ok text := by
    unfold RedisCache.Get
    rw [hcache, Redis.Get_SetExpiration, if_pos rfl]
    rfl
  have hobj : ∀ (β : Type) (unmarshal : String → β → Option β) (dest : β),
      CacheManager.GetObject unmarshal pre cache1 false key dest =
        match unmarshal text dest with
        | none => .error .unmarshal
        | some d => .ok d := by
    intro β unmarshal dest
    unfold CacheManager.GetObject
    rw [hget]
  refine ⟨text, htext, hget, hobj, ?_, ?_⟩
  · intro a ha
    subst ha
    refine ⟨htext, ?_⟩
    intro unmarshal dest hdec
    rw [hobj α unmarshal dest, hdec]
  · intro s hs
    rcases hs with hs | hs
    · subst hs
      injection htext with h
      exact h.symm
    · subst hs
      injection htext with h
      exact h.symm

/-! ## The claims -/

/-- C1: when `CreateShortURL` with an empty custom code returns a link, `GetLongURL` applied to
the code of that link returns the destination the link was created with and no error. This
holds for every owner, destination, prior state and oracle of the creation, and for every
resolution in which the cache or the store answers. -/
theorem C1_resolve_after_generated_create (urlPrefix : String) (st st' : State)
    (o : CreateOracle) (g : GetOracle) (owner : Nat) (dest : String) (url : URL)
    (hcreate : CreateShortURL urlPrefix st o owner dest "" = (.ok url, st'))
    (hreach : ¬ (g.getErr = true ∧ g.firstErr = true)) :
    ∃ code, url.ShortURL = urlPrefix ++ "urls/" ++ code ∧
      { url with ShortURL := code } ∈ st'.db ∧
      (GetLongURL st' g code).1 = (dest, none) := by
  obtain ⟨code, h1, h2, -, h4, h5, h6, h7, h8⟩ := CreateShortURL_ok hcreate
  refine ⟨code, h1, by rw [h4]; simp, ?_⟩
  have hs := CreateShortURL_code_no_slash h7 h8
  have := GetLongURL_after_create { url with ShortURL := code } h4
    (fun r hr => (h5 r hr).2) (by rw [h6, h2]) hs hreach
  rw [← h2]
  exact this

/-- Witness of C1: a link created on the empty state with the generated code `AAAAAA`. -/
theorem C1_resolve_after_generated_create_witness :
    ∃ code, linkAAAAAA.ShortURL = "https://lynx.test/" ++ "urls/" ++ code ∧
      { linkAAAAAA with ShortURL := code } ∈
        (CreateShortURL "https://lynx.test/" emptyState calmCreate 7
          "https://example.com/a" "").2.db ∧
      (GetLongURL (CreateShortURL "https://lynx.test/" emptyState calmCreate 7
          "https://example.com/a" "").2 calmGet code).1 = ("https://example.com/a", none) :=
  C1_resolve_after_generated_create "https://lynx.test/" emptyState _ calmCreate calmGet 7
    "https://example.com/a" linkAAAAAA (by decide) (by decide)

/-- C2: `CreateShortURL` with a custom code that passes the charset check, on a state where the
fold of the code is free and with a creation in which nothing fails, returns the link and
stores the row under the lowercase fold of the code; a following `GetLongURL` of the fold
returns the destination. For the code `MyLink1` the fold is `mylink1`. -/
theorem C2_custom_code_stored_lowercase (urlPrefix : String) (st : State) (o : CreateOracle)
    (g : GetOracle) (owner : Nat) (dest c : String)
    (hmatch : shortCodePattern.MatchString c = true)
    (hcache : Redis.Get st.cache (getCacheKey (strings.ToLower c)) = none)
    (hdb : ∀ r ∈ st.db, r.ShortURL ≠ strings.ToLower c)
    (hid : ∀ r ∈ st.db, r.ID ≠ o.id)
    (hcalm : o.taken.countErr = false ∧ o.beginErr = false ∧ o.createErr = false ∧
      o.setErr = false ∧ o.commitErr = false)
    (hreach : ¬ (g.getErr = true ∧ g.firstErr = true)) :
    (CreateShortURL urlPrefix st o owner dest c).1 =
        .ok { ID := o.id, UserID := owner, LongURL := dest,
              ShortURL := urlPrefix ++ "urls/" ++ strings.ToLower c, Clicks := 0,
              CreatedAt := o.createdAt, UpdatedAt := o.updatedAt } ∧
      (CreateShortURL urlPrefix st o owner dest c).2.db =
        st.db ++ [{ ID := o.id, UserID := owner, LongURL := dest,
                    ShortURL := strings.ToLower c, Clicks := 0,
                    CreatedAt := o.createdAt, UpdatedAt := o.updatedAt }] ∧
      (CreateShortURL urlPrefix st o owner dest c).2.cache =
        Redis.Set st.cache (getCacheKey (strings.ToLower c)) dest 86400 ∧
      (GetLongURL (CreateShortURL urlPrefix st o owner dest c).2 g (strings.ToLower c)).1 =
        (dest, none) ∧
      strings.ToLower "MyLink1" = "mylink1" := by
  obtain ⟨hq, hbegin, hcreate, hset, hcommit⟩ := hcalm
  have hne : (c != "") = true := by simpa using MatchString_ne_empty hmatch
  have hres : CreateShortURL.resolveCode st o c =
      (.ok (strings.ToLower c),
        (st.call (Call.redisExists (getCacheKey (strings.ToLower c)))).call
          (Call.dbCount (strings.ToLower c))) := by
    unfold CreateShortURL.resolveCode
    rw [if_pos hne]
    simp only [hmatch, Bool.not_true, Bool.false_eq_true, if_false]
    rw [isShortCodeTaken_of_free hcache hq hdb]
  have hins : DB.Create st.db (CreateShortURL.newURL o owner dest (strings.ToLower c)) =
      some (st.db ++ [CreateShortURL.newURL o owner dest (strings.ToLower c)]) :=
    DB.Create_of_fresh (fun r hr => ⟨hid r hr, hdb r hr⟩)
  have hall : CreateShortURL urlPrefix st o owner dest c =
      (.ok { CreateShortURL.newURL o owner dest (strings.ToLower c) with
             ShortURL := urlPrefix ++ "urls/" ++ strings.ToLower c },
        { db := st.db ++ [CreateShortURL.newURL o owner dest (strings.ToLower c)],
          cache := Redis.Set st.cache (getCacheKey (strings.ToLower c)) dest 86400,
          log := st.log ++ [Call.redisExists (getCacheKey (strings.ToLower c)),
            Call.dbCount (strings.ToLower c), Call.dbBegin,
            Call.dbCreate (CreateShortURL.newURL o owner dest (strings.ToLower c)),
            Call.redisSet (getCacheKey (strings.ToLower c)) dest 86400, Call.dbCommit],
          pending := st.pending }) := by
    unfold CreateShortURL
    rw [hres]
    simp only [CreateShortURL.persist, State.call, hbegin, hcreate, hset, hcommit, hins,
      Bool.false_eq_true, if_false, List.append_assoc, List.cons_append, List.nil_append]
  rw [hall]
  refine ⟨rfl, rfl, rfl, ?_, by decide⟩
  exact GetLongURL_after_create (CreateShortURL.newURL o owner dest (strings.ToLower c))
    rfl hdb rfl (ToLower_no_slash hmatch) hreach

/-- Witness of C2: the code `MyLink1` on a state that holds one other link. -/
theorem C2_custom_code_stored_lowercase_witness :
    (CreateShortURL "https://lynx.test/" stateAAAAAA calmCreate2 7 "https://example.com/a"
        "MyLink1").1 =
        .ok { ID := 2, UserID := 7, LongURL := "https://example.com/a",
              ShortURL := "https://lynx.test/urls/mylink1", Clicks := 0,
              CreatedAt := 1700000100, UpdatedAt := 1700000100 } ∧
      (CreateShortURL "https://lynx.test/" stateAAAAAA calmCreate2 7 "https://example.com/a"
        "MyLink1").2.db =
        [rowAAAAAA,
          { ID := 2, UserID := 7, LongURL := "https://example.com/a",
            ShortURL := "mylink1", Clicks := 0,
            CreatedAt := 1700000100, UpdatedAt := 1700000100 }] ∧
      (CreateShortURL "https://lynx.test/" stateAAAAAA calmCreate2 7 "https://example.com/a"
        "MyLink1").2.cache =
        [("url:mylink1", ⟨"https://example.com/a", some 86400⟩),
          ("url:AAAAAA", ⟨"https://example.com/a", some 86400⟩)] ∧
      (GetLongURL (CreateShortURL "https://lynx.test/" stateAAAAAA calmCreate2 7
        "https://example.com/a" "MyLink1").2 calmGet "mylink1").1 =
        ("https://example.com/a", none) ∧
      strings.ToLower "MyLink1" = "mylink1" :=
  C2_custom_code_stored_lowercase "https://lynx.test/" stateAAAAAA calmCreate2 calmGet 7
    "https://example.com/a" "MyLink1" (by decide) (by decide) (by decide) (by decide)
    (by decide) (by decide)

/-- C3: for every non-empty custom code with a character outside `[A-Za-z0-9_-]`,
`CreateShortURL` returns `ErrInvalidShortCode` and the state is the state it started from:
store and cache are unchanged and the log has no new call, so neither was read or written. -/
theorem C3_invalid_code_rejected_untouched (urlPrefix : String) (st : State)
    (o : CreateOracle) (owner : Nat) (dest c : String) (hne : c ≠ "")
    (hbad : ∃ x ∈ c.data, isCodeChar x = false) :
    CreateShortURL urlPrefix st o owner dest c = (.error .ErrInvalidShortCode, st) := by
  have hb : (c != "") = true := by simpa using hne
  have hm : shortCodePattern.MatchString c = false := by
    unfold shortCodePattern.MatchString
    obtain ⟨x, hx, hxc⟩ := hbad
    have : c.data.all isCodeChar = false := by
      rw [List.all_eq_false]
      exact ⟨x, hx, by simp [hxc]⟩
    simp [this]
  unfold CreateShortURL CreateShortURL.resolveCode
  simp [hb, hm]

/-- Witness of C3: a custom code with a space. -/
theorem C3_invalid_code_rejected_untouched_witness :
    CreateShortURL "https://lynx.test/" stateAAAAAA calmCreate2 7 "https://example.com/a"
      "my link" = (.error .ErrInvalidShortCode, stateAAAAAA) :=
  C3_invalid_code_rejected_untouched "https://lynx.test/" stateAAAAAA calmCreate2 7
    "https://example.com/a" "my link" (by decide) ⟨' ', by decide, by decide⟩

/-- C4, as stated, fails: the custom code `kab` is created, and the code made of the Kelvin
sign U+212A followed by `ab` has the same lowercase fold; `CreateShortURL` rejects it with
`ErrInvalidShortCode`, not with `ErrShortCodeTaken`, because the charset check comes before
the fold. -/
theorem C4_fold_equal_code_rejected_as_invalid :
    (CreateShortURL "https://lynx.test/" emptyState calmCreate 7 "https://example.com/a"
        "kab").1 =
        .ok { ID := 1, UserID := 7, LongURL := "https://example.com/a",
              ShortURL := "https://lynx.test/urls/kab", Clicks := 0,
              CreatedAt := 1700000000, UpdatedAt := 1700000000 } ∧
      strings.ToLower "\u212Aab" = strings.ToLower "kab" ∧
      (CreateShortURL "https://lynx.test/"
        (CreateShortURL "https://lynx.test/" emptyState calmCreate 7 "https://example.com/a"
          "kab").2
        calmCreate2 8 "https://example.com/b" "\u212Aab").1 = .error .ErrInvalidShortCode := by
  decide

/-- C4, amended: of two `CreateShortURL` calls made one after the other with custom codes that
have the same lowercase fold, when the first returns a link the second returns an error, so
exactly one of the two succeeds: `ErrInvalidShortCode` when the second code does not pass the
charset check, and `ErrShortCodeTaken` when it does, whenever the cache or the store answers
the collision check of the second call; the second call leaves the durable store and the
cache as the first call left them, mapping and row of the first link included. -/
theorem C4_second_create_same_fold_taken (urlPrefix : String) (st st1 : State)
    (o1 o2 : CreateOracle) (u1 u2 : Nat) (d1 d2 c1 c2 : String) (url1 : URL)
    (hc1 : c1 ≠ "") (hfold : strings.ToLower c2 = strings.ToLower c1)
    (hfirst : CreateShortURL urlPrefix st o1 u1 d1 c1 = (.ok url1, st1)) :
    (∃ e, (CreateShortURL urlPrefix st1 o2 u2 d2 c2).1 = .error e) ∧
      (shortCodePattern.MatchString c2 = false →
        (CreateShortURL urlPrefix st1 o2 u2 d2 c2).1 = .error .ErrInvalidShortCode) ∧
      (shortCodePattern.MatchString c2 = true →
        (o2.taken.existsErr = false ∨ o2.taken.countErr = false) →
        (CreateShortURL urlPrefix st1 o2 u2 d2 c2).1 = .error .ErrShortCodeTaken) ∧
      (CreateShortURL urlPrefix st1 o2 u2 d2 c2).2.db = st1.db ∧
      (CreateShortURL urlPrefix st1 o2 u2 d2 c2).2.cache = st1.cache ∧
      Redis.Get (CreateShortURL urlPrefix st1 o2 u2 d2 c2).2.cache
        (getCacheKey (strings.ToLower c1)) = some d1 ∧
      DB.First (CreateShortURL urlPrefix st1 o2 u2 d2 c2).2.db (strings.ToLower c1) =
        some { url1 with ShortURL := strings.ToLower c1 } := by
  obtain ⟨code, -, -, -, h4, h5, h6, h7, -⟩ := CreateShortURL_ok hfirst
  obtain ⟨hm1, rfl⟩ := h7 hc1
  have hget : Redis.Get st1.cache (getCacheKey (strings.ToLower c1)) = some d1 := by
    rw [h6]; exact Redis.Get_Set_self _ _ _ _
  have hrow : DB.First st1.db (strings.ToLower c1) =
      some { url1 with ShortURL := strings.ToLower c1 } := by
    rw [h4]
    exact DB.First_append_new { url1 with ShortURL := strings.ToLower c1 }
      (fun r hr => (h5 r hr).2)
  cases hm2 : shortCodePattern.MatchString c2 with
  | false =>
    have hc2 : c2 ≠ "" := by
      intro he
      apply hc1
      apply ToLower_eq_empty
      rw [← hfold, he]
      decide
    rw [CreateShortURL_invalid urlPrefix st1 o2 u2 d2 hc2 hm2]
    exact ⟨⟨Err.ErrInvalidShortCode, rfl⟩, fun _ => rfl, fun h => Bool.noConfusion h, rfl,
      rfl, hget, hrow⟩
  | true =>
  have hmem : ∃ r ∈ st1.db, r.ShortURL = strings.ToLower c1 :=
    ⟨{ url1 with ShortURL := strings.ToLower c1 }, by rw [h4]; simp, rfl⟩
  have hf := isShortCodeTaken_frame st1 o2.taken (strings.ToLower c1)
  have hcases : (isShortCodeTaken st1 o2.taken (strings.ToLower c1)).1 = (true, none) ∨
      ((o2.taken.existsErr = true ∧ o2.taken.countErr = true) ∧
        (isShortCodeTaken st1 o2.taken (strings.ToLower c1)).1 = (false, some .dbError)) := by
    cases he : o2.taken.existsErr with
    | false =>
      exact Or.inl (isShortCodeTaken_of_visible (Or.inl ⟨he, by rw [hget]; rfl⟩)).1
    | true =>
      cases hq : o2.taken.countErr with
      | false => exact Or.inl (isShortCodeTaken_of_visible (Or.inr ⟨hq, hmem⟩)).1
      | true =>
        refine Or.inr ⟨⟨rfl, rfl⟩, ?_⟩
        rw [isShortCodeTaken_of_outage he hq]
  have hcreate : CreateShortURL urlPrefix st1 o2 u2 d2 c2 =
      match isShortCodeTaken st1 o2.taken (strings.ToLower c1) with
      | ((_, some e), st2) => (.error e, st2)
      | ((true, none), st2) => (.error .ErrShortCodeTaken, st2)
      | ((false, none), st2) =>
        CreateShortURL.persist urlPrefix st2 o2 u2 d2 (strings.ToLower c1) := by
    unfold CreateShortURL
    rw [CreateShortURL.resolveCode_custom hm2, hfold]
    rcases isShortCodeTaken st1 o2.taken (strings.ToLower c1) with ⟨⟨b, e⟩, st2⟩
    cases e with
    | some e => cases b <;> rfl
    | none => cases b <;> rfl
  rw [hcreate]
  rcases hr : isShortCodeTaken st1 o2.taken (strings.ToLower c1) with ⟨⟨b, e⟩, st2⟩
  rw [hr] at hf hcases
  simp only at hf
  rcases hcases with hk | ⟨⟨he, hq⟩, hk⟩
  · simp only [Prod.mk.injEq] at hk
    obtain ⟨rfl, rfl⟩ := hk
    refine ⟨⟨Err.ErrShortCodeTaken, rfl⟩, fun h => Bool.noConfusion h, fun _ _ => rfl,
      hf.1, hf.2.1, ?_, ?_⟩
    · show Redis.Get st2.cache _ = _
      rw [hf.2.1]; exact hget
    · show DB.First st2.db _ = _
      rw [hf.1]; exact hrow
  · simp only [Prod.mk.injEq] at hk
    obtain ⟨rfl, rfl⟩ := hk
    refine ⟨⟨Err.dbError, rfl⟩, fun h => Bool.noConfusion h, ?_, hf.1, hf.2.1, ?_, ?_⟩
    · rintro - (h | h)
      · rw [he] at h; cases h
      · rw [hq] at h; cases h
    · show Redis.Get st2.cache _ = _
      rw [hf.2.1]; exact hget
    · show DB.First st2.db _ = _
      rw [hf.1]; exact hrow

/-- Witness of C4 amended: `MyLink1` is created on a state that holds one other link, then
`MYLINK1` is asked for. -/
theorem C4_second_create_same_fold_taken_witness :
    (∃ e, (CreateShortURL "https://lynx.test/"
        (CreateShortURL "https://lynx.test/" stateAAAAAA calmCreate2 7
          "https://example.com/a" "MyLink1").2
        calmCreate 8 "https://example.com/b" "MYLINK1").1 = .error e) ∧
      (shortCodePattern.MatchString "MYLINK1" = false →
        (CreateShortURL "https://lynx.test/"
          (CreateShortURL "https://lynx.test/" stateAAAAAA calmCreate2 7
            "https://example.com/a" "MyLink1").2
          calmCreate 8 "https://example.com/b" "MYLINK1").1 = .error .ErrInvalidShortCode) ∧
      (shortCodePattern.MatchString "MYLINK1" = true →
        (calmCreate.taken.existsErr = false ∨ calmCreate.taken.countErr = false) →
        (CreateShortURL "https://lynx.test/"
          (CreateShortURL "https://lynx.test/" stateAAAAAA calmCreate2 7
            "https://example.com/a" "MyLink1").2
          calmCreate 8 "https://example.com/b" "MYLINK1").1 = .error .ErrShortCodeTaken) ∧
      (CreateShortURL "https://lynx.test/"
        (CreateShortURL "https://lynx.test/" stateAAAAAA calmCreate2 7
          "https://example.com/a" "MyLink1").2
        calmCreate 8 "https://example.com/b" "MYLINK1").2.db =
        (CreateShortURL "https://lynx.test/" stateAAAAAA calmCreate2 7
          "https://example.com/a" "MyLink1").2.db ∧
      (CreateShortURL "https://lynx.test/"
        (CreateShortURL "https://lynx.test/" stateAAAAAA calmCreate2 7
          "https://example.com/a" "MyLink1").2
        calmCreate 8 "https://example.com/b" "MYLINK1").2.cache =
        (CreateShortURL "https://lynx.test/" stateAAAAAA calmCreate2 7
          "https://example.com/a" "MyLink1").2.cache ∧
      Redis.Get (CreateShortURL "https://lynx.test/"
        (CreateShortURL "https://lynx.test/" stateAAAAAA calmCreate2 7
          "https://example.com/a" "MyLink1").2
        calmCreate 8 "https://example.com/b" "MYLINK1").2.cache
        (getCacheKey (strings.ToLower "MyLink1")) = some "https://example.com/a" ∧
      DB.First (CreateShortURL "https://lynx.test/"
        (CreateShortURL "https://lynx.test/" stateAAAAAA calmCreate2 7
          "https://example.com/a" "MyLink1").2
        calmCreate 8 "https://example.com/b" "MYLINK1").2.db (strings.ToLower "MyLink1") =
        some { ID := 2, UserID := 7, LongURL := "https://example.com/a",
               ShortURL := strings.ToLower "MyLink1", Clicks := 0,
               CreatedAt := 1700000100, UpdatedAt := 1700000100 } :=
  C4_second_create_same_fold_taken "https://lynx.test/" stateAAAAAA _ calmCreate2 calmCreate
    7 8 "https://example.com/a" "https://example.com/b" "MyLink1" "MYLINK1"
    { ID := 2, UserID := 7, LongURL := "https://example.com/a",
      ShortURL := "https://lynx.test/urls/mylink1", Clicks := 0,
      CreatedAt := 1700000100, UpdatedAt := 1700000100 }
    (by decide) (by decide) (by decide)

/-- C5: when each of the three codes the generator draws is taken, and the collision check of
its iteration sees that (in the cache with a cache that answers, or in the store with a store
that answers), `CreateShortURL` with an empty custom code returns `ErrGenerateShortCode`
after exactly three draws; the calls it has issued are draws and collision checks only, and
the durable store and the cache are unchanged: no row was created. -/
theorem C5_generation_exhausted_after_three (urlPrefix : String) (st : State)
    (o : CreateOracle) (owner : Nat) (dest : String)
    (htaken : ∀ j, j < 3 → ∃ code, generateShortCode (o.attempts j).entropy = .ok code ∧
      (((o.attempts j).taken.existsErr = false ∧
          (Redis.Get st.cache (getCacheKey code)).isSome = true) ∨
        ((o.attempts j).taken.countErr = false ∧ ∃ r ∈ st.db, r.ShortURL = code))) :
    (CreateShortURL urlPrefix st o owner dest "").1 = .error .ErrGenerateShortCode ∧
      (CreateShortURL urlPrefix st o owner dest "").2.db = st.db ∧
      (CreateShortURL urlPrefix st o owner dest "").2.cache = st.cache ∧
      ∃ l, (CreateShortURL urlPrefix st o owner dest "").2.log = st.log ++ l ∧
        l.count Call.randRead = 3 ∧
        ∀ c ∈ l, c = Call.randRead ∨ (∃ k, c = Call.redisExists k) ∨ ∃ k, c = Call.dbCount k := by
  have hloop := generateUniqueShortCode.loop_exhausted o.attempts 3 0 st
    (fun j _ hj => htaken j (by omega))
  have hframe := generateUniqueShortCode.loop_frame o.attempts 3 0 st
  have hres : CreateShortURL.resolveCode st o "" =
      generateUniqueShortCode.loop o.attempts 3 0 st := by
    unfold CreateShortURL.resolveCode generateUniqueShortCode
    simp
  unfold CreateShortURL
  rw [hres]
  rcases hl : generateUniqueShortCode.loop o.attempts 3 0 st with ⟨r, st1⟩
  rw [hl] at hloop hframe
  obtain ⟨hE, hlog⟩ := hloop
  simp only at hE
  subst hE
  exact ⟨rfl, hframe.1, hframe.2.1, hlog⟩

/-- Witness of C5: the store holds `AAAAAA` and all three draws give `AAAAAA`. -/
theorem C5_generation_exhausted_after_three_witness :
    (CreateShortURL "https://lynx.test/" stateAAAAAA calmCreate2 7
        "https://example.com/b" "").1 = .error .ErrGenerateShortCode ∧
      (CreateShortURL "https://lynx.test/" stateAAAAAA calmCreate2 7
        "https://example.com/b" "").2.db = stateAAAAAA.db ∧
      (CreateShortURL "https://lynx.test/" stateAAAAAA calmCreate2 7
        "https://example.com/b" "").2.cache = stateAAAAAA.cache ∧
      ∃ l, (CreateShortURL "https://lynx.test/" stateAAAAAA calmCreate2 7
          "https://example.com/b" "").2.log = stateAAAAAA.log ++ l ∧
        l.count Call.randRead = 3 ∧
        ∀ c ∈ l, c = Call.randRead ∨ (∃ k, c = Call.redisExists k) ∨ ∃ k, c = Call.dbCount k :=
  C5_generation_exhausted_after_three "https://lynx.test/" stateAAAAAA calmCreate2 7
    "https://example.com/b"
    (fun _ _ => ⟨"AAAAAA", rfl, Or.inl ⟨rfl, rfl⟩⟩)

/-- C6, as stated, fails: with a cache that does not answer the collision check, the generator
returns `AAAAAA` without error although the cache holds its mapping key; and when the store
does not answer either, it returns `AAAAAA` without error although the store holds its row. -/
theorem C6_returned_code_not_always_free :
    ((generateUniqueShortCode staleCacheState
        (fun _ => ⟨some [0, 0, 0, 0, 0, 0, 0, 0], cacheDown⟩)).1 = .ok "AAAAAA" ∧
      Redis.Get staleCacheState.cache (getCacheKey "AAAAAA") = some "https://example.com/a") ∧
    ((generateUniqueShortCode stateAAAAAA
        (fun _ => ⟨some [0, 0, 0, 0, 0, 0, 0, 0], outage⟩)).1 = .ok "AAAAAA" ∧
      rowAAAAAA ∈ stateAAAAAA.db ∧ rowAAAAAA.ShortURL = "AAAAAA") := by
  decide

/-- C6, amended: every code `generateUniqueShortCode` returns without error was drawn in one
of its three iterations and submitted to the collision check of that iteration, whose two
calls are the last the generator issued; when the cache answered that check the code was not
a cache mapping key, and when the store answered it the code had no row in the store. The
generator itself changes neither the store nor the cache. -/
theorem C6_returned_code_checked (st st' : State) (att : Nat → Attempt) (code : String)
    (h : generateUniqueShortCode st att = (.ok code, st')) :
    ∃ j, j < 3 ∧ generateShortCode (att j).entropy = .ok code ∧
      (∃ pre, st'.log = st.log ++ pre ++
        [Call.randRead, Call.redisExists (getCacheKey code), Call.dbCount code]) ∧
      ((att j).taken.existsErr = false → Redis.Get st.cache (getCacheKey code) = none) ∧
      ((att j).taken.countErr = false → ∀ r ∈ st.db, r.ShortURL ≠ code) ∧
      st'.db = st.db ∧ st'.cache = st.cache := by
  obtain ⟨j, -, h2, h3, h4, h5, h6, h7, h8, -⟩ :=
    generateUniqueShortCode.loop_ok 3 0 st st' code h
  exact ⟨j, by omega, h3, h4, h5, h6, h7, h8⟩

/-- Witness of C6 amended: the first draw gives `AAAAAA` on the empty state. -/
theorem C6_returned_code_checked_witness :
    ∃ j, j < 3 ∧ generateShortCode (calmCreate.attempts j).entropy = .ok "AAAAAA" ∧
      (∃ pre, (generateUniqueShortCode emptyState calmCreate.attempts).2.log =
        emptyState.log ++ pre ++
          [Call.randRead, Call.redisExists (getCacheKey "AAAAAA"), Call.dbCount "AAAAAA"]) ∧
      ((calmCreate.attempts j).taken.existsErr = false →
        Redis.Get emptyState.cache (getCacheKey "AAAAAA") = none) ∧
      ((calmCreate.attempts j).taken.countErr = false →
        ∀ r ∈ emptyState.db, r.ShortURL ≠ "AAAAAA") ∧
      (generateUniqueShortCode emptyState calmCreate.attempts).2.db = emptyState.db ∧
      (generateUniqueShortCode emptyState calmCreate.attempts).2.cache = emptyState.cache :=
  C6_returned_code_checked emptyState _ calmCreate.attempts "AAAAAA" (by decide)

/-- C7, as stated, fails: on the empty state the insert of the row for `mylink1` succeeds and
the cache write fails; `CreateShortURL` returns the error of the cache instead of the link,
the store holds no row afterwards, and the code does not resolve. -/
theorem C7_cache_write_failure_not_swallowed :
    DB.Create emptyState.db
        (CreateShortURL.newURL cacheWriteFails 7 "https://example.com/a" "mylink1") =
        some [CreateShortURL.newURL cacheWriteFails 7 "https://example.com/a" "mylink1"] ∧
      cacheWriteFails.createErr = false ∧ cacheWriteFails.setErr = true ∧
      (CreateShortURL "https://lynx.test/" emptyState cacheWriteFails 7
        "https://example.com/a" "mylink1").1 = .error .redisError ∧
      (CreateShortURL "https://lynx.test/" emptyState cacheWriteFails 7
        "https://example.com/a" "mylink1").2.db = [] ∧
      (GetLongURL (CreateShortURL "https://lynx.test/" emptyState cacheWriteFails 7
        "https://example.com/a" "mylink1").2 calmGet "mylink1").1 =
        ("", some .ErrURLNotFound) := by
  decide

/-- C7, amended: when `CreateShortURL` has resolved its code, the transaction begins, the
insert of the row succeeds and the cache write of the mapping fails, then `CreateShortURL`
returns the error of the cache and no link, the insert is rolled back with the transaction,
and the durable store and the cache are as they were before the call: the code has no row. -/
theorem C7_cache_write_failure_rolls_back (urlPrefix : String) (st st1 : State)
    (o : CreateOracle) (owner : Nat) (dest c code : String)
    (hres : CreateShortURL.resolveCode st o c = (.ok code, st1))
    (hbegin : o.beginErr = false) (hcreate : o.createErr = false)
    (hfresh : ∀ r ∈ st.db, r.ID ≠ o.id ∧ r.ShortURL ≠ code)
    (hset : o.setErr = true) :
    CreateShortURL urlPrefix st o owner dest c =
        (.error .redisError,
          (((st1.call Call.dbBegin).call
            (Call.dbCreate (CreateShortURL.newURL o owner dest code))).call
            (Call.redisSet (getCacheKey code) dest 86400)).call Call.dbRollback) ∧
      (CreateShortURL urlPrefix st o owner dest c).2.db = st.db ∧
      (CreateShortURL urlPrefix st o owner dest c).2.cache = st.cache ∧
      DB.First (CreateShortURL urlPrefix st o owner dest c).2.db code = none := by
  have hf := CreateShortURL.resolveCode_frame st o c
  rw [hres] at hf
  simp only at hf
  obtain ⟨-, p2, p3, p4⟩ :=
    CreateShortURL.persist_setErr urlPrefix st1 o owner dest code hset
  have hall : CreateShortURL urlPrefix st o owner dest c =
      CreateShortURL.persist urlPrefix st1 o owner dest code := by
    unfold CreateShortURL
    rw [hres]
  rw [hall]
  refine ⟨p4 hbegin hcreate (by rw [hf.1]; exact hfresh), p2.trans hf.1, p3.trans hf.2.1, ?_⟩
  rw [p2, hf.1]
  exact DB.First_eq_none_iff.mpr (fun r hr => (hfresh r hr).2)

/-- Witness of C7 amended: the custom code `mylink1` on a state that holds one other link,
with a failing cache write. -/
theorem C7_cache_write_failure_rolls_back_witness :
    CreateShortURL "https://lynx.test/" stateAAAAAA cacheWriteFails2 7
        "https://example.com/b" "mylink1" =
        (.error .redisError,
          { stateAAAAAA with
            log := [Call.redisExists "url:mylink1", Call.dbCount "mylink1", Call.dbBegin,
              Call.dbCreate (CreateShortURL.newURL cacheWriteFails2 7
                "https://example.com/b" "mylink1"),
              Call.redisSet "url:mylink1" "https://example.com/b" 86400,
              Call.dbRollback] }) ∧
      (CreateShortURL "https://lynx.test/" stateAAAAAA cacheWriteFails2 7
        "https://example.com/b" "mylink1").2.db = stateAAAAAA.db ∧
      (CreateShortURL "https://lynx.test/" stateAAAAAA cacheWriteFails2 7
        "https://example.com/b" "mylink1").2.cache = stateAAAAAA.cache ∧
      DB.First (CreateShortURL "https://lynx.test/" stateAAAAAA cacheWriteFails2 7
        "https://example.com/b" "mylink1").2.db "mylink1" = none :=
  C7_cache_write_failure_rolls_back "https://lynx.test/" stateAAAAAA
    { stateAAAAAA with log := [Call.redisExists "url:mylink1", Call.dbCount "mylink1"] }
    cacheWriteFails2 7 "https://example.com/b" "mylink1" "mylink1"
    (by decide) (by decide) (by decide) (by decide) (by decide)

/-- C8: for every row of a durable store with unique codes, `GetLongURL` of an argument that
normalizes to the code of the row returns the destination of the row and no error whenever
the cache lookup fails or misses and the store answers the query; this holds whether the
following cache update succeeds or fails, and the store is left unchanged. -/
theorem C8_resolve_falls_back_to_store (st : State) (g : GetOracle) (c : String) (r : URL)
    (huniq : UniqueCodes st.db) (hrow : r ∈ st.db)
    (hcode : strings.TrimPrefix c "urls/" = r.ShortURL)
    (hmiss : g.getErr = true ∨ Redis.Get st.cache (getCacheKey r.ShortURL) = none)
    (hstore : g.firstErr = false) :
    (GetLongURL st g c).1 = (r.LongURL, none) ∧ (GetLongURL st g c).2.db = st.db := by
  have hfirst := DB.First_of_unique huniq hrow
  refine ⟨GetLongURL_fallback hcode hmiss hstore hfirst, ?_⟩
  have hm : (if g.getErr = true then none else Redis.Get st.cache (getCacheKey r.ShortURL)) =
      none := by
    rcases hmiss with h | h
    · simp [h]
    · simp [h]
  unfold GetLongURL
  simp only [hcode, hm, hstore, hfirst, Bool.false_eq_true, if_false]
  split <;> rfl

/-- Witness of C8: the cache is unreachable for the lookup and for the update. -/
theorem C8_resolve_falls_back_to_store_witness :
    (GetLongURL stateAAAAAA ⟨true, false, true⟩ "AAAAAA").1 = (rowAAAAAA.LongURL, none) ∧
      (GetLongURL stateAAAAAA ⟨true, false, true⟩ "AAAAAA").2.db = stateAAAAAA.db :=
  C8_resolve_falls_back_to_store stateAAAAAA ⟨true, false, true⟩ "AAAAAA" rowAAAAAA
    (by decide) (by decide) (by decide) (by decide) (by decide)

/-- C9: when the code `GetLongURL` looks up (its argument without the prefix `urls/`) has
neither a cache mapping nor a row in the store, `GetLongURL` returns the empty destination
and an error, which is `ErrURLNotFound` whenever the store answers the query; it issues the
cache lookup and the query and nothing else, so it writes no cache mapping, and it starts no
click accounting. -/
theorem C9_unknown_code_not_found (st : State) (g : GetOracle) (c : String)
    (hcache : Redis.Get st.cache (getCacheKey (strings.TrimPrefix c "urls/")) = none)
    (hdb : ∀ r ∈ st.db, r.ShortURL ≠ strings.TrimPrefix c "urls/") :
    (∃ e, (GetLongURL st g c).1 = ("", some e)) ∧
      (g.firstErr = false → (GetLongURL st g c).1 = ("", some .ErrURLNotFound)) ∧
      (GetLongURL st g c).2 =
        { st with log := st.log ++ [Call.redisGet (getCacheKey (strings.TrimPrefix c "urls/")),
            Call.dbFirst (strings.TrimPrefix c "urls/")] } := by
  have hm : (if g.getErr = true then none
      else Redis.Get st.cache (getCacheKey (strings.TrimPrefix c "urls/"))) = none := by
    simp [hcache]
  have hfirst : DB.First st.db (strings.TrimPrefix c "urls/") = none :=
    DB.First_eq_none_iff.mpr hdb
  unfold GetLongURL
  simp only [hm, hfirst, State.call, List.append_assoc, List.cons_append, List.nil_append]
  cases g.firstErr with
  | true => exact ⟨⟨_, rfl⟩, fun h => absurd h (by decide), rfl⟩
  | false => exact ⟨⟨_, rfl⟩, fun _ => rfl, rfl⟩

/-- Witness of C9: the code `nosuch` on a state that holds one other link. -/
theorem C9_unknown_code_not_found_witness :
    (∃ e, (GetLongURL stateAAAAAA calmGet "nosuch").1 = ("", some e)) ∧
      (calmGet.firstErr = false →
        (GetLongURL stateAAAAAA calmGet "nosuch").1 = ("", some .ErrURLNotFound)) ∧
      (GetLongURL stateAAAAAA calmGet "nosuch").2 =
        { stateAAAAAA with
          log := stateAAAAAA.log ++
            [Call.redisGet (getCacheKey (strings.TrimPrefix "nosuch" "urls/")),
              Call.dbFirst (strings.TrimPrefix "nosuch" "urls/")] } :=
  C9_unknown_code_not_found stateAAAAAA calmGet "nosuch" (by decide) (by decide)

/-- C10, as stated, fails: the link with the code `AAAAAA` resolves, its lowercase fold
`aaaaaa` is not found. -/
theorem C10_lookup_is_case_sensitive :
    (GetLongURL stateAAAAAA calmGet "AAAAAA").1 = ("https://example.com/a", none) ∧
      (GetLongURL stateAAAAAA calmGet (strings.ToLower "AAAAAA")).1 =
        ("", some .ErrURLNotFound) := by
  decide

/-- C10, amended: `GetLongURL` normalizes its argument by removing one leading `urls/` and
nothing else; for every code, store, cache and oracle, `GetLongURL` of `urls/` followed by
the code returns the same destination and error, and leaves the same state, as `GetLongURL`
of the code, provided the code does not itself start with `urls/`. -/
theorem C10_strips_path_prefix_only (st : State) (g : GetOracle) (c : String)
    (hc : "urls/".data.isPrefixOf c.data = false) :
    GetLongURL st g ("urls/" ++ c) = GetLongURL st g c := by
  apply GetLongURL_congr
  rw [TrimPrefix_urls_append]
  unfold strings.TrimPrefix
  simp [hc]

/-- Witness of C10 amended: `urls/AAAAAA` and `AAAAAA`. -/
theorem C10_strips_path_prefix_only_witness :
    GetLongURL stateAAAAAA calmGet ("urls/" ++ "AAAAAA") =
      GetLongURL stateAAAAAA calmGet "AAAAAA" :=
  C10_strips_path_prefix_only stateAAAAAA calmGet "AAAAAA" (by decide)

/-- C11, as stated, fails for the normalization of `GetLongURL`: from `urls/urls/x` it gives
`urls/x`, and from that `x`. -/
theorem C11_prefix_stripping_not_idempotent :
    strings.TrimPrefix "urls/urls/x" "urls/" = "urls/x" ∧
      strings.TrimPrefix (strings.TrimPrefix "urls/urls/x" "urls/") "urls/" = "x" ∧
      strings.TrimPrefix (strings.TrimPrefix "urls/urls/x" "urls/") "urls/" ≠
        strings.TrimPrefix "urls/urls/x" "urls/" := by
  decide

/-- C11, amended: the case fold `CreateShortURL` applies to a custom code is idempotent on
every string; the prefix removal `GetLongURL` applies to its argument is idempotent on
exactly the strings whose stripped form does not begin with `urls/` again, which includes
every code of the charset: such a code is its own stripped form. -/
theorem C11_normalization_idempotent (s : String) :
    strings.ToLower (strings.ToLower s) = strings.ToLower s ∧
      (strings.TrimPrefix (strings.TrimPrefix s "urls/") "urls/" = strings.TrimPrefix s "urls/" ↔
        "urls/".data.isPrefixOf (strings.TrimPrefix s "urls/").data = false) ∧
      ((∀ x ∈ s.data, isCodeChar x = true) →
        strings.TrimPrefix s "urls/" = s ∧
          strings.TrimPrefix (strings.TrimPrefix s "urls/") "urls/" =
            strings.TrimPrefix s "urls/") := by
  refine ⟨ToLower_idempotent s, TrimPrefix_eq_self_iff _, ?_⟩
  intro hall
  have hs : strings.TrimPrefix s "urls/" = s :=
    TrimPrefix_urls_of_no_slash (fun hin => by
      have := hall _ hin
      revert this
      decide)
  exact ⟨hs, by rw [hs, hs]⟩

/-- C12: after `DeleteURL` returned no error for the id of a link with code `c`, in a store with
unique ids and unique codes, the store has no row with code `c`, the cache holds neither the
mapping key nor the click-counter key of `c`, and a following `GetLongURL` of `c` (a code that
does not start with `urls/`) fails with `ErrURLNotFound` whenever the store answers. -/
theorem C12_delete_then_not_found (st st' : State) (o : DeleteOracle) (g : GetOracle)
    (owner urlID : Nat) (r : URL)
    (hcodes : UniqueCodes st.db) (hids : UniqueIDs st.db) (hr : r ∈ st.db)
    (hid : r.ID = urlID)
    (hnorm : strings.TrimPrefix r.ShortURL "urls/" = r.ShortURL)
    (hdel : DeleteURL st o owner urlID = (none, st'))
    (hstore : g.firstErr = false) :
    (∀ r' ∈ st'.db, r'.ShortURL ≠ r.ShortURL) ∧
      Redis.Get st'.cache (getCacheKey r.ShortURL) = none ∧
      Redis.Get st'.cache (getClicksKey r.ShortURL) = none ∧
      (GetLongURL st' g r.ShortURL).1 = ("", some .ErrURLNotFound) := by
  obtain ⟨url, hfound, hdb, hcache, -⟩ := DeleteURL_ok hdel
  have huniq := DB.FirstByIDUser_of_unique hids hr owner
  rw [hid, hfound] at huniq
  have hurl : url = r := by
    by_cases ho : r.UserID = owner
    · rw [if_pos ho] at huniq
      exact Option.some.inj huniq
    · rw [if_neg ho] at huniq
      cases huniq
  subst hurl
  have hgone : ∀ r' ∈ st'.db, r'.ShortURL ≠ url.ShortURL := by
    rw [hdb]
    exact DB.Delete_code_gone hcodes hr
  have hmap : Redis.Get st'.cache (getCacheKey url.ShortURL) = none := by
    rw [hcache]
    exact Redis.Get_Del_of_mem (by simp)
  have hclicks : Redis.Get st'.cache (getClicksKey url.ShortURL) = none := by
    rw [hcache]
    exact Redis.Get_Del_of_mem (by simp)
  refine ⟨hgone, hmap, hclicks, ?_⟩
  exact GetLongURL_unknown (by rw [hnorm]; exact hgone) (Or.inr (by rw [hnorm]; exact hmap))
    hstore

/-- Witness of C12: the owner deletes the link `AAAAAA`, whose counter is in the cache. -/
theorem C12_delete_then_not_found_witness :
    (∀ r' ∈ (DeleteURL stateClicked calmDelete 7 1).2.db, r'.ShortURL ≠ rowAAAAAA.ShortURL) ∧
      Redis.Get (DeleteURL stateClicked calmDelete 7 1).2.cache
        (getCacheKey rowAAAAAA.ShortURL) = none ∧
      Redis.Get (DeleteURL stateClicked calmDelete 7 1).2.cache
        (getClicksKey rowAAAAAA.ShortURL) = none ∧
      (GetLongURL (DeleteURL stateClicked calmDelete 7 1).2 calmGet rowAAAAAA.ShortURL).1 =
        ("", some .ErrURLNotFound) :=
  C12_delete_then_not_found stateClicked _ calmDelete calmGet 7 1 rowAAAAAA
    (by decide) (by decide) (by decide) (by decide) (by decide) (by decide) (by decide)

/-- C13: `DeleteURL` called for the id of a link with a user who is not its owner, in a store
with unique ids, returns an error and mutates nothing: the rows of the store and the entries of
the cache are the same after the call as before, and the only calls issued are the begin of
the transaction, the lookup by id and owner, and the rollback. -/
theorem C13_delete_by_non_owner_mutates_nothing (st : State) (o : DeleteOracle)
    (user urlID : Nat) (r : URL)
    (hids : UniqueIDs st.db) (hr : r ∈ st.db) (hid : r.ID = urlID)
    (howner : r.UserID ≠ user) :
    (∃ e, (DeleteURL st o user urlID).1 = some e) ∧
      (DeleteURL st o user urlID).2.db = st.db ∧
      (DeleteURL st o user urlID).2.cache = st.cache ∧
      ((DeleteURL st o user urlID).2.log = st.log ++ [Call.dbBegin] ∨
        (DeleteURL st o user urlID).2.log =
          st.log ++ [Call.dbBegin, Call.dbFirstByIDUser urlID user, Call.dbRollback]) := by
  have hnone : DB.FirstByIDUser st.db urlID user = none := by
    have := DB.FirstByIDUser_of_unique hids hr user
    rw [hid, if_neg howner] at this
    exact this
  obtain ⟨⟨e, he, -⟩, -, hdb, hcache, -, hlog⟩ := DeleteURL_not_found o hnone
  exact ⟨⟨e, he⟩, hdb, hcache, hlog⟩

/-- Witness of C13: user 8 asks for the deletion of the link of user 7. -/
theorem C13_delete_by_non_owner_mutates_nothing_witness :
    (∃ e, (DeleteURL stateClicked calmDelete 8 1).1 = some e) ∧
      (DeleteURL stateClicked calmDelete 8 1).2.db = stateClicked.db ∧
      (DeleteURL stateClicked calmDelete 8 1).2.cache = stateClicked.cache ∧
      ((DeleteURL stateClicked calmDelete 8 1).2.log = stateClicked.log ++ [Call.dbBegin] ∨
        (DeleteURL stateClicked calmDelete 8 1).2.log =
          stateClicked.log ++ [Call.dbBegin, Call.dbFirstByIDUser 1 8, Call.dbRollback]) :=
  C13_delete_by_non_owner_mutates_nothing stateClicked calmDelete 8 1 rowAAAAAA
    (by decide) (by decide) (by decide) (by decide)

/-- C14, as stated, fails: for the link of user 7, `DeleteURL` and `UpdateURL` called by user 8
fail with `ErrURLNotFound`, not with `ErrUnauthorized`. -/
theorem C14_non_owner_gets_not_found :
    rowAAAAAA ∈ stateAAAAAA.db ∧ rowAAAAAA.ID = 1 ∧ rowAAAAAA.UserID = 7 ∧
      (DeleteURL stateAAAAAA calmDelete 8 1).1 = some .ErrURLNotFound ∧
      (DeleteURL stateAAAAAA calmDelete 8 1).1 ≠ some .ErrUnauthorized ∧
      (UpdateURL "https://lynx.test/" stateAAAAAA calmUpdate 8 1 "https://example.com/b").1 =
        .error .ErrURLNotFound ∧
      (UpdateURL "https://lynx.test/" stateAAAAAA calmUpdate 8 1 "https://example.com/b").1 ≠
        .error .ErrUnauthorized := by
  decide

/-- C14, amended: `DeleteURL` and `UpdateURL` called on a link that exists but belongs to a
different owner, in a store with unique ids, never fail with `ErrUnauthorized`; whenever the
store answers the lookup they fail with `ErrURLNotFound`, the error of an id without row. -/
theorem C14_non_owner_is_not_found (urlPrefix : String) (st : State) (od : DeleteOracle)
    (ou : UpdateOracle) (user urlID : Nat) (longURL : String) (r : URL)
    (hids : UniqueIDs st.db) (hr : r ∈ st.db) (hid : r.ID = urlID)
    (howner : r.UserID ≠ user) :
    (DeleteURL st od user urlID).1 ≠ some .ErrUnauthorized ∧
      (UpdateURL urlPrefix st ou user urlID longURL).1 ≠ .error .ErrUnauthorized ∧
      (od.beginErr = false ∧ od.firstErr = false →
        (DeleteURL st od user urlID).1 = some .ErrURLNotFound) ∧
      (ou.beginErr = false ∧ ou.firstErr = false →
        (UpdateURL urlPrefix st ou user urlID longURL).1 = .error .ErrURLNotFound) := by
  have hnone : DB.FirstByIDUser st.db urlID user = none := by
    have := DB.FirstByIDUser_of_unique hids hr user
    rw [hid, if_neg howner] at this
    exact this
  obtain ⟨⟨e, he, hne⟩, hd, -⟩ := DeleteURL_not_found od hnone
  obtain ⟨⟨e', he', hne'⟩, hu, -⟩ :=
    UpdateURL_not_found urlPrefix ou longURL hnone
  refine ⟨?_, ?_, hd, hu⟩
  · rw [he]
    intro h
    exact hne (Option.some.inj h)
  · rw [he']
    intro h
    exact hne' (Except.error.inj h)

/-- Witness of C14 amended: user 8 and the link of user 7. -/
theorem C14_non_owner_is_not_found_witness :
    (DeleteURL stateAAAAAA calmDelete 8 1).1 ≠ some .ErrUnauthorized ∧
      (UpdateURL "https://lynx.test/" stateAAAAAA calmUpdate 8 1 "https://example.com/b").1 ≠
        .error .ErrUnauthorized ∧
      (calmDelete.beginErr = false ∧ calmDelete.firstErr = false →
        (DeleteURL stateAAAAAA calmDelete 8 1).1 = some .ErrURLNotFound) ∧
      (calmUpdate.beginErr = false ∧ calmUpdate.firstErr = false →
        (UpdateURL "https://lynx.test/" stateAAAAAA calmUpdate 8 1
          "https://example.com/b").1 = .error .ErrURLNotFound) :=
  C14_non_owner_is_not_found "https://lynx.test/" stateAAAAAA calmDelete calmUpdate 8 1
    "https://example.com/b" rowAAAAAA (by decide) (by decide) (by decide) (by decide)

/-- C15, as stated, fails: the owner deletes the link `AAAAAA`, the lookup and the delete
succeed and the cleanup of the cache fails; `DeleteURL` returns the error of the cache and the
row is still in the store. -/
theorem C15_failed_cleanup_keeps_row :
    cleanupFails.beginErr = false ∧ cleanupFails.firstErr = false ∧
      cleanupFails.deleteErr = false ∧ cleanupFails.pipeErr = true ∧
      (DeleteURL stateClicked cleanupFails 7 1).1 = some .redisError ∧
      rowAAAAAA ∈ (DeleteURL stateClicked cleanupFails 7 1).2.db ∧
      Call.dbDelete 1 ∈ (DeleteURL stateClicked cleanupFails 7 1).2.log := by
  decide

/-- C15, amended: when the owner's `DeleteURL` passes the lookup by id and owner and the
delete, and the cleanup of the mapping and counter keys fails, `DeleteURL` returns the error
of the cache and the transaction is rolled back: the row is still in the store, and store
and cache are as they were before the call. -/
theorem C15_failed_cleanup_rolls_back (st : State) (o : DeleteOracle) (owner urlID : Nat)
    (r : URL) (hids : UniqueIDs st.db) (hr : r ∈ st.db) (hid : r.ID = urlID)
    (howner : r.UserID = owner)
    (hbegin : o.beginErr = false) (hfirst : o.firstErr = false)
    (hdelete : o.deleteErr = false) (hpipe : o.pipeErr = true) :
    DeleteURL st o owner urlID =
        (some .redisError,
          { st with
            log := st.log ++ [Call.dbBegin, Call.dbFirstByIDUser urlID owner,
              Call.dbDelete r.ID,
              Call.redisDel [getCacheKey r.ShortURL, getClicksKey r.ShortURL],
              Call.dbRollback] }) ∧
      r ∈ (DeleteURL st o owner urlID).2.db := by
  have hfound : DB.FirstByIDUser st.db urlID owner = some r := by
    have := DB.FirstByIDUser_of_unique hids hr owner
    rw [hid, if_pos howner] at this
    exact this
  have hall : DeleteURL st o owner urlID =
      (some .redisError,
        { st with
          log := st.log ++ [Call.dbBegin, Call.dbFirstByIDUser urlID owner,
            Call.dbDelete r.ID,
            Call.redisDel [getCacheKey r.ShortURL, getClicksKey r.ShortURL],
            Call.dbRollback] }) := by
    unfold DeleteURL
    simp only [State.call, hfound, hbegin, hfirst, hdelete, hpipe, Bool.false_eq_true,
      if_false, if_true, List.append_assoc, List.cons_append, List.nil_append]
  rw [hall]
  exact ⟨rfl, hr⟩

/-- Witness of C15 amended: the owner deletes `AAAAAA` while the cache is unreachable. -/
theorem C15_failed_cleanup_rolls_back_witness :
    DeleteURL stateClicked cleanupFails 7 1 =
        (some .redisError,
          { stateClicked with
            log := stateClicked.log ++ [Call.dbBegin, Call.dbFirstByIDUser 1 7,
              Call.dbDelete rowAAAAAA.ID,
              Call.redisDel [getCacheKey rowAAAAAA.ShortURL, getClicksKey rowAAAAAA.ShortURL],
              Call.dbRollback] }) ∧
      rowAAAAAA ∈ (DeleteURL stateClicked cleanupFails 7 1).2.db :=
  C15_failed_cleanup_rolls_back stateClicked cleanupFails 7 1 rowAAAAAA
    (by decide) (by decide) (by decide) (by decide) (by decide) (by decide) (by decide)
    (by decide)

/-- C16: what `GetLongURL` returns does not depend on the click accounting. The calls it
issues itself are the cache lookup, the query and the cache update, so the accounting it
starts has not run when it returns; and for every code, store, cache and oracle, a
click-accounting run that ended before the call leaves the destination and the error of
`GetLongURL` as they are without it, whether its cache increment and its durable increment
succeeded or failed, so two runs that differ in those outcomes only return the same pair. -/
theorem C16_resolve_independent_of_accounting (st : State) (g : GetOracle)
    (c code : String) (o1 o2 : IncrOracle) :
    (GetLongURL (incrementClickCount st o1 code) g c).1 = (GetLongURL st g c).1 ∧
      (GetLongURL (incrementClickCount st o1 code) g c).1 =
        (GetLongURL (incrementClickCount st o2 code) g c).1 ∧
      ∃ l, (GetLongURL st g c).2.log = st.log ++ l ∧
        ∀ call ∈ l, (∃ k, call = Call.redisGet k) ∨ (∃ k, call = Call.dbFirst k) ∨
          ∃ k v t, call = Call.redisSet k v t := by
  refine ⟨GetLongURL_after_increment st o1 g code c, ?_, GetLongURL_log st g c⟩
  rw [GetLongURL_after_increment st o1 g code c, GetLongURL_after_increment st o2 g code c]

/-- C17: a click-accounting run whose pipeline reaches the cache and whose `INCR` succeeds
leaves the click counter of the code exactly one higher than before, a missing counter
counting as 0, with a time to live of 30 days (2592000 seconds); every other cache key keeps
its entry. -/
theorem C17_cache_counter_incremented (st : State) (o : IncrOracle) (code : String)
    (old : Int) (hpipe : o.pipeErr = false)
    (hold : (Redis.Get st.cache (getClicksKey code) = none ∧ old = 0) ∨
      ∃ s, Redis.Get st.cache (getClicksKey code) = some s ∧ Redis.string2ll s = some old)
    (hrange : old + 1 ≤ 2 ^ 63 - 1) :
    Redis.Get (incrementClickCount st o code).cache (getClicksKey code) =
        some (strconv.FormatInt (old + 1)) ∧
      Redis.string2ll (strconv.FormatInt (old + 1)) = some (old + 1) ∧
      ((incrementClickCount st o code).cache.lookup (getClicksKey code)).map CacheEntry.ttl =
        some (some 2592000) ∧
      ∀ k, k ≠ getClicksKey code →
        (incrementClickCount st o code).cache.lookup k = st.cache.lookup k := by
  have hold' : (st.cache.lookup (getClicksKey code) = none ∧ old = 0) ∨
      ∃ e, st.cache.lookup (getClicksKey code) = some e ∧
        Redis.string2ll e.value = some old := by
    unfold Redis.Get at hold
    rcases hold with ⟨h1, h2⟩ | ⟨s, h1, h2⟩
    · left
      cases hl : st.cache.lookup (getClicksKey code) with
      | none => exact ⟨rfl, h2⟩
      | some e => rw [hl] at h1; cases h1
    · right
      cases hl : st.cache.lookup (getClicksKey code) with
      | none => rw [hl] at h1; cases h1
      | some e =>
        rw [hl] at h1
        simp only [Option.map_some', Option.some.injEq] at h1
        exact ⟨e, rfl, by rw [h1]; exact h2⟩
  have hlo : -(2 : Int) ^ 63 ≤ old := by
    rcases hold' with ⟨-, rfl⟩ | ⟨e, -, hv⟩
    · norm_num
    · exact (ParseInt_range (string2ll_eq_some hv).1).1
  obtain ⟨cache1, e1, hinc, hl1, hv1⟩ := Redis.Incr_value hold' hrange
  obtain ⟨hcache, -, -⟩ := incrementClickCount_cache_of_incr hpipe hinc
  have hlook : (incrementClickCount st o code).cache.lookup (getClicksKey code) =
      some ⟨e1.value, some 2592000⟩ := by
    rw [hcache, Redis.Expire_lookup, if_pos rfl, hl1]
    rfl
  refine ⟨?_, ?_, ?_, ?_⟩
  · unfold Redis.Get
    rw [hlook, ← hv1]
    rfl
  · exact string2ll_FormatInt _ (by linarith) (by linarith)
  · rw [hlook]
    rfl
  · intro k hk
    exact incrementClickCount_cache_frame st o code k hk

/-- Witness of C17: the counter of `AAAAAA` goes from 41 to 42. -/
theorem C17_cache_counter_incremented_witness :
    Redis.Get (incrementClickCount stateClicked calmIncr "AAAAAA").cache
        (getClicksKey "AAAAAA") = some (strconv.FormatInt (41 + 1)) ∧
      Redis.string2ll (strconv.FormatInt (41 + 1)) = some (41 + 1) ∧
      ((incrementClickCount stateClicked calmIncr "AAAAAA").cache.lookup
        (getClicksKey "AAAAAA")).map CacheEntry.ttl = some (some 2592000) ∧
      ∀ k, k ≠ getClicksKey "AAAAAA" →
        (incrementClickCount stateClicked calmIncr "AAAAAA").cache.lookup k =
          stateClicked.cache.lookup k :=
  C17_cache_counter_incremented stateClicked calmIncr "AAAAAA" 41 (by decide)
    (Or.inr ⟨"41", by decide, by decide⟩) (by decide)

/-- C18, as stated, fails: a click-accounting run whose pipeline does not reach the cache
returns before the durable increment; the `clicks` column of the row is unchanged and no
update of the table was issued. -/
theorem C18_no_durable_increment_after_cache_failure :
    (incrementClickCount stateAAAAAA cacheDownIncr "AAAAAA").db = stateAAAAAA.db ∧
      Call.dbUpdateClicks "AAAAAA" ∉ (incrementClickCount stateAAAAAA cacheDownIncr "AAAAAA").log ∧
      (incrementClickCount stateAAAAAA calmIncr "AAAAAA").db =
        [{ rowAAAAAA with Clicks := 1 }] := by
  decide

/-- C18, amended: a click-accounting run whose cache step succeeds (the pipeline reaches the
cache and `INCR` reports no error) issues the durable increment once, which adds one to the
`clicks` column of the rows with that code when the store accepts it; a run whose cache step
fails returns without issuing it and leaves the store unchanged. -/
theorem C18_durable_increment_follows_cache_step (st : State) (o : IncrOracle)
    (code : String) :
    (o.pipeErr = false ∧ (Redis.Incr st.cache (getClicksKey code)).isSome = true →
        (incrementClickCount st o code).log = st.log ++
            [Call.redisIncr (getClicksKey code),
              Call.redisExpire (getClicksKey code) 2592000, Call.dbUpdateClicks code] ∧
          (o.updateErr = false →
            (∀ r ∈ st.db, r.ShortURL = code → r.Clicks + 1 ≤ 2 ^ 63 - 1) →
            (incrementClickCount st o code).db =
              st.db.map (fun r =>
                if r.ShortURL == code then { r with Clicks := r.Clicks + 1 } else r))) ∧
      (¬ (o.pipeErr = false ∧ (Redis.Incr st.cache (getClicksKey code)).isSome = true) →
        (incrementClickCount st o code).log = st.log ++
            [Call.redisIncr (getClicksKey code),
              Call.redisExpire (getClicksKey code) 2592000] ∧
          (incrementClickCount st o code).db = st.db) := by
  refine ⟨?_, incrementClickCount_of_cache_failure⟩
  rintro ⟨hpipe, hsome⟩
  cases hinc : Redis.Incr st.cache (getClicksKey code) with
  | none => rw [hinc] at hsome; cases hsome
  | some cache1 =>
    obtain ⟨-, hlog, hdb⟩ := incrementClickCount_cache_of_incr hpipe hinc
    refine ⟨hlog, ?_⟩
    intro hupd hrange
    rw [hdb, hupd, DB.UpdateClicks_of_range hrange]
    rfl

/-- C19: for every row of a store with unique ids and a store that answers, `GetURLStats` of
the id of the row reports as `TotalClicks` the click counter of the code of the row in the
cache when the cache answers with a value that reads as an integer, and the `clicks` column
of the row otherwise; for an id without row it fails with `ErrURLNotFound`. -/
theorem C19_stats_prefer_cache_counter (st : State) (o : StatsOracle) (r : URL)
    (hids : UniqueIDs st.db) (hr : r ∈ st.db) (hstore : o.firstErr = false) :
    (∀ s n, o.getErr = false → Redis.Get st.cache (getClicksKey r.ShortURL) = some s →
        strconv.ParseInt s = some n →
        (GetURLStats st o r.ID).1 = .ok { TotalClicks := n, LastAccessedAt := r.UpdatedAt }) ∧
      ((o.getErr = true ∨ Redis.Get st.cache (getClicksKey r.ShortURL) = none ∨
          ∃ s, Redis.Get st.cache (getClicksKey r.ShortURL) = some s ∧
            strconv.ParseInt s = none) →
        (GetURLStats st o r.ID).1 =
          .ok { TotalClicks := r.Clicks, LastAccessedAt := r.UpdatedAt }) ∧
      ∀ urlID, (∀ r' ∈ st.db, r'.ID ≠ urlID) →
        (GetURLStats st o urlID).1 = .error .ErrURLNotFound := by
  have hfirst := DB.FirstByID_of_unique hids hr
  refine ⟨?_, ?_, ?_⟩
  · intro s n hget hval hparse
    unfold GetURLStats
    simp only [hstore, hfirst, hget, hval, hparse, Bool.false_eq_true, if_false,
      Option.some_bind]
  · intro h
    have hnone : (if o.getErr = true then none
        else Redis.Get st.cache (getClicksKey r.ShortURL)).bind strconv.ParseInt = none := by
      rcases h with h | h | ⟨s, h1, h2⟩
      · simp [h]
      · simp [h]
      · cases o.getErr <;> simp [h1, h2]
    unfold GetURLStats
    simp only [hstore, hfirst, hnone, Bool.false_eq_true, if_false]
  · intro urlID hno
    unfold GetURLStats
    simp only [hstore, DB.FirstByID_eq_none hno, Bool.false_eq_true, if_false]

/-- Witness of C19: the link `AAAAAA` with a cache counter of 41 and a `clicks` column of 0. -/
theorem C19_stats_prefer_cache_counter_witness :
    (∀ s n, calmStats.getErr = false →
        Redis.Get stateClicked.cache (getClicksKey rowAAAAAA.ShortURL) = some s →
        strconv.ParseInt s = some n →
        (GetURLStats stateClicked calmStats rowAAAAAA.ID).1 =
          .ok { TotalClicks := n, LastAccessedAt := rowAAAAAA.UpdatedAt }) ∧
      ((calmStats.getErr = true ∨
          Redis.Get stateClicked.cache (getClicksKey rowAAAAAA.ShortURL) = none ∨
          ∃ s, Redis.Get stateClicked.cache (getClicksKey rowAAAAAA.ShortURL) = some s ∧
            strconv.ParseInt s = none) →
        (GetURLStats stateClicked calmStats rowAAAAAA.ID).1 =
          .ok { TotalClicks := rowAAAAAA.Clicks, LastAccessedAt := rowAAAAAA.UpdatedAt }) ∧
      ∀ urlID, (∀ r' ∈ stateClicked.db, r'.ID ≠ urlID) →
        (GetURLStats stateClicked calmStats urlID).1 = .error .ErrURLNotFound :=
  C19_stats_prefer_cache_counter stateClicked calmStats rowAAAAAA (by decide) (by decide)
    (by decide)

/-- C20: whenever the entropy source delivers, `generateShortCode` returns a string of exactly
six characters, each of the class `[A-Za-z0-9_-]` and none the padding character `=`; the
encoding of the eight bytes has twelve characters, so the cut at six is in range. -/
theorem C20_generated_code_shape (bs : List Nat) :
    ∃ code, generateShortCode (some bs) = .ok code ∧ code.data.length = 6 ∧
      (∀ c ∈ code.data, isCodeChar c = true ∧ c ≠ '=') ∧
      (base64.URLEncoding.EncodeToString (fillBytes 8 bs)).length = 12 := by
  obtain ⟨h12, h6, hall⟩ := EncodeToString_eight (fillBytes 8 bs) (fillBytes_length 8 bs)
  refine ⟨⟨(base64.URLEncoding.EncodeToString (fillBytes 8 bs)).take 6⟩, rfl, h6, ?_, h12⟩
  intro c hc
  have hcc := hall c hc
  refine ⟨hcc, ?_⟩
  rintro rfl
  revert hcc
  decide

/-- C21, as stated, fails: on the empty state `CreateShortURL` with an empty custom code and a
draw of eight zero bytes persists the code `AAAAAA`, which is not its own lowercase fold. -/
theorem C21_generated_code_not_lowercase :
    (CreateShortURL "https://lynx.test/" emptyState calmCreate 7 "https://example.com/a" "").2.db =
        [rowAAAAAA] ∧
      rowAAAAAA.ShortURL = "AAAAAA" ∧
      strings.ToLower rowAAAAAA.ShortURL ≠ rowAAAAAA.ShortURL := by
  decide

/-- C21, amended: every short code `CreateShortURL` persists consists only of characters of
`[A-Za-z0-9_-]`; a caller-supplied code is persisted as its lowercase fold, which equals its
own fold; a generated code is persisted as drawn, six characters of the URL-safe base64
alphabet, upper case included. -/
theorem C21_persisted_code_shape (urlPrefix : String) (st st' : State) (o : CreateOracle)
    (owner : Nat) (dest c : String) (url : URL)
    (hcreate : CreateShortURL urlPrefix st o owner dest c = (.ok url, st')) :
    ∃ code, st'.db = st.db ++ [{ url with ShortURL := code }] ∧
      (∀ x ∈ code.data, isCodeChar x = true) ∧
      (c ≠ "" → code = strings.ToLower c ∧ strings.ToLower code = code) ∧
      (c = "" → code.data.length = 6 ∧
        ∃ j, j < 3 ∧ generateShortCode (o.attempts j).entropy = .ok code) := by
  obtain ⟨code, -, -, -, h4, -, -, h7, h8⟩ := CreateShortURL_ok hcreate
  refine ⟨code, h4, ?_, ?_, ?_⟩
  · by_cases hc : c = ""
    · obtain ⟨j, -, hj⟩ := h8 hc
      exact (generateShortCode_shape hj).2
    · obtain ⟨hm, rfl⟩ := h7 hc
      exact ToLower_codeChars hm
  · intro hc
    obtain ⟨-, rfl⟩ := h7 hc
    exact ⟨rfl, ToLower_idempotent c⟩
  · intro hc
    obtain ⟨j, hj3, hj⟩ := h8 hc
    exact ⟨(generateShortCode_shape hj).1, j, hj3, hj⟩

/-- Witness of C21 amended: the custom code `MyLink1` on a state that holds one other link. -/
theorem C21_persisted_code_shape_witness :
    ∃ code, (CreateShortURL "https://lynx.test/" stateAAAAAA calmCreate2 7
        "https://example.com/a" "MyLink1").2.db =
        stateAAAAAA.db ++
          [{ ({ ID := 2, UserID := 7, LongURL := "https://example.com/a",
                ShortURL := "https://lynx.test/urls/mylink1", Clicks := 0,
                CreatedAt := 1700000100, UpdatedAt := 1700000100 } : URL) with
             ShortURL := code }] ∧
      (∀ x ∈ code.data, isCodeChar x = true) ∧
      ("MyLink1" ≠ "" → code = strings.ToLower "MyLink1" ∧ strings.ToLower code = code) ∧
      ("MyLink1" = "" → code.data.length = 6 ∧
        ∃ j, j < 3 ∧ generateShortCode (calmCreate2.attempts j).entropy = .ok code) :=
  C21_persisted_code_shape "https://lynx.test/" stateAAAAAA _ calmCreate2 7
    "https://example.com/a" "MyLink1"
    { ID := 2, UserID := 7, LongURL := "https://example.com/a",
      ShortURL := "https://lynx.test/urls/mylink1", Clicks := 0,
      CreatedAt := 1700000100, UpdatedAt := 1700000100 }
    (by decide)

/-- C22: in every state reachable from the empty store by calls of the service (creations,
updates and deletions, and also resolutions, click-accounting runs and cache expiry, each
with any of its faults), no two rows have the same short code, nor the same id; and
`UpdateURL`, whatever its outcome, leaves the id and the short code of every row as they
were. -/
theorem C22_codes_unique_and_fixed (ops : List Op) :
    UniqueCodes (run emptyState ops).db ∧ UniqueIDs (run emptyState ops).db ∧
      ∀ (urlPrefix : String) (o : UpdateOracle) (userID urlID : Nat) (longURL : String),
        (UpdateURL urlPrefix (run emptyState ops) o userID urlID longURL).2.db.map
            (fun r => (r.ID, r.ShortURL)) =
          (run emptyState ops).db.map (fun r => (r.ID, r.ShortURL)) := by
  have h := run_unique ops emptyState ⟨List.nodup_nil, List.nodup_nil⟩
  exact ⟨h.1, h.2, fun urlPrefix o userID urlID longURL =>
    UpdateURL_map (fun r => (r.ID, r.ShortURL)) (fun _ _ _ => rfl) urlPrefix _ o userID urlID
      longURL h.2⟩

/-- C23: the cache keys of the four logical domains never collide: for all short codes `a`,
`b`, `c` and every user id `u`, the mapping key, the click-counter key, the QR-code key and
the session key are pairwise different strings; and each key function is injective in its
argument, the session key in the 128 bits of the UUID. -/
theorem C23_cache_keys_disjoint_and_injective (a b c : String) (u : Nat) :
    (getCacheKey a ≠ getClicksKey b ∧ getCacheKey a ≠ getQRCodeKey c ∧
        getCacheKey a ≠ getUserSessionKey u ∧ getClicksKey b ≠ getQRCodeKey c ∧
        getClicksKey b ≠ getUserSessionKey u ∧ getQRCodeKey c ≠ getUserSessionKey u) ∧
      (∀ a', getCacheKey a = getCacheKey a' → a = a') ∧
      (∀ b', getClicksKey b = getClicksKey b' → b = b') ∧
      (∀ c', getQRCodeKey c = getQRCodeKey c' → c = c') ∧
      (∀ u', getUserSessionKey u = getUserSessionKey u' → u % 2 ^ 128 = u' % 2 ^ 128) := by
  have first : ∀ {s t : String} {x y : Char} {k k' : List Char},
      s.data = x :: k → t.data = y :: k' → x ≠ y → s ≠ t := by
    intro s t x y k k' hs ht hxy heq
    rw [heq, ht] at hs
    injection hs with h1 _
    exact hxy h1.symm
  have hurl : (getCacheKey a).data = 'u' :: ('r' :: 'l' :: ':' :: a.data) := by
    simp [getCacheKey, String.data_append]
  have hclicks : (getClicksKey b).data =
      'c' :: ('l' :: 'i' :: 'c' :: 'k' :: 's' :: ':' :: b.data) := by
    simp [getClicksKey, String.data_append]
  have hqr : (getQRCodeKey c).data = 'q' :: ('r' :: ':' :: c.data) := by
    simp [getQRCodeKey, String.data_append]
  have hsess : (getUserSessionKey u).data =
      's' :: ('e' :: 's' :: 's' :: 'i' :: 'o' :: 'n' :: ':' :: (uuid.String u).data) := by
    simp [getUserSessionKey, String.data_append]
  refine ⟨⟨first hurl hclicks (by decide), first hurl hqr (by decide),
    first hurl hsess (by decide), first hclicks hqr (by decide),
    first hclicks hsess (by decide), first hqr hsess (by decide)⟩, ?_, ?_, ?_, ?_⟩
  · intro a' h
    exact String.append_left_cancel h
  · intro b' h
    exact String.append_left_cancel h
  · intro c' h
    exact String.append_left_cancel h
  · intro u' h
    exact uuid.String_inj u u' (String.append_left_cancel h)

/-- C24, as stated, fails: the different prefixes `a` and `a:b` address the same backing key
`a:b:c`, the first for the key `b:c` and the second for the key `c`. -/
theorem C24_prefixes_can_collide :
    ("a" : String) ≠ "a:b" ∧
      RedisCache.prefixKey "a" "b:c" = RedisCache.prefixKey "a:b" "c" := by
  decide

/-- C24, amended: two cache instances never address the same backing key exactly when
neither prefix followed by its colon begins the other prefix followed by its colon; this is
the case for every two different prefixes that contain no colon. -/
theorem C24_prefix_namespacing (p1 p2 : String) :
    ((∀ k1 k2, RedisCache.prefixKey p1 k1 ≠ RedisCache.prefixKey p2 k2) ↔
        (¬ (p1 ++ ":").data <+: (p2 ++ ":").data ∧
          ¬ (p2 ++ ":").data <+: (p1 ++ ":").data)) ∧
      (p1 ≠ p2 → ':' ∉ p1.data → ':' ∉ p2.data →
        ∀ k1 k2, RedisCache.prefixKey p1 k1 ≠ RedisCache.prefixKey p2 k2) := by
  refine ⟨prefixKey_disjoint_iff p1 p2, ?_⟩
  intro hne h1 h2 k1 k2 heq
  have hd := congrArg String.data heq
  simp only [RedisCache.prefixKey, String.data_append] at hd
  rw [List.append_assoc, List.append_assoc, List.singleton_append,
    List.singleton_append] at hd
  exact hne (String.ext (colon_split h1 h2 hd))

/-- C25, at the failing input: `SetObject` of the string `hello` succeeds and stores its five
characters as they are, without the serialisation its comment promises, and `GetObject` for
a string destination fails, because these characters are not a JSON text; the string of the
three characters `"a"` is stored as it is and read back as the one character `a`. -/
theorem C25_string_not_read_back :
    (CacheManager.SetObject Payload.marshal "lynx" [] false "greeting" (.str "hello") 0).1 =
        none ∧
      RedisCache.Get "lynx"
        (CacheManager.SetObject Payload.marshal "lynx" [] false "greeting" (.str "hello") 0).2
        false "greeting" = .ok "hello" ∧
      CacheManager.GetObject json.UnmarshalString "lynx"
        (CacheManager.SetObject Payload.marshal "lynx" [] false "greeting" (.str "hello") 0).2
        false "greeting" "" = .error .unmarshal ∧
      (CacheManager.SetObject Payload.marshal "lynx" [] false "quoted" (.str "\"a\"") 0).1 =
        none ∧
      CacheManager.GetObject json.UnmarshalString "lynx"
        (CacheManager.SetObject Payload.marshal "lynx" [] false "quoted" (.str "\"a\"") 0).2
        false "quoted" "" = .ok "a" := by
  decide

/-- C26, as stated, fails: of a batch of two strings whose second `SET` the server refuses,
the first item is written and the second is not, and the error returned is the error of the
Redis client, which names no key. -/
theorem C26_partial_write_unreported :
    (RedisCache.SetMultiple Payload.marshal "lynx" [] refusesB batchAB 60).1 = some .redis ∧
      Redis.Get (RedisCache.SetMultiple Payload.marshal "lynx" [] refusesB batchAB 60).2
        "lynx:a" = some "1" ∧
      Redis.Get (RedisCache.SetMultiple Payload.marshal "lynx" [] refusesB batchAB 60).2
        "lynx:b" = none := by
  decide

/-- C26, amended: when a value of the batch cannot be serialised, no item is written and the
error names the key of the first such value in the order of the iteration. When every value
can be serialised: an empty batch does nothing; a pipeline that does not reach the server
writes no item and returns the error of the client; otherwise every item whose `SET` the
server accepts is written, every refused item is left as it was, keys outside the batch are
untouched, and the error is the error of the client, without a key, exactly when some `SET`
was refused. -/
theorem C26_batch_outcomes {α : Type} (marshal : α → Option String) (pre : String)
    (cache : List (String × CacheEntry)) (o : BatchOracle) (items : List (String × Value α))
    (expiration : Nat) (hkeys : (items.map Prod.fst).Nodup) :
    (∀ before key value rest, items = before ++ (key, value) :: rest →
        (∀ it ∈ before, (it.2.strVal marshal).isSome = true) → value.strVal marshal = none →
        RedisCache.SetMultiple marshal pre cache o items expiration =
          (some (.marshalKey key), cache)) ∧
      ((∀ it ∈ items, (it.2.strVal marshal).isSome = true) →
        (items = [] →
          RedisCache.SetMultiple marshal pre cache o items expiration = (none, cache)) ∧
        (items ≠ [] → o.pipeErr = true →
          RedisCache.SetMultiple marshal pre cache o items expiration =
            (some .redis, cache)) ∧
        (items ≠ [] → o.pipeErr = false →
          (RedisCache.SetMultiple marshal pre cache o items expiration).1 =
              (if items.any (fun it => o.refused (RedisCache.prefixKey pre it.1)) = true
                then some .redis else none) ∧
            (∀ key value, (key, value) ∈ items →
              Redis.Get (RedisCache.SetMultiple marshal pre cache o items expiration).2
                  (RedisCache.prefixKey pre key) =
                if o.refused (RedisCache.prefixKey pre key) = true then
                  Redis.Get cache (RedisCache.prefixKey pre key)
                else value.strVal marshal) ∧
            (∀ k, (∀ it ∈ items, RedisCache.prefixKey pre it.1 ≠ k) →
              Redis.Get (RedisCache.SetMultiple marshal pre cache o items expiration).2 k =
                Redis.Get cache k))) := by
  refine ⟨?_, ?_⟩
  · intro before key value rest hitems hbefore hvalue
    unfold RedisCache.SetMultiple
    rw [hitems, RedisCache.queueItems_error marshal pre key value rest hvalue before hbefore]
  · intro hall
    obtain ⟨cmds, hq, hmap, hmem⟩ := RedisCache.queueItems_ok marshal pre items hall
    have hlen : cmds.length = items.length := by
      have := congrArg List.length hmap
      simpa using this
    have hempty : cmds.isEmpty = true ↔ items = [] := by
      rw [List.isEmpty_iff]
      constructor
      · intro h
        rw [h] at hlen
        exact List.length_eq_zero.mp hlen.symm
      · intro h
        rw [h] at hlen
        exact List.length_eq_zero.mp hlen
    have hnodup : (cmds.map Prod.fst).Nodup := by
      have hcomp : items.map (fun it => RedisCache.prefixKey pre it.1) =
          (items.map Prod.fst).map (RedisCache.prefixKey pre) := by
        rw [List.map_map]
        rfl
      rw [hmap, hcomp]
      exact List.Nodup.map (fun _ _ h => RedisCache.prefixKey_inj pre h) hkeys
    unfold RedisCache.SetMultiple
    rw [hq]
    simp only
    refine ⟨?_, ?_, ?_⟩
    · intro h
      rw [if_pos (hempty.mpr h)]
    · intro h hp
      rw [if_neg (fun hc => h (hempty.mp hc)), if_pos hp]
    · intro h hp
      rw [if_neg (fun hc => h (hempty.mp hc)), if_neg (by simp [hp])]
      refine ⟨?_, ?_, ?_⟩
      · have hany : cmds.any (fun c => o.refused c.1) =
            items.any (fun it => o.refused (RedisCache.prefixKey pre it.1)) := by
          rw [← any_map_eq Prod.fst o.refused cmds, hmap, any_map_eq]
        simp only [hany]
      · intro key value hin
        obtain ⟨text, htext, hcmd⟩ := hmem key value hin
        simp only
        rw [Redis.execSets_Get o.refused expiration cmds cache hnodup _ _ hcmd, htext]
      · intro k hk
        simp only
        apply Redis.execSets_frame
        rw [hmap]
        intro hin
        rw [List.mem_map] at hin
        obtain ⟨it, hit, heq⟩ := hin
        exact hk it hit heq

/-- Witness of C26 amended: the batch of two strings whose second `SET` is refused; and a
batch whose second value is a channel is rejected with the key `b`, nothing written. -/
theorem C26_batch_outcomes_witness :
    (batchAB.map Prod.fst).Nodup ∧
      RedisCache.SetMultiple Payload.marshal "lynx" [] refusesB batchChannel 60 =
        (some (.marshalKey "b"), []) ∧
      ((∀ before key value rest, batchAB = before ++ (key, value) :: rest →
          (∀ it ∈ before, (it.2.strVal Payload.marshal).isSome = true) →
          value.strVal Payload.marshal = none →
          RedisCache.SetMultiple Payload.marshal "lynx" [] refusesB batchAB 60 =
            (some (.marshalKey key), [])) ∧
        ((∀ it ∈ batchAB, (it.2.strVal Payload.marshal).isSome = true) →
          (batchAB = [] →
            RedisCache.SetMultiple Payload.marshal "lynx" [] refusesB batchAB 60 =
              (none, [])) ∧
          (batchAB ≠ [] → refusesB.pipeErr = true →
            RedisCache.SetMultiple Payload.marshal "lynx" [] refusesB batchAB 60 =
              (some .redis, [])) ∧
          (batchAB ≠ [] → refusesB.pipeErr = false →
            (RedisCache.SetMultiple Payload.marshal "lynx" [] refusesB batchAB 60).1 =
                (if batchAB.any (fun it => refusesB.refused (RedisCache.prefixKey "lynx" it.1)) =
                    true
                  then some .redis else none) ∧
              (∀ key value, (key, value) ∈ batchAB →
                Redis.Get (RedisCache.SetMultiple Payload.marshal "lynx" [] refusesB batchAB 60).2
                    (RedisCache.prefixKey "lynx" key) =
                  if refusesB.refused (RedisCache.prefixKey "lynx" key) = true then
                    Redis.Get [] (RedisCache.prefixKey "lynx" key)
                  else value.strVal Payload.marshal) ∧
              (∀ k, (∀ it ∈ batchAB, RedisCache.prefixKey "lynx" it.1 ≠ k) →
                Redis.Get (RedisCache.SetMultiple Payload.marshal "lynx" [] refusesB batchAB 60).2
                    k =
                  Redis.Get [] k)))) :=
  ⟨by decide, by decide,
    C26_batch_outcomes Payload.marshal "lynx" [] refusesB batchAB 60 (by decide)⟩

/-- C27: `isShortCodeTaken` runs the two-stage check. When the cache answers the existence
check and holds the mapping key, it returns true with no error after that one call, without
a query to the store. Otherwise (cache miss or cache error) it issues the count query: it
returns an error exactly when the query fails, and then false; when the query answers it
returns true exactly when the store has a row with the code. -/
theorem C27_two_stage_collision_check (st : State) (o : TakenOracle) (code : String) :
    (o.existsErr = false ∧ (Redis.Get st.cache (getCacheKey code)).isSome = true →
        isShortCodeTaken st o code =
          ((true, none), st.call (Call.redisExists (getCacheKey code)))) ∧
      (¬ (o.existsErr = false ∧ (Redis.Get st.cache (getCacheKey code)).isSome = true) →
        (isShortCodeTaken st o code).2 =
            (st.call (Call.redisExists (getCacheKey code))).call (Call.dbCount code) ∧
          ((isShortCodeTaken st o code).1.2.isSome = true ↔ o.countErr = true) ∧
          (o.countErr = true → (isShortCodeTaken st o code).1 = (false, some .dbError)) ∧
          (o.countErr = false →
            ((isShortCodeTaken st o code).1.1 = true ↔ ∃ r ∈ st.db, r.ShortURL = code))) := by
  constructor
  · rintro ⟨he, hk⟩
    have hpos := Redis.Exists_pos_iff.mpr hk
    unfold isShortCodeTaken
    simp [he, hpos]
  · intro hnot
    have hc : ¬ ((!o.existsErr && decide (Redis.Exists st.cache (getCacheKey code) > 0)) = true) := by
      intro h
      simp only [Bool.and_eq_true, Bool.not_eq_true', decide_eq_true_eq] at h
      exact hnot ⟨h.1, Redis.Exists_pos_iff.mp h.2⟩
    unfold isShortCodeTaken
    simp only [hc, if_false]
    cases hq : o.countErr with
    | true => simp
    | false =>
      refine ⟨by simp, by simp, by simp, fun _ => ?_⟩
      simp only [Bool.false_eq_true, if_false, decide_eq_true_eq]
      exact DB.Count_pos_iff

/-- C28, as stated, fails: a `CreateShortURL` on the empty state whose transaction fails at
the commit returns an error and leaves the mapping of `AAAAAA` in the cache, while the
table has no row. -/
theorem C28_commit_failure_breaks_coherence :
    (CreateShortURL "https://lynx.test/" emptyState commitFails 7 "https://example.com/a"
        "").1 = .error .dbError ∧
      Redis.Get (run emptyState
          [.create "https://lynx.test/" commitFails 7 "https://example.com/a" ""]).cache
        (getCacheKey "AAAAAA") = some "https://example.com/a" ∧
      (run emptyState
          [.create "https://lynx.test/" commitFails 7 "https://example.com/a" ""]).db = [] := by
  decide

/-- C28, amended: in every state reachable from the empty store and cache by calls of the
service (creations, updates, deletions and resolutions, and also click-accounting runs and
cache expiry) among which no transaction fails at its commit, whenever the cache holds a
mapping for a code `c` with value `v`, the table has a row with code `c` whose destination
is `v`. -/
theorem C28_coherence_without_commit_failure (ops : List Op)
    (hcommit : ∀ op ∈ ops, op.commits = true) :
    ∀ c v, Redis.Get (run emptyState ops).cache (getCacheKey c) = some v →
      ∃ r ∈ (run emptyState ops).db, r.ShortURL = c ∧ r.LongURL = v :=
  run_coherent ops emptyState ⟨List.nodup_nil, List.nodup_nil⟩
    (fun _ _ h => by cases h) hcommit

/-- Witness of C28 amended: a creation, a resolution and an update, after which the cache
holds the new destination of `AAAAAA`. -/
theorem C28_coherence_without_commit_failure_witness :
    (∀ op ∈ calmRun, op.commits = true) ∧
      Redis.Get (run emptyState calmRun).cache (getCacheKey "AAAAAA") =
        some "https://example.com/new" ∧
      ∀ c v, Redis.Get (run emptyState calmRun).cache (getCacheKey c) = some v →
        ∃ r ∈ (run emptyState calmRun).db, r.ShortURL = c ∧ r.LongURL = v :=
  ⟨by decide, by decide, C28_coherence_without_commit_failure calmRun (by decide)⟩

/-- C29: after `UpdateURL` returned a link for the id of a row with code `c`, in a store with
unique ids and unique codes, `GetLongURL` of `c` (a code that does not start with `urls/`)
returns the new destination, from the cache mapping the update rewrote or, when the cache
does not answer, from the saved row; the row is saved with the new destination and the short
codes, owners, click counters and ids of all rows are the same as before the call. -/
theorem C29_update_then_resolve (urlPrefix : String) (st st' : State) (o : UpdateOracle)
    (g : GetOracle) (owner urlID : Nat) (newDest : String) (url r : URL)
    (hcodes : UniqueCodes st.db) (hids : UniqueIDs st.db) (hr : r ∈ st.db)
    (hid : r.ID = urlID)
    (hnorm : strings.TrimPrefix r.ShortURL "urls/" = r.ShortURL)
    (hupd : UpdateURL urlPrefix st o owner urlID newDest = (.ok url, st'))
    (hreach : ¬ (g.getErr = true ∧ g.firstErr = true)) :
    (GetLongURL st' g r.ShortURL).1 = (newDest, none) ∧
      { r with LongURL := newDest, UpdatedAt := o.updatedAt } ∈ st'.db ∧
      st'.db.map URL.ShortURL = st.db.map URL.ShortURL ∧
      st'.db.map URL.UserID = st.db.map URL.UserID ∧
      st'.db.map URL.Clicks = st.db.map URL.Clicks ∧
      st'.db.map URL.ID = st.db.map URL.ID ∧
      r.UserID = owner := by
  obtain ⟨found, hfound, hdb, hcache, -, -⟩ := UpdateURL_ok hupd
  have huniq := DB.FirstByIDUser_of_unique hids hr owner
  rw [hid, hfound] at huniq
  have hown : r.UserID = owner := by
    by_contra ho
    rw [if_neg ho] at huniq
    cases huniq
  have hfr : found = r := by
    rw [if_pos hown] at huniq
    exact Option.some.inj huniq
  subst hfr
  have hcodes' : st'.db.map URL.ShortURL = st.db.map URL.ShortURL := by
    rw [hdb]; exact DB.Save_map URL.ShortURL hids hr rfl rfl
  have hmem : { found with LongURL := newDest, UpdatedAt := o.updatedAt } ∈ st'.db := by
    rw [hdb]; exact DB.Save_mem hr rfl
  refine ⟨?_, hmem, hcodes', ?_, ?_, ?_, hown⟩
  · cases hge : g.getErr with
    | false =>
      apply GetLongURL_hit hnorm hge
      rw [hcache]
      exact Redis.Get_Set_self _ _ _ _
    | true =>
      have hq : g.firstErr = false := by
        cases hfe : g.firstErr with
        | false => rfl
        | true => exact absurd ⟨hge, hfe⟩ hreach
      have hu' : UniqueCodes st'.db := by
        unfold UniqueCodes
        rw [hcodes']
        exact hcodes
      have hfirst := DB.First_of_unique hu' hmem
      exact GetLongURL_fallback hnorm (Or.inl hge) hq hfirst
  · rw [hdb]; exact DB.Save_map URL.UserID hids hr rfl rfl
  · rw [hdb]; exact DB.Save_map URL.Clicks hids hr rfl rfl
  · rw [hdb]; exact DB.Save_map URL.ID hids hr rfl rfl

/-- Witness of C29: the owner gives the link `AAAAAA`, whose counter is in the cache, a new
destination. -/
theorem C29_update_then_resolve_witness :
    (GetLongURL (UpdateURL "https://lynx.test/" stateClicked calmUpdate 7 1
        "https://example.com/new").2 calmGet rowAAAAAA.ShortURL).1 =
        ("https://example.com/new", none) ∧
      { rowAAAAAA with LongURL := "https://example.com/new",
                       UpdatedAt := calmUpdate.updatedAt } ∈
        (UpdateURL "https://lynx.test/" stateClicked calmUpdate 7 1
          "https://example.com/new").2.db ∧
      (UpdateURL "https://lynx.test/" stateClicked calmUpdate 7 1
        "https://example.com/new").2.db.map URL.ShortURL = stateClicked.db.map URL.ShortURL ∧
      (UpdateURL "https://lynx.test/" stateClicked calmUpdate 7 1
        "https://example.com/new").2.db.map URL.UserID = stateClicked.db.map URL.UserID ∧
      (UpdateURL "https://lynx.test/" stateClicked calmUpdate 7 1
        "https://example.com/new").2.db.map URL.Clicks = stateClicked.db.map URL.Clicks ∧
      (UpdateURL "https://lynx.test/" stateClicked calmUpdate 7 1
        "https://example.com/new").2.db.map URL.ID = stateClicked.db.map URL.ID ∧
      rowAAAAAA.UserID = 7 :=
  C29_update_then_resolve "https://lynx.test/" stateClicked _ calmUpdate calmGet 7 1
    "https://example.com/new"
    { rowAAAAAA with LongURL := "https://example.com/new", UpdatedAt := 1700000500,
                     ShortURL := "https://lynx.test/urls/AAAAAA" }
    rowAAAAAA (by decide) (by decide) (by decide) (by decide) (by decide) (by decide)
    (by decide)

/-- C30: password hashing round trip. For every password, every delivery of the entropy source
and every key derivation function, `HashPassword` succeeds and the stored value splits on `$`
into exactly two parts, the salt and the encoded hash, neither of which contains `$`;
`CheckPassword` of the password that was hashed returns no error, and `CheckPassword` of a
password whose Argon2 key under that salt differs returns the error of an incorrect
password. -/
theorem C30_password_round_trip (idKey : Argon2) (u : User) (bs : List Nat) :
    ∃ u' salt hash, User.HashPassword idKey u (some bs) = .ok u' ∧
      generateSalt (some bs) = .ok salt ∧
      splitPassword u'.Password = [salt, hash] ∧ '$' ∉ salt.data ∧ '$' ∉ hash.data ∧
      User.CheckPassword idKey u' u.Password = none ∧
      ∀ q, fillBytes Argon2KeyLength
            (idKey q salt Argon2Time Argon2Memory Argon2Threads Argon2KeyLength) ≠
          fillBytes Argon2KeyLength
            (idKey u.Password salt Argon2Time Argon2Memory Argon2Threads Argon2KeyLength) →
        User.CheckPassword idKey u' q = some .incorrect := by
  have hs : '$' ∉ (⟨base64.RawStdEncoding.EncodeToString (fillBytes SaltLength bs)⟩ :
      String).data := RawStd_no_dollar _
  have hh : ∀ p : String, '$' ∉ (⟨base64.RawStdEncoding.EncodeToString
      (fillBytes Argon2KeyLength (idKey p
        ⟨base64.RawStdEncoding.EncodeToString (fillBytes SaltLength bs)⟩
        Argon2Time Argon2Memory Argon2Threads Argon2KeyLength))⟩ : String).data :=
    fun p => RawStd_no_dollar _
  have hsplit := splitPassword_join _ _ hs (hh u.Password)
  refine ⟨_, ⟨base64.RawStdEncoding.EncodeToString (fillBytes SaltLength bs)⟩, _, rfl, rfl,
    hsplit, hs, hh u.Password, ?_, ?_⟩
  · unfold User.CheckPassword
    simp only [hsplit]
    simp
  · intro q hq
    have hne : (⟨base64.RawStdEncoding.EncodeToString
        (fillBytes Argon2KeyLength (idKey q
          ⟨base64.RawStdEncoding.EncodeToString (fillBytes SaltLength bs)⟩
          Argon2Time Argon2Memory Argon2Threads Argon2KeyLength))⟩ : String) ≠
        ⟨base64.RawStdEncoding.EncodeToString
        (fillBytes Argon2KeyLength (idKey u.Password
          ⟨base64.RawStdEncoding.EncodeToString (fillBytes SaltLength bs)⟩
          Argon2Time Argon2Memory Argon2Threads Argon2KeyLength))⟩ := by
      intro heq
      apply hq
      have hd := congrArg String.data heq
      exact RawStd_inj _ _ (fillBytes_lt _ _) (fillBytes_lt _ _)
        (by rw [fillBytes_length, fillBytes_length]) hd
    unfold User.CheckPassword
    simp only [hsplit]
    simp [hne]

end Lynx
